import Mathlib

/-!
# Dijkstra-map generation (`src/w4/dijkstraMapGen.cpp`)

A shallow embedding of the influence-field generators of the roguelike:
`init_tiles`, `process_dmap` (relaxation sweeps followed by the falloff
rewrite) and the generators `gen_player_approach_map`, `gen_player_flee_map`,
`gen_player_archer_map` and `gen_hive_pack_map`.

Conventions of the embedding.

* `float` values in `process_dmap` and the generators are idealised as exact
  rationals (`ℚ`).  Ring values are small integers, on which `float` arithmetic
  is exact; the falloff table `buildCache` and the `-1.2f` rescale are computed
  without rounding.
* Where rounding decides a property, the binary32 operations are modelled
  themselves (`roundF32Q`, `roundF32`, `F32`): the line-of-sight samples
  `losSample` of the archer generator are computed in binary32, and
  `buildCacheF32` is the falloff table as binary32 arithmetic produces it, with
  underflow and overflow.
* `size_t` arithmetic is arithmetic on `Nat` modulo `2 ^ 64`; `int` values are
  `Int` (signed overflow is undefined behaviour and is not modelled).
* Reading or writing a `std::vector` outside its bounds is undefined behaviour;
  the embedding reports it as `Res.oob`.
* The `while (!done)` loop is run with an explicit budget of sweeps; running
  out of budget is reported as `Res.fuelOut`.
* `pow` from the C library is a parameter `pw` of the functions that need it.
-/

namespace DijkstraMapGen

/-- Result of running a fragment of the program: a value, an access outside the
bounds of a vector, or an exhausted budget of sweeps. -/
inductive Res (α : Type) where
  | ok (a : α)
  | oob
  | fuelOut
  deriving DecidableEq, Repr

/-- Sequencing of fallible steps. -/
def Res.bind {α β : Type} (r : Res α) (f : α → Res β) : Res β :=
  match r with
  | .ok a => f a
  | .oob => .oob
  | .fuelOut => .fuelOut

/-- Addition of two `size_t` values. -/
def sizeAdd (a b : Nat) : Nat := (a + b) % 2 ^ 64

/-- Subtraction of two `size_t` values (wraps around below zero). -/
def sizeSub (a b : Nat) : Nat := (a + (2 ^ 64 - b % 2 ^ 64)) % 2 ^ 64

/-- Multiplication of two `size_t` values. -/
def sizeMul (a b : Nat) : Nat := (a * b) % 2 ^ 64

/-- Conversion of an `int` to `size_t`. -/
def toSize (z : Int) : Nat := (z % 2 ^ 64).toNat

/-- Narrowing of a `size_t` to a 32-bit `int`. -/
def toInt32 (n : Nat) : Int :=
  if n % 2 ^ 32 < 2 ^ 31 then ((n % 2 ^ 32 : Nat) : Int) else ((n % 2 ^ 32 : Nat) : Int) - 2 ^ 32

/-- Conversion `(int)v` of a float: truncation towards zero. -/
def floatToInt (v : ℚ) : Int := if 0 ≤ v then v.floor else -((-v).floor)

/-- The C library function `round`: nearest integer, halves away from zero. -/
def roundf (v : ℚ) : Int := if 0 ≤ v then (v + 1 / 2).floor else -((-v + 1 / 2).floor)

/-! ## binary32 arithmetic -/

/-- Nearest integer, a half going to the even neighbour: the rounding of IEEE 754. -/
def roundEven (q : ℚ) : Int :=
  if q - q.floor < 1 / 2 then q.floor
  else if 1 / 2 < q - q.floor then q.floor + 1
  else if q.floor % 2 = 0 then q.floor else q.floor + 1

/-- The number of halvings that bring `n` below 2, with a budget of steps. -/
def log2Fuel : Nat → Nat → Nat
  | 0, _ => 0
  | fuel + 1, n => if n < 2 then 0 else log2Fuel fuel (n / 2) + 1

/-- The position of the leading bit of `n`. -/
def natLog2 (n : Nat) : Nat := log2Fuel n n

/-- The exponent `b` of the binade of a rational `q ≠ 0`: `2^b ≤ |q| < 2^(b+1)`. -/
def binade (q : ℚ) : Int :=
  if q.den * 2 ^ natLog2 q.num.natAbs ≤ q.num.natAbs * 2 ^ natLog2 q.den then
    (natLog2 q.num.natAbs : Int) - (natLog2 q.den : Int)
  else (natLog2 q.num.natAbs : Int) - (natLog2 q.den : Int) - 1

/-- The exponent of the spacing of binary32 values around `q`: 24 significant
bits, and never below the subnormal spacing `2^-149`. -/
def ulpExp (q : ℚ) : Int := max (-149) (binade q - 23)

/-- Rounding to the nearest multiple of `2^e`, a half going to the even multiple. -/
def roundTo (e : Int) (q : ℚ) : ℚ := (roundEven (q / 2 ^ e) : ℚ) * 2 ^ e

/-- Rounding of a rational to the nearest binary32 value, before the test for
overflow. -/
def roundF32Q (q : ℚ) : ℚ := roundTo (ulpExp q) q

/-- The rational is a binary32 value (of any magnitude). -/
def IsF32 (q : ℚ) : Prop := roundF32Q q = q

instance (q : ℚ) : Decidable (IsF32 q) := by
  unfold IsF32; infer_instance

/-- A binary32 value: NaN, an infinity, or a rational (the two signed zeros are
not told apart). -/
inductive F32 where
  | nan
  | negInf
  | finite (q : ℚ)
  | posInf
  deriving DecidableEq, Repr

/-- Rounding of a rational to binary32: to the nearest value, and to an infinity
once the rounded magnitude reaches `2^128`. -/
def roundF32 (q : ℚ) : F32 :=
  if 2 ^ 128 ≤ roundF32Q q then .posInf
  else if roundF32Q q ≤ -2 ^ 128 then .negInf
  else .finite (roundF32Q q)

/-- The binary32 sum `x + y`. -/
def F32.add (x y : F32) : F32 :=
  match x with
  | .nan => .nan
  | .finite p =>
    match y with
    | .nan => .nan
    | .finite q => roundF32 (p + q)
    | .posInf => .posInf
    | .negInf => .negInf
  | .posInf =>
    match y with
    | .nan => .nan
    | .negInf => .nan
    | _ => .posInf
  | .negInf =>
    match y with
    | .nan => .nan
    | .posInf => .nan
    | _ => .negInf

/-- The sign rule for the product of an infinity with a finite value. -/
def F32.infTimes (pos : Bool) (q : ℚ) : F32 :=
  if q = 0 then .nan else if (0 < q) = pos then .posInf else .negInf

/-- The binary32 product `x * y`. -/
def F32.mul (x y : F32) : F32 :=
  match x with
  | .nan => .nan
  | .finite p =>
    match y with
    | .nan => .nan
    | .finite q => roundF32 (p * q)
    | .posInf => F32.infTimes true p
    | .negInf => F32.infTimes false p
  | .posInf =>
    match y with
    | .nan => .nan
    | .finite q => F32.infTimes true q
    | .posInf => .posInf
    | .negInf => .negInf
  | .negInf =>
    match y with
    | .nan => .nan
    | .finite q => F32.infTimes false q
    | .posInf => .negInf
    | .negInf => .posInf

/-- The comparison `x <= y` of binary32 values; it is false when either is NaN. -/
def F32.le (x y : F32) : Prop :=
  match x with
  | .nan => False
  | .negInf =>
    match y with
    | .nan => False
    | _ => True
  | .finite p =>
    match y with
    | .finite q => p ≤ q
    | .posInf => True
    | _ => False
  | .posInf =>
    match y with
    | .posInf => True
    | _ => False

instance F32.decLe : (x y : F32) → Decidable (F32.le x y)
  | .nan, _ => isFalse (fun h => h)
  | .negInf, .nan => isFalse (fun h => h)
  | .negInf, .negInf => isTrue trivial
  | .negInf, .finite _ => isTrue trivial
  | .negInf, .posInf => isTrue trivial
  | .finite _, .nan => isFalse (fun h => h)
  | .finite _, .negInf => isFalse (fun h => h)
  | .finite p, .finite q => inferInstanceAs (Decidable (p ≤ q))
  | .finite _, .posInf => isTrue trivial
  | .posInf, .nan => isFalse (fun h => h)
  | .posInf, .negInf => isFalse (fun h => h)
  | .posInf, .finite _ => isFalse (fun h => h)
  | .posInf, .posInf => isTrue trivial

/-! ## Vectors, tiles and the grid -/

/-- Checked read `v[i]` of a vector. -/
def vget {α : Type} (v : List α) (i : Nat) : Res α :=
  match v[i]? with
  | some a => .ok a
  | none => .oob

/-- Checked write `v[i] = a` of a vector. -/
def vset {α : Type} (v : List α) (i : Nat) (a : α) : Res (List α) :=
  if i < v.length then .ok (v.set i a) else .oob

/-- Modelled from the spec: the tile constant `dungeon::floor` of `dungeonUtils.h`
(a walkable `Floor` tile); every other tile value is `Blocked`. -/
def dungeon.floor : Char := ' '

/-- Modelled from the spec: the tile constant `dungeon::wall` of `dungeonUtils.h`
(a `Blocked` tile). -/
def dungeon.wall : Char := '#'

/-- Modelled from the spec: `DungeonData` of `ecsTypes.h`, the grid with its tile
classification and its `size_t` dimensions. -/
structure DungeonData where
  tiles : List Char
  width : Nat
  height : Nat
  deriving DecidableEq, Repr

/-- Modelled from the spec: `Position` of `ecsTypes.h`, an `int` coordinate pair. -/
structure Position where
  x : Int
  y : Int
  deriving DecidableEq, Repr

/-- Modelled from the spec: `Team` of `ecsTypes.h`. -/
structure Team where
  team : Int
  deriving DecidableEq, Repr

/-- Modelled from the spec: the falloff kinds `DF_LINEAR`, `DF_EXP`, `DF_POW` of
`ecsTypes.h`; `DF_OTHER` stands for any other numeric code, which the `switch`
of `process_dmap` does not handle. -/
inductive DmapFuncType where
  | DF_LINEAR
  | DF_EXP
  | DF_POW
  | DF_OTHER
  deriving DecidableEq, Repr

/-- Modelled from the spec: `DmapFunc` of `ecsTypes.h`, the falloff kind with its
parameter `a`. -/
structure DmapFunc where
  type : DmapFuncType
  a : ℚ
  deriving DecidableEq, Repr

/-- The sentinel `invalid_tile_value = 1e5f`. -/
def invalid_tile_value : ℚ := 100000

/-- The flat index `y * dd.width + x`, computed in `size_t`. -/
def cellIndex (dd : DungeonData) (x y : Nat) : Nat := sizeAdd (sizeMul y dd.width) x

/-- The member function `resize(n)` of `std::vector<float>`: the first `n` entries
are kept and the buffer is padded with zeros up to length `n`. -/
def vresize (v : List ℚ) (n : Nat) : List ℚ := v.take n ++ List.replicate (n - v.length) 0

/-- The function `init_tiles`: resize the buffer to `width * height` entries and
overwrite every entry with the sentinel. -/
def init_tiles (map : List ℚ) (dd : DungeonData) : List ℚ :=
  (vresize map (sizeMul dd.width dd.height)).map fun _ => invalid_tile_value

/-- The lambda `getMapAt` of `process_dmap`; both coordinates are compared with
`dd.width`, as in the source. -/
def getMapAt (map : List ℚ) (dd : DungeonData) (x y : Nat) (dflt : ℚ) : Res ℚ :=
  if x < dd.width ∧ y < dd.width then
    (vget dd.tiles (cellIndex dd x y)).bind fun t =>
      if t = dungeon.floor then vget map (cellIndex dd x y) else .ok dflt
  else .ok dflt

/-- The lambda `getMinNei` of `process_dmap`. -/
def getMinNei (map : List ℚ) (dd : DungeonData) (x y : Nat) : Res ℚ :=
  (vget map (cellIndex dd x y)).bind fun v0 =>
  (getMapAt map dd (sizeSub x 1) y v0).bind fun n1 =>
  (getMapAt map dd (sizeAdd x 1) y (min v0 n1)).bind fun n2 =>
  (getMapAt map dd x (sizeSub y 1) (min (min v0 n1) n2)).bind fun n3 =>
  (getMapAt map dd x (sizeAdd y 1) (min (min (min v0 n1) n2) n3)).bind fun n4 =>
  .ok (min (min (min (min v0 n1) n2) n3) n4)

/-- The variables a relaxation sweep works on: the buffer, the flag `done` and
the running maximum `maxVal`. -/
structure Scan where
  map : List ℚ
  done : Bool
  maxVal : ℚ
  deriving DecidableEq, Repr

/-- Body of the two nested `for` loops of the relaxation sweep, at cell `(x, y)`. -/
def relaxCell (dd : DungeonData) (s : Scan) (x y : Nat) : Res Scan :=
  (vget dd.tiles (cellIndex dd x y)).bind fun t =>
    if t ≠ dungeon.floor then .ok s
    else
      (getMapAt s.map dd x y invalid_tile_value).bind fun myVal =>
      (getMinNei s.map dd x y).bind fun minVal =>
        if minVal < myVal - 1 then
          (vset s.map (cellIndex dd x y) (minVal + 1)).bind fun m =>
            .ok ⟨m, false, if minVal + 1 > s.maxVal then minVal + 1 else s.maxVal⟩
        else .ok s

/-- The cells `(x, y)` in the order of `for y < height` / `for x < width`. -/
def cells (dd : DungeonData) : List (Nat × Nat) :=
  (List.range dd.height).flatMap fun y => (List.range dd.width).map fun x => (x, y)

/-- Running a loop body over a list of cells, threading the state. -/
def forEachCell {σ : Type} (f : σ → Nat → Nat → Res σ) : List (Nat × Nat) → σ → Res σ
  | [], s => .ok s
  | c :: cs, s => (f s c.1 c.2).bind fun s1 => forEachCell f cs s1

/-- One pass of the body of `while (!done)`: `done = true`, then the row-major sweep. -/
def sweep (dd : DungeonData) (map : List ℚ) (maxVal : ℚ) : Res Scan :=
  forEachCell (relaxCell dd) (cells dd) ⟨map, true, maxVal⟩

/-- The loop `while (!done)` with a budget of sweeps; yields the buffer and `maxVal`. -/
def relaxLoop (dd : DungeonData) : Nat → List ℚ → ℚ → Res (List ℚ × ℚ)
  | 0, _, _ => .fuelOut
  | fuel + 1, map, maxVal =>
    (sweep dd map maxVal).bind fun s =>
      if s.done then .ok (s.map, s.maxVal) else relaxLoop dd fuel s.map s.maxVal

/-- The `switch` on the falloff kind: the next table value from the previous one,
in exact arithmetic (`cacheStepF32` is the same step with binary32 rounding). -/
def cacheStep (pw : ℚ → ℚ → ℚ) (funcArgs : DmapFunc) (prevValue : ℚ) (i : Nat) : ℚ :=
  match funcArgs.type with
  | .DF_LINEAR => prevValue + funcArgs.a
  | .DF_EXP => prevValue * funcArgs.a
  | .DF_POW => pw (i : ℚ) funcArgs.a
  | .DF_OTHER => prevValue

/-- The values pushed by `n` further iterations of the table loop, from index `i`. -/
def cacheFrom (pw : ℚ → ℚ → ℚ) (funcArgs : DmapFunc) : Nat → Nat → ℚ → List ℚ
  | 0, _, _ => []
  | n + 1, i, prevValue =>
    cacheStep pw funcArgs prevValue i :: cacheFrom pw funcArgs n (i + 1) (cacheStep pw funcArgs prevValue i)

/-- The first table value: `1` for `DF_EXP`, `0` otherwise. -/
def cacheInit (funcArgs : DmapFunc) : ℚ := if funcArgs.type = .DF_EXP then 1 else 0

/-- The table `cacheV`: the first value, then one value for each `i` with
`1 ≤ i ≤ maxVal`.  The entries are exact; they are the entries of the binary32
table `buildCacheF32` whenever none of them needs rounding. -/
def buildCache (pw : ℚ → ℚ → ℚ) (funcArgs : DmapFunc) (maxVal : ℚ) : List ℚ :=
  cacheInit funcArgs :: cacheFrom pw funcArgs maxVal.floor.toNat 1 (cacheInit funcArgs)

/-- The `switch` on the falloff kind in binary32: `prevValue + funcArgs.a` and
`prevValue * funcArgs.a` are rounded float operations; `pow` yields a `double`
(the rational `pw i a`; a value of `2^128` or more stands for any result that
overflows `float`), which the assignment to `prevValue` rounds to binary32. -/
def cacheStepF32 (pw : ℚ → ℚ → ℚ) (funcArgs : DmapFunc) (prevValue : F32) (i : Nat) : F32 :=
  match funcArgs.type with
  | .DF_LINEAR => prevValue.add (.finite funcArgs.a)
  | .DF_EXP => prevValue.mul (.finite funcArgs.a)
  | .DF_POW => roundF32 (pw (i : ℚ) funcArgs.a)
  | .DF_OTHER => prevValue

/-- The binary32 values pushed by `n` further iterations of the table loop, from
index `i`. -/
def cacheFromF32 (pw : ℚ → ℚ → ℚ) (funcArgs : DmapFunc) : Nat → Nat → F32 → List F32
  | 0, _, _ => []
  | n + 1, i, prevValue =>
    cacheStepF32 pw funcArgs prevValue i ::
      cacheFromF32 pw funcArgs n (i + 1) (cacheStepF32 pw funcArgs prevValue i)

/-- The table `cacheV` as binary32 arithmetic produces it: the first value, then
one value for each `i` with `1 ≤ i ≤ maxVal`. -/
def buildCacheF32 (pw : ℚ → ℚ → ℚ) (funcArgs : DmapFunc) (maxVal : ℚ) : List F32 :=
  .finite (cacheInit funcArgs) ::
    cacheFromF32 pw funcArgs maxVal.floor.toNat 1 (.finite (cacheInit funcArgs))

/-- Body of the final nested loops of `process_dmap`: the falloff rewrite of one cell. -/
def falloffCell (dd : DungeonData) (cacheV : List ℚ) (map : List ℚ) (x y : Nat) : Res (List ℚ) :=
  (vget map (cellIndex dd x y)).bind fun v =>
    if v < invalid_tile_value then
      (vget cacheV (toSize (floatToInt v))).bind fun c => vset map (cellIndex dd x y) c
    else .ok map

/-- The falloff stage of `process_dmap`, from the relaxed buffer and the tracked `maxVal`. -/
def falloff (pw : ℚ → ℚ → ℚ) (dd : DungeonData) (funcArgs : DmapFunc) (map : List ℚ) (maxVal : ℚ) :
    Res (List ℚ) :=
  forEachCell (falloffCell dd (buildCache pw funcArgs (maxVal + 1))) (cells dd) map

/-- The function `process_dmap`: relaxation to a fixed point, then the falloff rewrite. -/
def process_dmap (pw : ℚ → ℚ → ℚ) (fuel : Nat) (map : List ℚ) (dd : DungeonData)
    (funcArgs : DmapFunc) : Res (List ℚ) :=
  (relaxLoop dd fuel map 0).bind fun r => falloff pw dd funcArgs r.1 r.2

/-- Modelled from the spec: the read-only view of the entity world that the
queries of the generators iterate over: the grids, the agents with their teams,
and the hive markers. -/
structure World where
  dungeons : List DungeonData
  characters : List (Position × Team)
  hives : List Position
  deriving DecidableEq, Repr

/-- The function `query_dungeon_data`: run the callback on every grid of the world. -/
def query_dungeon_data (w : World) (c : List ℚ → DungeonData → Res (List ℚ)) (map : List ℚ) :
    Res (List ℚ) :=
  w.dungeons.foldl (fun r dd => r.bind fun m => c m dd) (.ok map)

/-- The function `query_characters_positions`: run the callback on every agent. -/
def query_characters_positions (w : World) (c : List ℚ → Position → Team → Res (List ℚ))
    (map : List ℚ) : Res (List ℚ) :=
  w.characters.foldl (fun r pt => r.bind fun m => c m pt.1 pt.2) (.ok map)

/-- The index `pos.y * dd.width + pos.x`, with the `int` coordinates converted to `size_t`. -/
def posIndex (dd : DungeonData) (pos : Position) : Nat :=
  sizeAdd (sizeMul (toSize pos.y) dd.width) (toSize pos.x)

/-- Seeding stage of `gen_player_approach_map` on one grid. -/
def approachSeeds (w : World) (map : List ℚ) (dd : DungeonData) : Res (List ℚ) :=
  query_characters_positions w
    (fun m pos t => if t.team = 0 then vset m (posIndex dd pos) 0 else .ok m) (init_tiles map dd)

/-- The function `dmaps::gen_player_approach_map`. -/
def gen_player_approach_map (pw : ℚ → ℚ → ℚ) (fuel : Nat) (w : World) (map : List ℚ)
    (funcArgs : DmapFunc) : Res (List ℚ) :=
  query_dungeon_data w
    (fun m0 dd => (approachSeeds w m0 dd).bind fun m => process_dmap pw fuel m dd funcArgs) map

/-- The rescale loop of `gen_player_flee_map`. -/
def fleeScale (map : List ℚ) : List ℚ :=
  map.map fun v => if v < invalid_tile_value then v * (-(6 / 5)) else v

/-- The function `dmaps::gen_player_flee_map`. -/
def gen_player_flee_map (pw : ℚ → ℚ → ℚ) (fuel : Nat) (w : World) (map : List ℚ)
    (funcArgs : DmapFunc) : Res (List ℚ) :=
  (gen_player_approach_map pw fuel w map funcArgs).bind fun m => .ok (fleeScale m)

/-- The constant `shooting_range` of `gen_player_archer_map`. -/
def shooting_range : Int := 4

/-- The offset added to `pos.x` for loop indices `i`, `dx`, `dy`. -/
def archerOffX (i dx dy : Int) : Int := (if dy ≠ dx then shooting_range * dy else 0) + i * dx

/-- The offset added to `pos.y` for loop indices `i`, `dx`, `dy`. -/
def archerOffY (i dx dy : Int) : Int := (if dy = dx then -shooting_range * dx else 0) + i * dy

/-- The loop indices `(i, dx, dy)` in the order of the three nested `for` loops. -/
def archerLoop : List (Int × Int × Int) :=
  [0, 1, 2, 3].flatMap fun i => [-1, 1].flatMap fun dx => [-1, 1].map fun dy => (i, dx, dy)

/-- The sample coordinate
`round((float)p + (float)j / (float)shooting_range * ((float)c - p))`: the four
conversions from `int` and the division, subtraction, multiplication and
addition each round to binary32 (no intermediate value of `int` operands is
large enough to overflow). -/
def losSample (p c j : Int) : Int :=
  roundf (roundF32Q (roundF32Q (p : ℚ) +
    roundF32Q (roundF32Q (roundF32Q (j : ℚ) / roundF32Q (shooting_range : ℚ)) *
      roundF32Q (roundF32Q (c : ℚ) - roundF32Q (p : ℚ)))))

/-- The `int` index `b * dd.width + a`, as used to index `dd.tiles` and `map`. -/
def intIndex (dd : DungeonData) (a b : Int) : Nat :=
  toSize (toInt32 (sizeAdd (sizeMul (toSize b) dd.width) (toSize a)))

/-- The line-of-sight loop over `j`: `true` when no sample is an obstacle; the
loop stops at the first obstacle. -/
def losClear (dd : DungeonData) (pos : Position) (x y : Int) : List Int → Res Bool
  | [] => .ok true
  | j :: js =>
    (vget dd.tiles (intIndex dd (losSample pos.x x j) (losSample pos.y y j))).bind fun t =>
      if t ≠ dungeon.floor then .ok false else losClear dd pos x y js

/-- Body of the innermost loop of `gen_player_archer_map` for the candidate `(x, y)`. -/
def archerCandidate (dd : DungeonData) (pos : Position) (map : List ℚ) (x y : Int) : Res (List ℚ) :=
  if toSize x < dd.width ∧ toSize y < dd.width ∧ x ≥ 0 ∧ y ≥ 0 then
    (vget dd.tiles (intIndex dd x y)).bind fun t =>
      if t = dungeon.floor then
        (losClear dd pos x y [0, 1, 2, 3]).bind fun clear =>
          if clear then vset map (intIndex dd x y) 0 else .ok map
      else .ok map
  else .ok map

/-- The three nested loops of `gen_player_archer_map` for one agent. -/
def archerAgent (dd : DungeonData) (pos : Position) (map : List ℚ) : Res (List ℚ) :=
  archerLoop.foldl
    (fun r o => r.bind fun m =>
      archerCandidate dd pos m (pos.x + archerOffX o.1 o.2.1 o.2.2) (pos.y + archerOffY o.1 o.2.1 o.2.2))
    (.ok map)

/-- Seeding stage of `gen_player_archer_map` on one grid. -/
def archerSeeds (w : World) (map : List ℚ) (dd : DungeonData) : Res (List ℚ) :=
  query_characters_positions w
    (fun m pos t => if t.team = 0 then archerAgent dd pos m else .ok m) (init_tiles map dd)

/-- The function `dmaps::gen_player_archer_map`. -/
def gen_player_archer_map (pw : ℚ → ℚ → ℚ) (fuel : Nat) (w : World) (map : List ℚ)
    (funcArgs : DmapFunc) : Res (List ℚ) :=
  query_dungeon_data w
    (fun m0 dd => (archerSeeds w m0 dd).bind fun m => process_dmap pw fuel m dd funcArgs) map

/-- Seeding stage of `gen_hive_pack_map` on one grid. -/
def hiveSeeds (w : World) (map : List ℚ) (dd : DungeonData) : Res (List ℚ) :=
  w.hives.foldl (fun r pos => r.bind fun m => vset m (posIndex dd pos) 0)
    (.ok (init_tiles map dd))

/-- The function `dmaps::gen_hive_pack_map`. -/
def gen_hive_pack_map (pw : ℚ → ℚ → ℚ) (fuel : Nat) (w : World) (map : List ℚ)
    (funcArgs : DmapFunc) : Res (List ℚ) :=
  query_dungeon_data w
    (fun m0 dd => (hiveSeeds w m0 dd).bind fun m => process_dmap pw fuel m dd funcArgs) map

/-! ## Reference notions of the specification and concrete worlds -/

/-- A stand-in for the C library `pow` in concrete evaluations: exact powers for
the integer part of the exponent. -/
def samplePow : ℚ → ℚ → ℚ := fun b e => b ^ e.floor.toNat

/-- Cell `p = (x, y)` lies in the grid and is classified `Floor`. -/
def isFloorCell (dd : DungeonData) (p : Nat × Nat) : Prop :=
  p.1 < dd.width ∧ p.2 < dd.height ∧ dd.tiles[p.2 * dd.width + p.1]? = some dungeon.floor

instance (dd : DungeonData) (p : Nat × Nat) : Decidable (isFloorCell dd p) := by
  unfold isFloorCell; infer_instance

/-- Cells `p` and `q` are orthogonal neighbours. -/
def adjacent4 (p q : Nat × Nat) : Prop :=
  (p.2 = q.2 ∧ (p.1 + 1 = q.1 ∨ q.1 + 1 = p.1)) ∨ (p.1 = q.1 ∧ (p.2 + 1 = q.2 ∨ q.2 + 1 = p.2))

instance (p q : Nat × Nat) : Decidable (adjacent4 p q) := by
  unfold adjacent4; infer_instance

/-- Cell `p` is seeded in the buffer `map`: its entry is not the sentinel (the
generators write `0` there). -/
def seededCell (dd : DungeonData) (map : List ℚ) (p : Nat × Nat) : Prop :=
  map[p.2 * dd.width + p.1]? ≠ some invalid_tile_value

instance (dd : DungeonData) (map : List ℚ) (p : Nat × Nat) : Decidable (seededCell dd map p) := by
  unfold seededCell; infer_instance

/-- There is a 4-connected path of `Floor` cells from `p` to a seeded `Floor` cell. -/
inductive FloorPath (dd : DungeonData) (map : List ℚ) : Nat × Nat → Prop where
  | here (p : Nat × Nat) : isFloorCell dd p → seededCell dd map p → FloorPath dd map p
  | step (p q : Nat × Nat) : isFloorCell dd p → adjacent4 p q → FloorPath dd map q →
      FloorPath dd map p

/-- The position lies inside `[0, W) x [0, H)`. -/
def inGrid (dd : DungeonData) (pos : Position) : Prop :=
  0 ≤ pos.x ∧ pos.x < dd.width ∧ 0 ≤ pos.y ∧ pos.y < dd.height

instance (dd : DungeonData) (pos : Position) : Decidable (inGrid dd pos) := by
  unfold inGrid; infer_instance

/-- The 1 × 2 all-`Floor` grid. -/
def tallGrid2 : DungeonData := ⟨[dungeon.floor, dungeon.floor], 1, 2⟩

/-- The 1 × 3 all-`Floor` grid. -/
def tallGrid3 : DungeonData := ⟨[dungeon.floor, dungeon.floor, dungeon.floor], 1, 3⟩

/-- The 2 × 5 all-`Floor` grid. -/
def tallGrid10 : DungeonData := ⟨List.replicate 10 dungeon.floor, 2, 5⟩

/-- The 2 × 2 all-`Floor` grid. -/
def square2 : DungeonData := ⟨List.replicate 4 dungeon.floor, 2, 2⟩

/-- The 2 × 2 grid whose diagonal is `Floor` and whose other two cells are `Blocked`. -/
def diagonal2 : DungeonData :=
  ⟨[dungeon.floor, dungeon.wall, dungeon.wall, dungeon.floor], 2, 2⟩

/-- The 5 × 5 all-`Floor` grid. -/
def square5 : DungeonData := ⟨List.replicate 25 dungeon.floor, 5, 5⟩

/-- A world with one 1 × 1 `Blocked` grid and a team-0 agent standing on it. -/
def blockedWorld : World := ⟨[⟨[dungeon.wall], 1, 1⟩], [(⟨0, 0⟩, ⟨0⟩)], []⟩

/-- A world with the grid `dd` and a single team-0 agent at `(x, y)`. -/
def soloWorld (dd : DungeonData) (x y : Int) : World := ⟨[dd], [(⟨x, y⟩, ⟨0⟩)], []⟩

/-- The grid is well formed: one tile per cell, and dimensions for which the
`size_t` index arithmetic does not wrap around. -/
def DungeonData.wellFormed (dd : DungeonData) : Prop :=
  dd.tiles.length = dd.width * dd.height ∧ dd.width < 2 ^ 32 ∧ dd.height < 2 ^ 32

instance (dd : DungeonData) : Decidable dd.wellFormed := by
  unfold DungeonData.wellFormed; infer_instance

/-- The entries of `m` at all `Floor` cells without a path to a seed of `map0`
are the sentinel. -/
def UnreachedKept (dd : DungeonData) (map0 m : List ℚ) : Prop :=
  ∀ p, isFloorCell dd p → ¬ FloorPath dd map0 p → m[p.2 * dd.width + p.1]? = some invalid_tile_value

/-- There is a 4-connected path of `Floor` cells with `n` steps from `p` to a
seeded `Floor` cell. -/
inductive FloorPathLen (dd : DungeonData) (map : List ℚ) : Nat × Nat → Nat → Prop where
  | here (p : Nat × Nat) : isFloorCell dd p → seededCell dd map p → FloorPathLen dd map p 0
  | step (p q : Nat × Nat) (n : Nat) : isFloorCell dd p → adjacent4 p q →
      FloorPathLen dd map q n → FloorPathLen dd map p (n + 1)

/-- The coordinates `(u, v)` are one of the four that `getMinNei` reads around `(x, y)`. -/
def neighbourRead (x y u v : Nat) : Prop :=
  (u = sizeSub x 1 ∧ v = y) ∨ (u = sizeAdd x 1 ∧ v = y) ∨
    (u = x ∧ v = sizeSub y 1) ∨ (u = x ∧ v = sizeAdd y 1)

/-- What the relaxation sweeps keep true of the buffer `m`, started from `map0`:
entries lie between 0 and the sentinel, seeded `Floor` cells hold 0, and a
`Floor` cell with an entry below the sentinel has a path to a seed with at most
that many steps. -/
def RelaxInv (dd : DungeonData) (map0 m : List ℚ) : Prop :=
  (∀ (i : Nat) (v : ℚ), m[i]? = some v → 0 ≤ v ∧ v ≤ invalid_tile_value) ∧
  (∀ p, isFloorCell dd p → seededCell dd map0 p → m[p.2 * dd.width + p.1]? = some 0) ∧
  (∀ p, isFloorCell dd p → ∀ v : ℚ, m[p.2 * dd.width + p.1]? = some v → v < invalid_tile_value →
    ∃ n : Nat, (n : ℚ) ≤ v ∧ FloorPathLen dd map0 p n)

/-- Every entry of the buffer is a natural number. -/
def BufNat (m : List ℚ) : Prop := ∀ v ∈ m, ∃ n : Nat, v = (n : ℚ)

/-- The running maximum `maxVal` covers the buffer: the entries are natural
numbers and every entry below the sentinel is at most `maxVal`. -/
def Tracked (m : List ℚ) (maxVal : ℚ) : Prop :=
  BufNat m ∧ ∀ v ∈ m, v < invalid_tile_value → v ≤ maxVal

/-- A world with the 2 × 2 all-`Floor` grid, a team-0 agent at (0, 0), an agent of
another team at (1, 0) and a hive at (1, 1). -/
def mixedWorld : World := ⟨[square2], [(⟨0, 0⟩, ⟨0⟩), (⟨1, 0⟩, ⟨1⟩)], [⟨1, 1⟩]⟩

/-- The 3 × 3 all-`Floor` grid. -/
def square3 : DungeonData := ⟨List.replicate 9 dungeon.floor, 3, 3⟩

/-- The buffer on the 3 × 3 grid with seeds at (1, 0) and (2, 2). -/
def twoSeeds3 : List ℚ :=
  [invalid_tile_value, 0, invalid_tile_value, invalid_tile_value, invalid_tile_value,
    invalid_tile_value, invalid_tile_value, invalid_tile_value, 0]

/-- The candidate offsets of `gen_player_archer_map`, in the order of its loops. -/
def archerOffsets : List (Int × Int) :=
  archerLoop.map fun o => (archerOffX o.1 o.2.1 o.2.2, archerOffY o.1 o.2.1 o.2.2)

/-- The buffers `m` and `m2` have the same length and the same entries at every
index other than `i`. -/
def AgreeOff (i : Nat) (m m2 : List ℚ) : Prop :=
  m.length = m2.length ∧ ∀ j : Nat, j ≠ i → m[j]? = m2[j]?

/-- The 16777220 × 1 all-`Floor` grid: its last column index is above `2^24`. -/
def longRow : DungeonData := ⟨List.replicate 16777220 dungeon.floor, 16777220, 1⟩

/-- The 16777220 × 9 all-`Floor` grid. -/
def longRows9 : DungeonData := ⟨List.replicate 150994980 dungeon.floor, 16777220, 9⟩

@[simp] theorem Res.ok_bind {α β : Type} (a : α) (f : α → Res β) : (Res.ok a).bind f = f a := rfl

@[simp] theorem Res.oob_bind {α β : Type} (f : α → Res β) : (Res.oob : Res α).bind f = .oob := rfl

@[simp] theorem Res.fuelOut_bind {α β : Type} (f : α → Res β) :
    (Res.fuelOut : Res α).bind f = .fuelOut := rfl

theorem Res.bind_eq_ok {α β : Type} {r : Res α} {f : α → Res β} {b : β} :
    r.bind f = .ok b ↔ ∃ a, r = .ok a ∧ f a = .ok b := by
  cases r <;> simp

theorem vget_eq_ok {α : Type} {v : List α} {i : Nat} {a : α} :
    vget v i = .ok a ↔ v[i]? = some a := by
  unfold vget
  cases h : v[i]? <;> simp

theorem vset_eq_ok {α : Type} {v w : List α} {i : Nat} {a : α} :
    vset v i a = .ok w ↔ i < v.length ∧ w = v.set i a := by
  unfold vset
  by_cases h : i < v.length <;> simp [h, eq_comm]

theorem forEachCell_inv {σ : Type} (f : σ → Nat → Nat → Res σ) (P : σ → Prop) :
    ∀ (cs : List (Nat × Nat)),
      (∀ c ∈ cs, ∀ s t, P s → f s c.1 c.2 = .ok t → P t) →
      ∀ s t, P s → forEachCell f cs s = .ok t → P t := by
  intro cs
  induction cs with
  | nil =>
    intro _ s t hs h
    simp only [forEachCell, Res.ok.injEq] at h
    exact h ▸ hs
  | cons c cs ih =>
    intro hstep s t hs h
    rw [forEachCell, Res.bind_eq_ok] at h
    obtain ⟨s1, h1, h2⟩ := h
    exact ih (fun c' hc' => hstep c' (List.mem_cons_of_mem _ hc')) s1 t
      (hstep c (List.mem_cons_self _ _) s s1 hs h1) h2

theorem relaxLoop_inv (dd : DungeonData) (P : List ℚ → Prop)
    (hstep : ∀ m mv s, P m → sweep dd m mv = .ok s → P s.map) :
    ∀ fuel m mv r, P m → relaxLoop dd fuel m mv = .ok r → P r.1 := by
  intro fuel
  induction fuel with
  | zero => intro m mv r _ h; simp [relaxLoop] at h
  | succ n ih =>
    intro m mv r hm h
    rw [relaxLoop, Res.bind_eq_ok] at h
    obtain ⟨s, hs, h2⟩ := h
    have hP := hstep m mv s hm hs
    by_cases hd : s.done = true
    · rw [if_pos hd] at h2
      simp only [Res.ok.injEq] at h2
      rw [← h2]; exact hP
    · rw [if_neg hd] at h2
      exact ih s.map s.maxVal r hP h2

theorem mem_cells {dd : DungeonData} {c : Nat × Nat} :
    c ∈ cells dd ↔ c.1 < dd.width ∧ c.2 < dd.height := by
  obtain ⟨x, y⟩ := c
  simp only [cells, List.mem_flatMap, List.mem_range, List.mem_map, Prod.mk.injEq]
  constructor
  · rintro ⟨b, hb, a, ha, rfl, rfl⟩; exact ⟨ha, hb⟩
  · rintro ⟨h1, h2⟩; exact ⟨y, h2, x, h1, rfl, rfl⟩

/-- What a relaxation step can do: nothing, or lower a `Floor` cell to one more
than the minimum over its neighbourhood. -/
theorem relaxCell_cases {dd : DungeonData} {s t : Scan} {x y : Nat}
    (h : relaxCell dd s x y = .ok t) :
    t = s ∨ (dd.tiles[cellIndex dd x y]? = some dungeon.floor ∧
      ∃ myVal minVal, getMapAt s.map dd x y invalid_tile_value = .ok myVal ∧
        getMinNei s.map dd x y = .ok minVal ∧ minVal < myVal - 1 ∧
        cellIndex dd x y < s.map.length ∧
        t = ⟨s.map.set (cellIndex dd x y) (minVal + 1), false,
              if minVal + 1 > s.maxVal then minVal + 1 else s.maxVal⟩) := by
  rw [relaxCell, Res.bind_eq_ok] at h
  obtain ⟨tile, ht, h⟩ := h
  by_cases hf : tile ≠ dungeon.floor
  · rw [if_pos hf] at h
    left; simp only [Res.ok.injEq] at h; exact h.symm
  · rw [if_neg hf, Res.bind_eq_ok] at h
    obtain ⟨myVal, hmy, h⟩ := h
    rw [Res.bind_eq_ok] at h
    obtain ⟨minVal, hmin, h⟩ := h
    by_cases hlt : minVal < myVal - 1
    · rw [if_pos hlt, Res.bind_eq_ok] at h
      obtain ⟨m, hm, h⟩ := h
      rw [vset_eq_ok] at hm
      simp only [Res.ok.injEq] at h
      right
      refine ⟨?_, myVal, minVal, hmy, hmin, hlt, hm.1, ?_⟩
      · rw [vget_eq_ok] at ht
        rw [ht]; simp only [ne_eq, not_not] at hf; rw [hf]
      · rw [← h, hm.2]
    · rw [if_neg hlt] at h
      left; simp only [Res.ok.injEq] at h; exact h.symm

/-- What the falloff rewrite of a cell can do: nothing, or replace a value below
the sentinel by the table entry at its integer part. -/
theorem falloffCell_cases {dd : DungeonData} {cacheV m t : List ℚ} {x y : Nat}
    (h : falloffCell dd cacheV m x y = .ok t) :
    (t = m ∧ ∃ v, m[cellIndex dd x y]? = some v ∧ ¬ v < invalid_tile_value) ∨
      ∃ v c, m[cellIndex dd x y]? = some v ∧ v < invalid_tile_value ∧
        cacheV[toSize (floatToInt v)]? = some c ∧ t = m.set (cellIndex dd x y) c := by
  rw [falloffCell, Res.bind_eq_ok] at h
  obtain ⟨v, hv, h⟩ := h
  rw [vget_eq_ok] at hv
  by_cases hlt : v < invalid_tile_value
  · rw [if_pos hlt, Res.bind_eq_ok] at h
    obtain ⟨c, hc, h⟩ := h
    rw [vget_eq_ok] at hc
    rw [vset_eq_ok] at h
    right; exact ⟨v, c, hv, hlt, hc, h.2⟩
  · rw [if_neg hlt] at h
    simp only [Res.ok.injEq] at h
    left; exact ⟨h.symm, v, hv, hlt⟩

/-- The buffer that `init_tiles` leaves does not depend on the buffer it is given:
it is `width * height` copies of the sentinel. -/
theorem init_tiles_eq (map : List ℚ) (dd : DungeonData) :
    init_tiles map dd = List.replicate (sizeMul dd.width dd.height) invalid_tile_value := by
  have hlen : (vresize map (sizeMul dd.width dd.height)).length = sizeMul dd.width dd.height := by
    simp only [vresize, List.length_append, List.length_take, List.length_replicate]
    omega
  rw [init_tiles, List.map_const', hlen]

theorem approachSeeds_buffer (w : World) (map map2 : List ℚ) (dd : DungeonData) :
    approachSeeds w map dd = approachSeeds w map2 dd := by
  rw [approachSeeds, approachSeeds, init_tiles_eq, init_tiles_eq]

theorem archerSeeds_buffer (w : World) (map map2 : List ℚ) (dd : DungeonData) :
    archerSeeds w map dd = archerSeeds w map2 dd := by
  rw [archerSeeds, archerSeeds, init_tiles_eq, init_tiles_eq]

theorem hiveSeeds_buffer (w : World) (map map2 : List ℚ) (dd : DungeonData) :
    hiveSeeds w map dd = hiveSeeds w map2 dd := by
  rw [hiveSeeds, hiveSeeds, init_tiles_eq, init_tiles_eq]

/-! ## Rounding to binary32 -/

theorem log2Fuel_spec : ∀ (fuel n : Nat), n ≤ fuel → 0 < n →
    2 ^ log2Fuel fuel n ≤ n ∧ n < 2 ^ (log2Fuel fuel n + 1) := by
  intro fuel
  induction fuel with
  | zero => intro n h1 h2; omega
  | succ f ih =>
    intro n h1 h2
    unfold log2Fuel
    by_cases h : n < 2
    · rw [if_pos h]
      have : n = 1 := by omega
      subst this
      constructor <;> norm_num
    · rw [if_neg h]
      have := ih (n / 2) (by omega) (by omega)
      obtain ⟨a, b⟩ := this
      rw [pow_succ, pow_succ]
      constructor <;> omega

theorem natLog2_spec {n : Nat} (h : 0 < n) : 2 ^ natLog2 n ≤ n ∧ n < 2 ^ (natLog2 n + 1) :=
  log2Fuel_spec n n (le_refl n) h

/-- The binade exponent brackets the magnitude of a nonzero rational. -/
theorem binade_spec {q : ℚ} (hq : q ≠ 0) :
    (2 : ℚ) ^ binade q ≤ |q| ∧ |q| < (2 : ℚ) ^ (binade q + 1) := by
  have hn0 : 0 < q.num.natAbs := Int.natAbs_pos.mpr (Rat.num_ne_zero.mpr hq)
  have hd0 : 0 < q.den := q.den_pos
  obtain ⟨n1, n2⟩ := natLog2_spec hn0
  obtain ⟨d1, d2⟩ := natLog2_spec hd0
  have habs : |q| = (q.num.natAbs : ℚ) / (q.den : ℚ) := by
    conv_lhs => rw [← Rat.num_div_den q]
    rw [abs_div, Nat.abs_cast, Nat.cast_natAbs, Int.cast_abs]
  have hdq : (0 : ℚ) < (q.den : ℚ) := by exact_mod_cast hd0
  have n1q : (2 : ℚ) ^ natLog2 q.num.natAbs ≤ (q.num.natAbs : ℚ) := by exact_mod_cast n1
  have n2q : (q.num.natAbs : ℚ) < (2 : ℚ) ^ (natLog2 q.num.natAbs + 1) := by exact_mod_cast n2
  have d1q : (2 : ℚ) ^ natLog2 q.den ≤ (q.den : ℚ) := by exact_mod_cast d1
  have d2q : (q.den : ℚ) < (2 : ℚ) ^ (natLog2 q.den + 1) := by exact_mod_cast d2
  have p2 : ∀ k : Nat, (0 : ℚ) < (2 : ℚ) ^ k := fun k => by positivity
  rw [habs]
  unfold binade
  split_ifs with hc
  · have hcq : (q.den : ℚ) * (2 : ℚ) ^ natLog2 q.num.natAbs ≤
        (q.num.natAbs : ℚ) * (2 : ℚ) ^ natLog2 q.den := by exact_mod_cast hc
    constructor
    · rw [zpow_sub₀ (by norm_num), zpow_natCast, zpow_natCast, div_le_div_iff₀ (p2 _) hdq]
      linarith
    · rw [show ((natLog2 q.num.natAbs : Int) - (natLog2 q.den : Int) + 1) =
        ((natLog2 q.num.natAbs + 1 : Nat) : Int) - (natLog2 q.den : Int) by push_cast; ring,
        zpow_sub₀ (by norm_num), zpow_natCast, zpow_natCast, div_lt_div_iff₀ hdq (p2 _)]
      calc (q.num.natAbs : ℚ) * 2 ^ natLog2 q.den
          < 2 ^ (natLog2 q.num.natAbs + 1) * 2 ^ natLog2 q.den :=
            mul_lt_mul_of_pos_right n2q (p2 _)
        _ ≤ 2 ^ (natLog2 q.num.natAbs + 1) * (q.den : ℚ) :=
            mul_le_mul_of_nonneg_left d1q (le_of_lt (p2 _))
  · have hcq : (q.num.natAbs : ℚ) * (2 : ℚ) ^ natLog2 q.den <
        (q.den : ℚ) * (2 : ℚ) ^ natLog2 q.num.natAbs := by
      have := Nat.lt_of_not_le hc
      exact_mod_cast this
    constructor
    · rw [show ((natLog2 q.num.natAbs : Int) - (natLog2 q.den : Int) - 1) =
        (natLog2 q.num.natAbs : Int) - ((natLog2 q.den + 1 : Nat) : Int) by push_cast; ring,
        zpow_sub₀ (by norm_num), zpow_natCast, zpow_natCast, div_le_div_iff₀ (p2 _) hdq]
      calc (2 : ℚ) ^ natLog2 q.num.natAbs * (q.den : ℚ)
          ≤ 2 ^ natLog2 q.num.natAbs * 2 ^ (natLog2 q.den + 1) :=
            mul_le_mul_of_nonneg_left (le_of_lt d2q) (le_of_lt (p2 _))
        _ ≤ (q.num.natAbs : ℚ) * 2 ^ (natLog2 q.den + 1) :=
            mul_le_mul_of_nonneg_right n1q (le_of_lt (p2 _))
    · rw [show ((natLog2 q.num.natAbs : Int) - (natLog2 q.den : Int) - 1 + 1) =
        (natLog2 q.num.natAbs : Int) - (natLog2 q.den : Int) by ring,
        zpow_sub₀ (by norm_num), zpow_natCast, zpow_natCast, div_lt_div_iff₀ hdq (p2 _)]
      linarith

theorem roundEven_cases (q : ℚ) :
    (q - ⌊q⌋ < 1 / 2 ∧ roundEven q = ⌊q⌋) ∨ (1 / 2 < q - ⌊q⌋ ∧ roundEven q = ⌊q⌋ + 1) ∨
      (q - ⌊q⌋ = 1 / 2 ∧ ⌊q⌋ % 2 = 0 ∧ roundEven q = ⌊q⌋) ∨
      (q - ⌊q⌋ = 1 / 2 ∧ ⌊q⌋ % 2 = 1 ∧ roundEven q = ⌊q⌋ + 1) := by
  have hf : q.floor = ⌊q⌋ := rfl
  unfold roundEven
  rw [hf]
  by_cases h1 : q - ⌊q⌋ < 1 / 2
  · left; exact ⟨h1, by rw [if_pos h1]⟩
  · rw [if_neg h1]
    by_cases h2 : 1 / 2 < q - ⌊q⌋
    · right; left; exact ⟨h2, by rw [if_pos h2]⟩
    · rw [if_neg h2]
      have he : q - ⌊q⌋ = 1 / 2 := le_antisymm (not_lt.mp h2) (not_lt.mp h1)
      by_cases h3 : ⌊q⌋ % 2 = 0
      · right; right; left; exact ⟨he, h3, by rw [if_pos h3]⟩
      · right; right; right; exact ⟨he, by omega, by rw [if_neg h3]⟩

theorem roundEven_intCast (n : Int) : roundEven (n : ℚ) = n := by
  rcases roundEven_cases (n : ℚ) with h | h | h | h
  · rw [h.2, Int.floor_intCast]
  · exfalso; have := h.1; rw [Int.floor_intCast, sub_self] at this; linarith
  · exfalso; have := h.1; rw [Int.floor_intCast, sub_self] at this; linarith
  · exfalso; have := h.1; rw [Int.floor_intCast, sub_self] at this; linarith

theorem roundEven_mono {x y : ℚ} (hxy : x ≤ y) : roundEven x ≤ roundEven y := by
  have hfl : ⌊x⌋ ≤ ⌊y⌋ := Int.floor_mono hxy
  rcases lt_or_eq_of_le hfl with hlt | heq
  · have hx : roundEven x ≤ ⌊x⌋ + 1 := by
      rcases roundEven_cases x with h | h | h | h
      · rw [h.2]; omega
      · rw [h.2]
      · rw [h.2.2]; omega
      · rw [h.2.2]
    have hy : ⌊y⌋ ≤ roundEven y := by
      rcases roundEven_cases y with h | h | h | h
      · rw [h.2]
      · rw [h.2]; omega
      · rw [h.2.2]
      · rw [h.2.2]; omega
    omega
  · have hd : x - ⌊x⌋ ≤ y - ⌊y⌋ := by rw [heq]; linarith
    rcases roundEven_cases x with h | h | h | h <;> rcases roundEven_cases y with k | k | k | k
    all_goals first
      | (rw [h.2, k.2]; omega)
      | (rw [h.2, k.2.2]; omega)
      | (rw [h.2.2, k.2]; omega)
      | (rw [h.2.2, k.2.2]; omega)
      | (exfalso; linarith [h.1, k.1])

theorem roundEven_neg (q : ℚ) : roundEven (-q) = -roundEven q := by
  have f1 := Int.floor_le q
  have f2 := Int.lt_floor_add_one q
  have g1 := Int.floor_le (-q)
  have g2 := Int.lt_floor_add_one (-q)
  have hlo : ⌊q⌋ ≤ -⌊-q⌋ := by
    have : (⌊q⌋ : ℚ) ≤ ((-⌊-q⌋ : Int) : ℚ) := by push_cast; linarith
    exact_mod_cast this
  have hhi : -⌊-q⌋ ≤ ⌊q⌋ + 1 := by
    have : ((-⌊-q⌋ : Int) : ℚ) < ((⌊q⌋ + 2 : Int) : ℚ) := by push_cast; linarith
    have := Int.cast_lt.mp this
    omega
  rcases (by omega : ⌊-q⌋ = -⌊q⌋ ∨ ⌊-q⌋ = -⌊q⌋ - 1) with e | e
  · have hq : q = ⌊q⌋ := by
      have : ((⌊-q⌋ : Int) : ℚ) = ((-⌊q⌋ : Int) : ℚ) := by rw [e]
      push_cast at this
      linarith
    rw [hq, ← Int.cast_neg, roundEven_intCast, roundEven_intCast]
  · have ec : ((⌊-q⌋ : Int) : ℚ) = -(⌊q⌋ : ℚ) - 1 := by rw [e]; push_cast; ring
    rcases roundEven_cases q with h | h | h | h <;> rcases roundEven_cases (-q) with k | k | k | k
    all_goals first
      | (exfalso; linarith [h.1, k.1])
      | (rw [h.2, k.2]; omega)
      | (rw [h.2.2, k.2.2]; omega)

theorem two_zpow_pos (e : Int) : (0 : ℚ) < (2 : ℚ) ^ e := zpow_pos (by norm_num) e

theorem roundTo_mono (e : Int) {x y : ℚ} (hxy : x ≤ y) : roundTo e x ≤ roundTo e y := by
  unfold roundTo
  have h : roundEven (x / 2 ^ e) ≤ roundEven (y / 2 ^ e) :=
    roundEven_mono (div_le_div_of_nonneg_right hxy (le_of_lt (two_zpow_pos e)))
  exact mul_le_mul_of_nonneg_right (by exact_mod_cast h) (le_of_lt (two_zpow_pos e))

theorem roundTo_grid (e : Int) (k : Int) : roundTo e ((k : ℚ) * 2 ^ e) = (k : ℚ) * 2 ^ e := by
  unfold roundTo
  rw [mul_div_assoc, div_self (ne_of_gt (two_zpow_pos e)), mul_one, roundEven_intCast]

theorem roundTo_zpow {e b : Int} (h : e ≤ b) : roundTo e ((2 : ℚ) ^ b) = (2 : ℚ) ^ b := by
  obtain ⟨n, hn⟩ := Int.eq_ofNat_of_zero_le (sub_nonneg.mpr h)
  have hb : b = (n : Int) + e := by omega
  have : (2 : ℚ) ^ b = (((2 ^ n : Nat) : Int) : ℚ) * 2 ^ e := by
    rw [hb, zpow_add₀ (by norm_num), zpow_natCast]; push_cast; rfl
  rw [this, roundTo_grid]

theorem roundTo_neg (e : Int) (q : ℚ) : roundTo e (-q) = -roundTo e q := by
  unfold roundTo
  rw [neg_div, roundEven_neg]; push_cast; ring

theorem roundTo_zero (e : Int) : roundTo e 0 = 0 := by
  have := roundTo_grid e 0
  simpa using this

theorem binade_neg (q : ℚ) : binade (-q) = binade q := by
  unfold binade
  simp only [Rat.neg_num, Rat.neg_den, Int.natAbs_neg]

theorem ulpExp_neg (q : ℚ) : ulpExp (-q) = ulpExp q := by
  unfold ulpExp; rw [binade_neg]

theorem roundF32Q_neg (q : ℚ) : roundF32Q (-q) = -roundF32Q q := by
  unfold roundF32Q; rw [ulpExp_neg, roundTo_neg]

theorem roundF32Q_zero : roundF32Q 0 = 0 := roundTo_zero _

theorem binade_mono {x y : ℚ} (hx : 0 < x) (hxy : x ≤ y) : binade x ≤ binade y := by
  have hy : 0 < y := lt_of_lt_of_le hx hxy
  obtain ⟨a1, _⟩ := binade_spec (ne_of_gt hx)
  obtain ⟨_, b2⟩ := binade_spec (ne_of_gt hy)
  rw [abs_of_pos hx] at a1
  rw [abs_of_pos hy] at b2
  have : (2 : ℚ) ^ binade x < (2 : ℚ) ^ (binade y + 1) := by linarith
  have := (zpow_lt_zpow_iff_right₀ (by norm_num : (1 : ℚ) < 2)).mp this
  omega

theorem ulpExp_mono {x y : ℚ} (hx : 0 < x) (hxy : x ≤ y) : ulpExp x ≤ ulpExp y := by
  have := binade_mono hx hxy
  unfold ulpExp
  omega

theorem roundF32Q_mono_pos {x y : ℚ} (hx : 0 < x) (hxy : x ≤ y) : roundF32Q x ≤ roundF32Q y := by
  have hy : 0 < y := lt_of_lt_of_le hx hxy
  have he := ulpExp_mono hx hxy
  unfold roundF32Q
  rcases lt_or_eq_of_le he with hlt | heq
  · obtain ⟨_, x2⟩ := binade_spec (ne_of_gt hx)
    obtain ⟨y1, _⟩ := binade_spec (ne_of_gt hy)
    rw [abs_of_pos hx] at x2
    rw [abs_of_pos hy] at y1
    have hey : ulpExp y = binade y - 23 := by unfold ulpExp at hlt ⊢; omega
    have hbx : binade x + 1 ≤ binade y := by unfold ulpExp at hlt; omega
    have hG1 : x ≤ (2 : ℚ) ^ binade y :=
      le_trans (le_of_lt x2) (zpow_le_zpow_right₀ (by norm_num) hbx)
    calc roundTo (ulpExp x) x ≤ roundTo (ulpExp x) ((2 : ℚ) ^ binade y) := roundTo_mono _ hG1
      _ = (2 : ℚ) ^ binade y := roundTo_zpow (by omega)
      _ = roundTo (ulpExp y) ((2 : ℚ) ^ binade y) := (roundTo_zpow (by omega)).symm
      _ ≤ roundTo (ulpExp y) y := roundTo_mono _ y1
  · rw [heq]; exact roundTo_mono _ hxy

theorem roundF32Q_nonneg {x : ℚ} (hx : 0 ≤ x) : 0 ≤ roundF32Q x := by
  have := roundTo_mono (ulpExp x) hx
  rw [roundTo_zero] at this
  exact this

/-- Rounding to binary32 is monotone. -/
theorem roundF32Q_mono {x y : ℚ} (hxy : x ≤ y) : roundF32Q x ≤ roundF32Q y := by
  rcases lt_trichotomy 0 x with hx | hx | hx
  · exact roundF32Q_mono_pos hx hxy
  · rw [← hx, roundF32Q_zero]; exact roundF32Q_nonneg (hx ▸ hxy)
  · rcases lt_or_le y 0 with hy | hy
    · have := roundF32Q_mono_pos (neg_pos.mpr hy) (neg_le_neg hxy)
      rw [roundF32Q_neg, roundF32Q_neg] at this
      linarith
    · have h1 := roundF32Q_nonneg (le_of_lt (neg_pos.mpr hx))
      rw [roundF32Q_neg] at h1
      have h2 := roundF32Q_nonneg hy
      linarith

/-- A multiple of `2^e` whose spacing exponent is at most `e` is a binary32 value. -/
theorem roundF32Q_fixed {q : ℚ} (k e : Int) (hq : q = (k : ℚ) * 2 ^ e) (he : ulpExp q ≤ e) :
    roundF32Q q = q := by
  obtain ⟨n, hn⟩ := Int.eq_ofNat_of_zero_le (sub_nonneg.mpr he)
  have hb : e = (n : Int) + ulpExp q := by omega
  have hq2 : q = ((k * (2 ^ n : Nat) : Int) : ℚ) * 2 ^ ulpExp q := by
    conv_lhs => rw [hq, hb, zpow_add₀ (by norm_num), zpow_natCast]
    push_cast; ring
  have key : ∀ E : Int, q = ((k * (2 ^ n : Nat) : Int) : ℚ) * 2 ^ E → roundTo E q = q := by
    intro E h
    rw [h]
    exact roundTo_grid E _
  exact key (ulpExp q) hq2

theorem binade_lt_of_abs_lt {q : ℚ} (hq : q ≠ 0) {b : Int} (h : |q| < (2 : ℚ) ^ b) :
    binade q < b := by
  obtain ⟨a1, _⟩ := binade_spec hq
  exact (zpow_lt_zpow_iff_right₀ (by norm_num : (1 : ℚ) < 2)).mp (lt_of_le_of_lt a1 h)

/-- An integer below `2^24` in magnitude is a binary32 value. -/
theorem roundF32Q_intCast (n : Int) (h : |n| < 2 ^ 24) : roundF32Q (n : ℚ) = n := by
  by_cases h0 : n = 0
  · subst h0; simpa using roundF32Q_zero
  · have hq : (n : ℚ) ≠ 0 := by exact_mod_cast h0
    have hb : binade (n : ℚ) < 24 := by
      apply binade_lt_of_abs_lt hq
      have : ((|n| : Int) : ℚ) < ((2 ^ 24 : Int) : ℚ) := by exact_mod_cast h
      rw [Int.cast_abs] at this
      rw [show (2 : ℚ) ^ (24 : Int) = ((2 ^ 24 : Int) : ℚ) by norm_num]
      exact this
    apply roundF32Q_fixed n 0 (by simp)
    unfold ulpExp; omega

theorem isF32_zero : IsF32 0 := roundF32Q_zero

theorem isF32_one : IsF32 1 := by
  have := roundF32Q_intCast 1 (by decide)
  simpa [IsF32] using this

/-- A value between two binary32 values rounds to a value between them. -/
theorem roundF32Q_between {lo hi v : ℚ} (hlo : IsF32 lo) (hhi : IsF32 hi) (h1 : lo ≤ v)
    (h2 : v ≤ hi) : lo ≤ roundF32Q v ∧ roundF32Q v ≤ hi := by
  have a := roundF32Q_mono h1
  have b := roundF32Q_mono h2
  rw [hlo] at a
  rw [hhi] at b
  exact ⟨a, b⟩

theorem sizeSub_zero_one : sizeSub 0 1 = 18446744073709551615 := by decide

theorem getMapAt_outside (map : List ℚ) (dd : DungeonData) (x y : Nat) (d : ℚ)
    (h : ¬ (x < dd.width ∧ y < dd.width)) : getMapAt map dd x y d = .ok d := by
  simp [getMapAt, h]

theorem relaxCell_tallGrid3_00 (v : ℚ) (s : Scan) (hs : s.map = [invalid_tile_value, invalid_tile_value, v]) :
    relaxCell tallGrid3 s 0 0 = .ok s := by
  have e1 : getMapAt s.map tallGrid3 (sizeSub 0 1) 0 invalid_tile_value = .ok invalid_tile_value :=
    getMapAt_outside _ _ _ _ _ (by rw [sizeSub_zero_one]; decide)
  have e2 : getMapAt s.map tallGrid3 (sizeAdd 0 1) 0 invalid_tile_value = .ok invalid_tile_value :=
    getMapAt_outside _ _ _ _ _ (by decide)
  have e3 : getMapAt s.map tallGrid3 0 (sizeSub 0 1) invalid_tile_value = .ok invalid_tile_value :=
    getMapAt_outside _ _ _ _ _ (by rw [sizeSub_zero_one]; decide)
  have e4 : getMapAt s.map tallGrid3 0 (sizeAdd 0 1) invalid_tile_value = .ok invalid_tile_value :=
    getMapAt_outside _ _ _ _ _ (by decide)
  have i0 : cellIndex tallGrid3 0 0 = 0 := by decide
  have t0 : vget tallGrid3.tiles 0 = .ok dungeon.floor := by decide
  have m0 : vget s.map 0 = .ok invalid_tile_value := by rw [hs]; rfl
  have w0 : (0 < tallGrid3.width ∧ 0 < tallGrid3.width) := by decide
  have g0 : getMapAt s.map tallGrid3 0 0 invalid_tile_value = .ok invalid_tile_value := by
    simp only [getMapAt, i0, t0, m0, Res.ok_bind, w0, if_true, and_self]
  simp only [relaxCell, getMinNei, i0, t0, m0, g0, e1, e2, e3, e4, Res.ok_bind, min_self, ne_eq,
    not_true_eq_false, if_false]
  norm_num [invalid_tile_value]

theorem relaxCell_tallGrid3_01 (v : ℚ) (s : Scan) (hs : s.map = [invalid_tile_value, invalid_tile_value, v]) :
    relaxCell tallGrid3 s 0 1 = .ok s := by
  have e0 : getMapAt s.map tallGrid3 0 1 invalid_tile_value = .ok invalid_tile_value :=
    getMapAt_outside _ _ _ _ _ (by decide)
  have e1 : getMapAt s.map tallGrid3 (sizeSub 0 1) 1 invalid_tile_value = .ok invalid_tile_value :=
    getMapAt_outside _ _ _ _ _ (by rw [sizeSub_zero_one]; decide)
  have e2 : getMapAt s.map tallGrid3 (sizeAdd 0 1) 1 invalid_tile_value = .ok invalid_tile_value :=
    getMapAt_outside _ _ _ _ _ (by decide)
  have e4 : getMapAt s.map tallGrid3 0 (sizeAdd 1 1) invalid_tile_value = .ok invalid_tile_value :=
    getMapAt_outside _ _ _ _ _ (by decide)
  have i1 : cellIndex tallGrid3 0 1 = 1 := by decide
  have i0 : cellIndex tallGrid3 0 0 = 0 := by decide
  have s1 : sizeSub 1 1 = 0 := by decide
  have t1 : vget tallGrid3.tiles 1 = .ok dungeon.floor := by decide
  have t0 : vget tallGrid3.tiles 0 = .ok dungeon.floor := by decide
  have m1 : vget s.map 1 = .ok invalid_tile_value := by rw [hs]; rfl
  have m0 : vget s.map 0 = .ok invalid_tile_value := by rw [hs]; rfl
  have w0 : (0 < tallGrid3.width ∧ 0 < tallGrid3.width) := by decide
  have e3 : getMapAt s.map tallGrid3 0 0 invalid_tile_value = .ok invalid_tile_value := by
    simp only [getMapAt, i0, t0, m0, Res.ok_bind, w0, if_true, and_self]
  simp only [relaxCell, getMinNei, i1, t1, m1, s1, e0, e1, e2, e3, e4, Res.ok_bind, min_self, ne_eq,
    not_true_eq_false, if_false]
  norm_num [invalid_tile_value]

theorem relaxCell_tallGrid3_02 (v mv : ℚ) (d : Bool) :
    relaxCell tallGrid3 ⟨[invalid_tile_value, invalid_tile_value, v], d, mv⟩ 0 2 =
      if v < invalid_tile_value - 1 then
        .ok ⟨[invalid_tile_value, invalid_tile_value, v + 1], false, if v + 1 > mv then v + 1 else mv⟩
      else .ok ⟨[invalid_tile_value, invalid_tile_value, v], d, mv⟩ := by
  have e0 : ∀ m, getMapAt m tallGrid3 0 2 invalid_tile_value = .ok invalid_tile_value :=
    fun m => getMapAt_outside _ _ _ _ _ (by decide)
  have e1 : ∀ m, getMapAt m tallGrid3 (sizeSub 0 1) 2 v = .ok v :=
    fun m => getMapAt_outside _ _ _ _ _ (by rw [sizeSub_zero_one]; decide)
  have e2 : ∀ m, getMapAt m tallGrid3 (sizeAdd 0 1) 2 v = .ok v :=
    fun m => getMapAt_outside _ _ _ _ _ (by decide)
  have e3 : ∀ m, getMapAt m tallGrid3 0 (sizeSub 2 1) v = .ok v :=
    fun m => getMapAt_outside _ _ _ _ _ (by decide)
  have e4 : ∀ m, getMapAt m tallGrid3 0 (sizeAdd 2 1) v = .ok v :=
    fun m => getMapAt_outside _ _ _ _ _ (by decide)
  have i2 : cellIndex tallGrid3 0 2 = 2 := by decide
  have t2 : vget tallGrid3.tiles 2 = .ok dungeon.floor := by decide
  have m2 : vget [invalid_tile_value, invalid_tile_value, v] 2 = .ok v := rfl
  have w2 : vset [invalid_tile_value, invalid_tile_value, v] 2 (v + 1)
      = .ok [invalid_tile_value, invalid_tile_value, v + 1] := rfl
  simp only [relaxCell, getMinNei, i2, t2, m2, w2, e0, e1, e2, e3, e4, Res.ok_bind, min_self, ne_eq,
    not_true_eq_false, if_false]

theorem sweep_tallGrid3 (v mv : ℚ) :
    sweep tallGrid3 [invalid_tile_value, invalid_tile_value, v] mv =
      if v < invalid_tile_value - 1 then
        .ok ⟨[invalid_tile_value, invalid_tile_value, v + 1], false, if v + 1 > mv then v + 1 else mv⟩
      else .ok ⟨[invalid_tile_value, invalid_tile_value, v], true, mv⟩ := by
  have hc : cells tallGrid3 = [(0, 0), (0, 1), (0, 2)] := by decide
  simp only [sweep, hc, forEachCell]
  rw [relaxCell_tallGrid3_00 v _ rfl, Res.ok_bind, relaxCell_tallGrid3_01 v _ rfl, Res.ok_bind,
    relaxCell_tallGrid3_02]
  split <;> rfl

theorem relaxLoop_tallGrid3 (n : ℕ) : ∀ k : ℕ, k + n = 99999 →
    relaxLoop tallGrid3 (n + 1) [invalid_tile_value, invalid_tile_value, (k : ℚ)] (k : ℚ)
      = .ok ([invalid_tile_value, invalid_tile_value, 99999], 99999) := by
  induction n with
  | zero =>
    intro k hk
    have hk2 : (k : ℚ) = 99999 := by exact_mod_cast hk
    rw [hk2, relaxLoop, sweep_tallGrid3, if_neg (by norm_num [invalid_tile_value])]
    rfl
  | succ n ih =>
    intro k hk
    have h0 : k + 1 ≤ 99999 := by rw [← hk]; exact Nat.add_le_add_left (Nat.succ_le_succ (Nat.zero_le n)) k
    have h1 : (k : ℚ) < invalid_tile_value - 1 := by
      have : (k : ℚ) + 1 ≤ 99999 := by exact_mod_cast h0
      rw [invalid_tile_value]; linarith
    have h2 := ih (k + 1) (by rw [← hk]; ac_rfl)
    rw [Nat.cast_add, Nat.cast_one] at h2
    rw [relaxLoop, sweep_tallGrid3, if_pos h1, Res.ok_bind,
      if_pos (show (k : ℚ) + 1 > (k : ℚ) by linarith)]
    exact h2

/-- C1, evaluated on the 1 × 3 all-Floor grid with the single seed at (0, 2): the
relaxation loop finishes after 100000 sweeps, the seeded cell holds 99999
instead of ring 0, and the Floor cells (0, 1) and (0, 0), one and two steps away
from the seed, still hold the sentinel. -/
theorem relaxation_tall_grid_seed_overwritten :
    relaxLoop tallGrid3 100000 [invalid_tile_value, invalid_tile_value, 0] 0
      = .ok ([invalid_tile_value, invalid_tile_value, 99999], 99999) := by
  have h := relaxLoop_tallGrid3 99999 0 (by norm_num)
  rw [Nat.cast_zero] at h
  exact h


theorem sweep_tallGrid2_first :
    sweep tallGrid2 [0, invalid_tile_value] 0 = .ok ⟨[0, 1], false, 1⟩ := by decide!

theorem sweep_tallGrid2_again : sweep tallGrid2 [0, 1] 1 = .ok ⟨[0, 1], false, 1⟩ := by decide!

theorem relaxLoop_tallGrid2_again (fuel : ℕ) : relaxLoop tallGrid2 fuel [0, 1] 1 = .fuelOut := by
  induction fuel with
  | zero => rfl
  | succ n ih => rw [relaxLoop, sweep_tallGrid2_again, Res.ok_bind]; exact ih

/-- C2, evaluated on the 1 × 2 all-Floor grid with the single seed at (0, 0): no
budget of sweeps is enough, every sweep rewrites cell (0, 1) and reports a
change. -/
theorem relaxation_never_stops_on_tall_grid (fuel : ℕ) :
    relaxLoop tallGrid2 fuel [0, invalid_tile_value] 0 = .fuelOut := by
  cases fuel with
  | zero => rfl
  | succ n =>
    rw [relaxLoop, sweep_tallGrid2_first, Res.ok_bind]
    exact relaxLoop_tallGrid2_again n

/-! ## Blocked cells -/

theorem relaxCell_keeps_blocked {dd : DungeonData} {i : Nat} {v : ℚ}
    (hb : dd.tiles[i]? ≠ some dungeon.floor) {s t : Scan} {x y : Nat}
    (hs : s.map[i]? = some v) (h : relaxCell dd s x y = .ok t) : t.map[i]? = some v := by
  rcases relaxCell_cases h with rfl | ⟨hfl, _, minVal, _, _, _, _, rfl⟩
  · exact hs
  · have hne : cellIndex dd x y ≠ i := fun e => hb (e ▸ hfl)
    simp only [List.getElem?_set_ne hne]
    exact hs

theorem relaxLoop_keeps_blocked {dd : DungeonData} {i : Nat} {v : ℚ}
    (hb : dd.tiles[i]? ≠ some dungeon.floor) {fuel : Nat} {m : List ℚ} {mv : ℚ}
    {r : List ℚ × ℚ} (hm : m[i]? = some v) (h : relaxLoop dd fuel m mv = .ok r) :
    r.1[i]? = some v := by
  refine relaxLoop_inv dd (fun m => m[i]? = some v) ?_ fuel m mv r hm h
  intro m mv s hm hs
  exact forEachCell_inv (relaxCell dd) (fun s => s.map[i]? = some v) (cells dd)
    (fun c _ s t hs ht => relaxCell_keeps_blocked hb hs ht) _ s hm hs

theorem falloff_keeps_sentinel {pw : ℚ → ℚ → ℚ} {dd : DungeonData} {funcArgs : DmapFunc}
    {m out : List ℚ} {mv : ℚ} {i : Nat} (hm : m[i]? = some invalid_tile_value)
    (h : falloff pw dd funcArgs m mv = .ok out) : out[i]? = some invalid_tile_value := by
  refine forEachCell_inv _ (fun m => m[i]? = some invalid_tile_value) (cells dd) ?_ m out hm h
  intro c _ s t hs ht
  rcases falloffCell_cases ht with ⟨rfl, _⟩ | ⟨v, cv, hv, hlt, _, rfl⟩
  · exact hs
  · by_cases hne : cellIndex dd c.1 c.2 = i
    · rw [hne, hs] at hv
      simp only [Option.some.injEq] at hv
      rw [← hv] at hlt
      exact absurd hlt (lt_irrefl _)
    · simp only [List.getElem?_set_ne hne]
      exact hs

theorem process_dmap_eq_ok {pw : ℚ → ℚ → ℚ} {fuel : Nat} {map : List ℚ} {dd : DungeonData}
    {funcArgs : DmapFunc} {out : List ℚ} :
    process_dmap pw fuel map dd funcArgs = .ok out ↔
      ∃ relaxed maxVal, relaxLoop dd fuel map 0 = .ok (relaxed, maxVal) ∧
        falloff pw dd funcArgs relaxed maxVal = .ok out := by
  rw [process_dmap, Res.bind_eq_ok]
  constructor
  · rintro ⟨⟨a, b⟩, h1, h2⟩; exact ⟨a, b, h1, h2⟩
  · rintro ⟨a, b, h1, h2⟩; exact ⟨(a, b), h1, h2⟩

/-- C3, as stated, fails: in the world with a 1 × 1 Blocked grid and a team-0
agent standing on it, the approach generator returns the field `[0]`, so the
Blocked cell holds 0 and not the sentinel. -/
theorem blocked_seeded_cell_not_unreached :
    blockedWorld.dungeons = [⟨[dungeon.wall], 1, 1⟩] ∧
      ∃ out, gen_player_approach_map samplePow 1 blockedWorld [] ⟨.DF_LINEAR, 1⟩ = .ok out ∧
        out[0]? ≠ some invalid_tile_value :=
  ⟨rfl, [0], by decide!, by decide!⟩

/-- C3, amended: whenever `process_dmap` returns, every Blocked cell (any index
whose tile is not Floor) that held the sentinel on entry, that is, every Blocked
cell that was not seeded, holds the sentinel in the returned field. -/
theorem blocked_unseeded_stays_unreached (pw : ℚ → ℚ → ℚ) (fuel : Nat) (map : List ℚ)
    (dd : DungeonData) (funcArgs : DmapFunc) (out : List ℚ) (i : Nat)
    (hret : process_dmap pw fuel map dd funcArgs = .ok out)
    (hblocked : dd.tiles[i]? ≠ some dungeon.floor)
    (hin : map[i]? = some invalid_tile_value) :
    out[i]? = some invalid_tile_value := by
  obtain ⟨relaxed, maxVal, h1, h2⟩ := process_dmap_eq_ok.mp hret
  exact falloff_keeps_sentinel (relaxLoop_keeps_blocked hblocked hin h1) h2

theorem blocked_unseeded_stays_unreached_witness :
    ([0, invalid_tile_value, invalid_tile_value, 0] : List ℚ)[1]? = some invalid_tile_value :=
  blocked_unseeded_stays_unreached samplePow 3 [0, invalid_tile_value, invalid_tile_value, 0]
    diagonal2 ⟨.DF_LINEAR, 1⟩ [0, invalid_tile_value, invalid_tile_value, 0] 1
    (by decide!) (by decide) (by decide!)

/-! ## Index arithmetic on well-formed grids -/

theorem cellIndex_eq {dd : DungeonData} {x y : Nat} (hW : dd.width < 2 ^ 32)
    (hx : x < dd.width) (hy : y ≤ 2 ^ 32) : cellIndex dd x y = y * dd.width + x := by
  have h1 : y * dd.width ≤ 2 ^ 32 * dd.width := Nat.mul_le_mul_right _ hy
  have h2 : y * dd.width + x < 2 ^ 64 := by omega
  have h3 : y * dd.width < 2 ^ 64 := by omega
  rw [cellIndex, sizeMul, Nat.mod_eq_of_lt h3, sizeAdd, Nat.mod_eq_of_lt h2]

theorem sizeSub_one_lt {x w : Nat} (hx : x < 2 ^ 32) (hw : w < 2 ^ 32) (h : sizeSub x 1 < w) :
    1 ≤ x ∧ sizeSub x 1 = x - 1 := by
  unfold sizeSub at *
  omega

theorem sizeAdd_one {x : Nat} (hx : x < 2 ^ 32) : sizeAdd x 1 = x + 1 := by
  unfold sizeAdd
  omega

theorem index_inj {w a b c d : Nat} (ha : a < w) (hb : b < w) (h : c * w + a = d * w + b) :
    a = b ∧ c = d := by
  have h1 : (c * w + a) % w = a := by
    rw [Nat.add_comm, Nat.add_mul_mod_self_right, Nat.mod_eq_of_lt ha]
  have h2 : (d * w + b) % w = b := by
    rw [Nat.add_comm, Nat.add_mul_mod_self_right, Nat.mod_eq_of_lt hb]
  have hab : a = b := by rw [← h1, ← h2, h]
  subst hab
  have hw : 0 < w := by omega
  exact ⟨rfl, Nat.eq_of_mul_eq_mul_right hw (Nat.add_right_cancel h)⟩

theorem getMapAt_cases {m : List ℚ} {dd : DungeonData} {x y : Nat} {d n : ℚ}
    (h : getMapAt m dd x y d = .ok n) :
    n = d ∨ (x < dd.width ∧ y < dd.width ∧
      dd.tiles[cellIndex dd x y]? = some dungeon.floor ∧ m[cellIndex dd x y]? = some n) := by
  unfold getMapAt at h
  by_cases hb : x < dd.width ∧ y < dd.width
  · rw [if_pos hb, Res.bind_eq_ok] at h
    obtain ⟨t, ht, h⟩ := h
    rw [vget_eq_ok] at ht
    by_cases hf : t = dungeon.floor
    · rw [if_pos hf, vget_eq_ok] at h
      right; exact ⟨hb.1, hb.2, hf ▸ ht, h⟩
    · rw [if_neg hf] at h
      simp only [Res.ok.injEq] at h
      left; exact h.symm
  · rw [if_neg hb] at h
    simp only [Res.ok.injEq] at h
    left; exact h.symm

theorem tile_index_lt_height {dd : DungeonData} {x y : Nat} {t : Char}
    (hlen : dd.tiles.length = dd.width * dd.height)
    (ht : dd.tiles[y * dd.width + x]? = some t) : y < dd.height := by
  have h1 : y * dd.width + x < dd.tiles.length := by
    rcases List.getElem?_eq_some_iff.mp ht with ⟨h, _⟩
    exact h
  rw [hlen] at h1
  by_contra hge
  have h2 : dd.width * dd.height ≤ dd.width * y := Nat.mul_le_mul_left _ (by omega)
  have h3 : dd.width * y = y * dd.width := Nat.mul_comm _ _
  omega

theorem neighbourRead_adjacent {dd : DungeonData} {x y u v : Nat} (hwf : dd.wellFormed)
    (hx : x < dd.width) (hy : y < dd.height) (hr : neighbourRead x y u v)
    (hu : u < dd.width) (hv : v < dd.width)
    (ht : dd.tiles[cellIndex dd u v]? = some dungeon.floor) :
    adjacent4 (x, y) (u, v) ∧ isFloorCell dd (u, v) ∧ cellIndex dd u v = v * dd.width + u := by
  obtain ⟨hlen, hW, hH⟩ := hwf
  have hadj : adjacent4 (x, y) (u, v) ∧ v ≤ 2 ^ 32 := by
    rcases hr with ⟨e1, e2⟩ | ⟨e1, e2⟩ | ⟨e1, e2⟩ | ⟨e1, e2⟩
    · rw [e1] at hu
      obtain ⟨h1, h2⟩ := sizeSub_one_lt (by omega) hW hu
      rw [e1, e2, h2]
      refine ⟨Or.inl ⟨rfl, Or.inr ?_⟩, by omega⟩
      simp only; omega
    · rw [e1, e2, sizeAdd_one (by omega)]
      exact ⟨Or.inl ⟨rfl, Or.inl rfl⟩, by omega⟩
    · rw [e2] at hv
      obtain ⟨h1, h2⟩ := sizeSub_one_lt (by omega) hW hv
      rw [e1, e2, h2]
      refine ⟨Or.inr ⟨rfl, Or.inr ?_⟩, by omega⟩
      simp only; omega
    · rw [e1, e2, sizeAdd_one (by omega)]
      exact ⟨Or.inr ⟨rfl, Or.inl rfl⟩, by omega⟩
  have hidx := cellIndex_eq hW hu hadj.2
  rw [hidx] at ht
  exact ⟨hadj.1, ⟨hu, tile_index_lt_height hlen ht, ht⟩, hidx⟩

/-! ## Floor cells without a path to a seed -/

theorem unreachedKept_init (dd : DungeonData) (map0 : List ℚ) : UnreachedKept dd map0 map0 := by
  intro p hf hno
  by_contra hne
  exact hno (FloorPath.here p hf hne)

/-- A neighbour read next to a `Floor` cell without a path to a seed yields the
default or the sentinel. -/
theorem getMapAt_next_to_unreached {dd : DungeonData} {map0 m : List ℚ} {x y u v : Nat} {d n : ℚ}
    (hwf : dd.wellFormed) (hQ : UnreachedKept dd map0 m)
    (hfl : isFloorCell dd (x, y)) (hno : ¬ FloorPath dd map0 (x, y))
    (huv : neighbourRead x y u v)
    (h : getMapAt m dd u v d = .ok n) : n = d ∨ n = invalid_tile_value := by
  rcases getMapAt_cases h with hd | ⟨hu, hv, htile, hval⟩
  · left; exact hd
  · right
    obtain ⟨hadj, hfl2, hidx⟩ := neighbourRead_adjacent hwf hfl.1 hfl.2.1 huv hu hv htile
    have hno2 : ¬ FloorPath dd map0 (u, v) := fun hp =>
      hno (FloorPath.step (x, y) (u, v) hfl hadj hp)
    have := hQ (u, v) hfl2 hno2
    simp only at this
    rw [hidx, this] at hval
    simp only [Option.some.injEq] at hval
    exact hval.symm

theorem getMinNei_unreached {dd : DungeonData} {map0 m : List ℚ} {x y : Nat} {minVal : ℚ}
    (hwf : dd.wellFormed) (hQ : UnreachedKept dd map0 m)
    (hfl : isFloorCell dd (x, y)) (hno : ¬ FloorPath dd map0 (x, y))
    (h : getMinNei m dd x y = .ok minVal) : minVal = invalid_tile_value := by
  have hidx : cellIndex dd x y = y * dd.width + x :=
    cellIndex_eq hwf.2.1 hfl.1 (by have := hfl.2.1; have := hwf.2.2; simp only at *; omega)
  rw [getMinNei, Res.bind_eq_ok] at h
  obtain ⟨v0, h0, h⟩ := h
  rw [Res.bind_eq_ok] at h
  obtain ⟨n1, h1, h⟩ := h
  rw [Res.bind_eq_ok] at h
  obtain ⟨n2, h2, h⟩ := h
  rw [Res.bind_eq_ok] at h
  obtain ⟨n3, h3, h⟩ := h
  rw [Res.bind_eq_ok] at h
  obtain ⟨n4, h4, h⟩ := h
  simp only [Res.ok.injEq] at h
  rw [vget_eq_ok, hidx] at h0
  have e0 : v0 = invalid_tile_value := by
    have := hQ (x, y) hfl hno
    simp only at this
    rw [this] at h0
    simp only [Option.some.injEq] at h0
    exact h0.symm
  subst e0
  have e1 : n1 = invalid_tile_value := by
    rcases getMapAt_next_to_unreached hwf hQ hfl hno (Or.inl ⟨rfl, rfl⟩) h1 with e | e <;> exact e
  subst e1
  rw [min_self] at h2 h3 h4 h
  have e2 : n2 = invalid_tile_value := by
    rcases getMapAt_next_to_unreached hwf hQ hfl hno (Or.inr (Or.inl ⟨rfl, rfl⟩)) h2 with e | e <;>
      exact e
  subst e2
  rw [min_self] at h3 h4 h
  have e3 : n3 = invalid_tile_value := by
    rcases getMapAt_next_to_unreached hwf hQ hfl hno (Or.inr (Or.inr (Or.inl ⟨rfl, rfl⟩))) h3
      with e | e <;> exact e
  subst e3
  rw [min_self] at h4 h
  have e4 : n4 = invalid_tile_value := by
    rcases getMapAt_next_to_unreached hwf hQ hfl hno (Or.inr (Or.inr (Or.inr ⟨rfl, rfl⟩))) h4
      with e | e <;> exact e
  subst e4
  rw [min_self] at h
  exact h.symm

theorem relaxCell_keeps_unreached {dd : DungeonData} {map0 : List ℚ} {s t : Scan} {x y : Nat}
    (hwf : dd.wellFormed) (hx : x < dd.width) (hy : y < dd.height)
    (hQ : UnreachedKept dd map0 s.map) (h : relaxCell dd s x y = .ok t) :
    UnreachedKept dd map0 t.map := by
  have hidx : cellIndex dd x y = y * dd.width + x :=
    cellIndex_eq hwf.2.1 hx (by have := hwf.2.2; omega)
  rcases relaxCell_cases h with rfl | ⟨hfloor, myVal, minVal, hmy, hmin, hlt, _, rfl⟩
  · exact hQ
  · rw [hidx] at hfloor
    have hfl : isFloorCell dd (x, y) := ⟨hx, hy, hfloor⟩
    have hreach : FloorPath dd map0 (x, y) := by
      by_contra hno
      have hminv := getMinNei_unreached hwf hQ hfl hno hmin
      have hmyv : myVal = invalid_tile_value := by
        rcases getMapAt_cases hmy with e | ⟨_, _, _, e⟩
        · exact e
        · rw [hidx] at e
          have := hQ (x, y) hfl hno
          simp only at this
          rw [this] at e
          simp only [Option.some.injEq] at e
          exact e.symm
      rw [hminv, hmyv] at hlt
      linarith
    intro p hp hno
    have hne : cellIndex dd x y ≠ p.2 * dd.width + p.1 := by
      rw [hidx]
      intro e
      obtain ⟨e1, e2⟩ := index_inj hx hp.1 e
      apply hno
      have : p = (x, y) := Prod.ext e1.symm e2.symm
      rw [this]; exact hreach
    simp only [List.getElem?_set_ne hne]
    exact hQ p hp hno

theorem relaxLoop_keeps_unreached {dd : DungeonData} {map0 : List ℚ} (hwf : dd.wellFormed)
    {fuel : Nat} {m : List ℚ} {mv : ℚ} {r : List ℚ × ℚ} (hm : UnreachedKept dd map0 m)
    (h : relaxLoop dd fuel m mv = .ok r) : UnreachedKept dd map0 r.1 := by
  refine relaxLoop_inv dd (UnreachedKept dd map0) ?_ fuel m mv r hm h
  intro m mv s hm hs
  exact forEachCell_inv (relaxCell dd) (fun s => UnreachedKept dd map0 s.map) (cells dd)
    (fun c hc s t hs ht =>
      relaxCell_keeps_unreached hwf (mem_cells.mp hc).1 (mem_cells.mp hc).2 hs ht) _ s hm hs

theorem floorPath_isFloorCell {dd : DungeonData} {map : List ℚ} {p : Nat × Nat}
    (h : FloorPath dd map p) : isFloorCell dd p := by
  cases h with
  | here _ hf _ => exact hf
  | step _ _ hf _ _ => exact hf

/-- C4: on a well-formed grid, whenever `process_dmap` returns, every Floor cell
without a 4-connected path of Floor cells to a seeded cell holds the sentinel
in the returned field, for every falloff spec. -/
theorem unreachable_floor_stays_unreached (pw : ℚ → ℚ → ℚ) (fuel : Nat) (map : List ℚ)
    (dd : DungeonData) (funcArgs : DmapFunc) (out : List ℚ) (p : Nat × Nat)
    (hwf : dd.wellFormed)
    (hret : process_dmap pw fuel map dd funcArgs = .ok out)
    (hfloor : isFloorCell dd p) (hno : ¬ FloorPath dd map p) :
    out[p.2 * dd.width + p.1]? = some invalid_tile_value := by
  obtain ⟨relaxed, maxVal, h1, h2⟩ := process_dmap_eq_ok.mp hret
  exact falloff_keeps_sentinel
    (relaxLoop_keeps_unreached hwf (unreachedKept_init dd map) h1 p hfloor hno) h2

theorem unreachable_floor_stays_unreached_witness :
    ([1, invalid_tile_value, invalid_tile_value, invalid_tile_value] : List ℚ)[1 * 2 + 1]? =
      some invalid_tile_value :=
  unreachable_floor_stays_unreached samplePow 3
    [0, invalid_tile_value, invalid_tile_value, invalid_tile_value] diagonal2 ⟨.DF_EXP, 1 / 2⟩
    [1, invalid_tile_value, invalid_tile_value, invalid_tile_value] (1, 1)
    (by decide) (by decide!) (by decide) (by
      intro h
      cases h with
      | here _ _ hs => exact hs (by decide!)
      | step _ q _ hadj hq =>
        have hq2 := floorPath_isFloorCell hq
        obtain ⟨a, b⟩ := q
        obtain ⟨h1, h2, h3⟩ := hq2
        simp only [diagonal2] at h1 h2 h3
        simp only [adjacent4] at hadj
        have hab : (a = 0 ∧ b = 1) ∨ (a = 1 ∧ b = 0) := by omega
        rcases hab with ⟨rfl, rfl⟩ | ⟨rfl, rfl⟩
        · exact absurd h3 (by decide)
        · exact absurd h3 (by decide))

/-! ## The generators: flee, archer seeding, unchecked seed positions -/

/-- C5, as stated, fails: on the 2 × 2 all-Floor grid with a team-0 agent at
(0, 0) and falloff Linear with `a = 200000`, the approach field holds 200000 at
cell (1, 0), a finite value that is not the sentinel, and the flee field holds
200000 there too, not 200000 * -1.2. -/
theorem flee_keeps_value_above_sentinel :
    gen_player_approach_map samplePow 3 (soloWorld square2 0 0) [] ⟨.DF_LINEAR, 200000⟩
        = .ok [0, 200000, 200000, 400000] ∧
      gen_player_flee_map samplePow 3 (soloWorld square2 0 0) [] ⟨.DF_LINEAR, 200000⟩
        = .ok [0, 200000, 200000, 400000] ∧
      (200000 : ℚ) ≠ invalid_tile_value ∧ (200000 : ℚ) ≠ 200000 * -(6 / 5) := by
  refine ⟨by decide!, by decide!, by decide!, by decide!⟩

/-- C5, amended: whenever the approach generator returns a field, the flee
generator returns a field of the same length which holds, at every cell, the
approach value times -1.2 when that value is below the sentinel, and the
approach value itself (the sentinel in particular) when it is not. -/
theorem flee_scales_values_below_sentinel (pw : ℚ → ℚ → ℚ) (fuel : Nat) (w : World)
    (map : List ℚ) (funcArgs : DmapFunc) (approach : List ℚ)
    (h : gen_player_approach_map pw fuel w map funcArgs = .ok approach) :
    ∃ flee, gen_player_flee_map pw fuel w map funcArgs = .ok flee ∧
      flee.length = approach.length ∧
      ∀ (i : Nat) (v : ℚ), approach[i]? = some v →
        (v < invalid_tile_value → flee[i]? = some (v * -(6 / 5))) ∧
        (¬ v < invalid_tile_value → flee[i]? = some v) := by
  refine ⟨fleeScale approach, ?_, ?_, ?_⟩
  · rw [gen_player_flee_map, h, Res.ok_bind]
  · simp [fleeScale]
  · intro i v hv
    constructor
    · intro hlt
      simp [fleeScale, List.getElem?_map, hv, hlt]
    · intro hlt
      simp [fleeScale, List.getElem?_map, hv, hlt]

theorem flee_scales_values_below_sentinel_witness :
    ∃ flee, gen_player_flee_map samplePow 3 (soloWorld diagonal2 0 0) [] ⟨.DF_EXP, 1 / 2⟩
        = .ok flee ∧
      flee.length = [1, invalid_tile_value, invalid_tile_value, invalid_tile_value].length ∧
      ∀ (i : Nat) (v : ℚ),
        [1, invalid_tile_value, invalid_tile_value, invalid_tile_value][i]? = some v →
        (v < invalid_tile_value → flee[i]? = some (v * -(6 / 5))) ∧
        (¬ v < invalid_tile_value → flee[i]? = some v) :=
  flee_scales_values_below_sentinel samplePow 3 (soloWorld diagonal2 0 0) [] ⟨.DF_EXP, 1 / 2⟩
    [1, invalid_tile_value, invalid_tile_value, invalid_tile_value] (by decide!)

/-- C6, evaluated on the 2 × 5 all-Floor grid with a single team-0 agent at
(0, 0): the cell (0, 4) is a Floor cell of the grid at the ring offset (0, 4)
(loop indices i = 0, dx = -1, dy = -1), its four line-of-sight samples are all
Floor, and yet the seeding stage leaves every cell at the sentinel. -/
theorem archer_skips_clear_cell_below_row_width :
    isFloorCell tallGrid10 (0, 4) ∧
      (archerOffX 0 (-1) (-1), archerOffY 0 (-1) (-1)) = (0, 4) ∧
      losClear tallGrid10 ⟨0, 0⟩ 0 4 [0, 1, 2, 3] = .ok true ∧
      archerSeeds (soloWorld tallGrid10 0 0) [] tallGrid10
        = .ok (List.replicate 10 invalid_tile_value) := by
  refine ⟨by decide, by decide, by decide!, by decide!⟩

theorem cells_nodup (dd : DungeonData) : (cells dd).Nodup := by
  rw [cells, List.nodup_flatMap]
  constructor
  · intro y _
    exact (List.nodup_range _).map (fun a b h => by simpa using h)
  · refine (List.nodup_range _).pairwise_of_forall_ne ?_
    intro y _ z _ hyz
    intro c hc1 hc2
    simp only [List.mem_map, List.mem_range] at hc1 hc2
    obtain ⟨_, _, rfl⟩ := hc1
    obtain ⟨_, _, h⟩ := hc2
    simp only [Prod.mk.injEq] at h
    exact hyz h.2.symm

theorem cellIndex_cells_nodup {dd : DungeonData} (hW : dd.width < 2 ^ 32)
    (hH : dd.height < 2 ^ 32) :
    ((cells dd).map fun c => cellIndex dd c.1 c.2).Nodup := by
  refine (cells_nodup dd).map_on ?_
  intro c hc d hd h
  rw [mem_cells] at hc hd
  rw [cellIndex_eq hW hc.1 (by omega), cellIndex_eq hW hd.1 (by omega)] at h
  obtain ⟨h1, h2⟩ := index_inj hc.1 hd.1 h
  exact Prod.ext h1 h2

theorem toSize_floatToInt_natCast {r : Nat} (h : r < 2 ^ 64) : toSize (floatToInt (r : ℚ)) = r := by
  have h0 : (0 : ℚ) ≤ (r : ℚ) := Nat.cast_nonneg r
  have h1 : ((r : ℚ)).floor = (r : ℤ) := by
    show ⌊(r : ℚ)⌋ = (r : ℤ)
    exact Int.floor_natCast r
  rw [floatToInt, if_pos h0, h1, toSize]
  omega

theorem roundF32_of_isF32 {x : ℚ} (hx : IsF32 x) (h1 : -2 ^ 128 < x) (h2 : x < 2 ^ 128) :
    roundF32 x = .finite x := by
  unfold roundF32
  rw [hx, if_neg (not_le.mpr h2), if_neg (not_le.mpr h1)]

theorem cacheFromF32_exact (pw : ℚ → ℚ → ℚ) (funcArgs : DmapFunc) :
    ∀ (n i : Nat) (prev : ℚ), (IsF32 prev ∧ -2 ^ 128 < prev ∧ prev < 2 ^ 128) →
      (∀ x ∈ cacheFrom pw funcArgs n i prev, IsF32 x ∧ -2 ^ 128 < x ∧ x < 2 ^ 128) →
      cacheFromF32 pw funcArgs n i (.finite prev) =
        (cacheFrom pw funcArgs n i prev).map F32.finite := by
  intro n
  induction n with
  | zero => intro i prev _ _; rfl
  | succ n ih =>
    intro i prev hp h
    rw [cacheFrom] at h
    have hx := h _ (List.mem_cons_self _ _)
    have hstep : cacheStepF32 pw funcArgs (.finite prev) i =
        .finite (cacheStep pw funcArgs prev i) := by
      have hr := roundF32_of_isF32 hx.1 hx.2.1 hx.2.2
      cases hty : funcArgs.type
      · have e1 : cacheStep pw funcArgs prev i = prev + funcArgs.a := by
          unfold cacheStep; rw [hty]
        have e2 : cacheStepF32 pw funcArgs (.finite prev) i = roundF32 (prev + funcArgs.a) := by
          unfold cacheStepF32; rw [hty]; rfl
        rw [e2, ← e1]; exact hr
      · have e1 : cacheStep pw funcArgs prev i = prev * funcArgs.a := by
          unfold cacheStep; rw [hty]
        have e2 : cacheStepF32 pw funcArgs (.finite prev) i = roundF32 (prev * funcArgs.a) := by
          unfold cacheStepF32; rw [hty]; rfl
        rw [e2, ← e1]; exact hr
      · have e1 : cacheStep pw funcArgs prev i = pw (i : ℚ) funcArgs.a := by
          unfold cacheStep; rw [hty]
        have e2 : cacheStepF32 pw funcArgs (.finite prev) i = roundF32 (pw (i : ℚ) funcArgs.a) := by
          unfold cacheStepF32; rw [hty]
        rw [e2, ← e1]; exact hr
      · have e1 : cacheStep pw funcArgs prev i = prev := by
          unfold cacheStep; rw [hty]
        have e2 : cacheStepF32 pw funcArgs (.finite prev) i = .finite prev := by
          unfold cacheStepF32; rw [hty]
        rw [e2, e1]
    rw [cacheFromF32, cacheFrom, List.map_cons, hstep,
      ih (i + 1) _ hx (fun x hm => h x (List.mem_cons_of_mem _ hm))]

/-- Where no entry needs rounding (every entry of the exact table is a finite
binary32 value), the binary32 table is the exact table. -/
theorem buildCacheF32_exact (pw : ℚ → ℚ → ℚ) (funcArgs : DmapFunc) (maxVal : ℚ)
    (h : ∀ x ∈ buildCache pw funcArgs maxVal, IsF32 x ∧ -2 ^ 128 < x ∧ x < 2 ^ 128) :
    buildCacheF32 pw funcArgs maxVal = (buildCache pw funcArgs maxVal).map F32.finite := by
  rw [buildCache] at h
  rw [buildCacheF32, buildCache, List.map_cons,
    cacheFromF32_exact pw funcArgs _ 1 _ (h _ (List.mem_cons_self _ _))
      (fun x hm => h x (List.mem_cons_of_mem _ hm))]

theorem relaxLoop_fuel_succ (dd : DungeonData) :
    ∀ (fuel : Nat) (m : List ℚ) (mv : ℚ) (r : List ℚ × ℚ),
      relaxLoop dd fuel m mv = .ok r → relaxLoop dd (fuel + 1) m mv = .ok r := by
  intro fuel
  induction fuel with
  | zero => intro m mv r h; simp [relaxLoop] at h
  | succ n ih =>
    intro m mv r h
    rw [relaxLoop, Res.bind_eq_ok] at h
    obtain ⟨s, hs, h⟩ := h
    rw [relaxLoop, hs, Res.ok_bind]
    by_cases hd : s.done = true
    · rw [if_pos hd] at h ⊢; exact h
    · rw [if_neg hd] at h ⊢; exact ih _ _ _ h

theorem relaxLoop_fuel_le (dd : DungeonData) {fuel fuel2 : Nat} (hle : fuel ≤ fuel2)
    {m : List ℚ} {mv : ℚ} {r : List ℚ × ℚ} (h : relaxLoop dd fuel m mv = .ok r) :
    relaxLoop dd fuel2 m mv = .ok r := by
  induction hle with
  | refl => exact h
  | step _ ih => exact relaxLoop_fuel_succ dd _ m mv r ih

theorem cacheFrom_pow_irrelevant (pw pw2 : ℚ → ℚ → ℚ) (funcArgs : DmapFunc)
    (hty : funcArgs.type ≠ .DF_POW) :
    ∀ (n i : Nat) (prev : ℚ), cacheFrom pw funcArgs n i prev = cacheFrom pw2 funcArgs n i prev := by
  have hstep : ∀ prev i, cacheStep pw funcArgs prev i = cacheStep pw2 funcArgs prev i := by
    intro prev i
    cases h : funcArgs.type <;> simp only [cacheStep, h]
    exact absurd h hty
  intro n
  induction n with
  | zero => intro i prev; rfl
  | succ n ih => intro i prev; rw [cacheFrom, cacheFrom, hstep, ih]

theorem process_dmap_pow_irrelevant (pw pw2 : ℚ → ℚ → ℚ) (fuel : Nat) (map : List ℚ)
    (dd : DungeonData) (funcArgs : DmapFunc) (hty : funcArgs.type ≠ .DF_POW) :
    process_dmap pw fuel map dd funcArgs = process_dmap pw2 fuel map dd funcArgs := by
  simp only [process_dmap, falloff, buildCache, cacheFrom_pow_irrelevant pw pw2 funcArgs hty]

theorem process_dmap_fuel_le (pw : ℚ → ℚ → ℚ) {fuel fuel2 : Nat} (hle : fuel ≤ fuel2)
    {map : List ℚ} {dd : DungeonData} {funcArgs : DmapFunc} {out : List ℚ}
    (h : process_dmap pw fuel map dd funcArgs = .ok out) :
    process_dmap pw fuel2 map dd funcArgs = .ok out := by
  obtain ⟨relaxed, maxVal, h1, h2⟩ := process_dmap_eq_ok.mp h
  exact process_dmap_eq_ok.mpr ⟨relaxed, maxVal, relaxLoop_fuel_le dd hle h1, h2⟩

theorem approach_one_grid (pw : ℚ → ℚ → ℚ) (fuel : Nat) (dd : DungeonData)
    (cs : List (Position × Team)) (hs : List Position) (map : List ℚ) (funcArgs : DmapFunc) :
    gen_player_approach_map pw fuel ⟨[dd], cs, hs⟩ map funcArgs =
      (approachSeeds ⟨[dd], cs, hs⟩ map dd).bind fun m => process_dmap pw fuel m dd funcArgs := by
  simp only [gen_player_approach_map, query_dungeon_data, List.foldl_cons, List.foldl_nil,
    Res.ok_bind]

/-- The Manhattan distance from (2, 2) on the 5 × 5 grid, in row-major order. -/
theorem manhattan5_values :
    ∀ x : Nat, x < 5 → ∀ y : Nat, y < 5 →
      ([4, 3, 2, 3, 4, 3, 2, 1, 2, 3, 2, 1, 0, 1, 2, 3, 2, 1, 2, 3, 4, 3, 2, 3, 4] : List ℚ)[y * 5 + x]?
        = some (((Int.natAbs ((x : ℤ) - 2) + Int.natAbs ((y : ℤ) - 2) : Nat) : ℚ)) := by
  decide!

/-- C10: on the 5 × 5 all-Floor grid with a single team-0 agent at (2, 2) and
falloff Linear with a = 1, for every C library `pow` and every budget of at
least 5 sweeps, the approach generator returns a field whose value at every
cell (x, y) is |x - 2| + |y - 2|. -/
theorem approach_5x5_is_manhattan (pw : ℚ → ℚ → ℚ) (fuel : Nat) (map : List ℚ)
    (hfuel : 5 ≤ fuel) :
    ∃ out, gen_player_approach_map pw fuel (soloWorld square5 2 2) map ⟨.DF_LINEAR, 1⟩ = .ok out ∧
      ∀ x : Nat, x < 5 → ∀ y : Nat, y < 5 →
        out[y * 5 + x]? =
          some (((Int.natAbs ((x : ℤ) - 2) + Int.natAbs ((y : ℤ) - 2) : Nat) : ℚ)) := by
  refine ⟨[4, 3, 2, 3, 4, 3, 2, 1, 2, 3, 2, 1, 0, 1, 2, 3, 2, 1, 2, 3, 4, 3, 2, 3, 4], ?_,
    manhattan5_values⟩
  have hseed : approachSeeds (soloWorld square5 2 2) [] square5 =
      .ok (List.replicate 12 invalid_tile_value ++ [0] ++ List.replicate 12 invalid_tile_value) := by
    decide!
  have hrun : process_dmap samplePow 5
      (List.replicate 12 invalid_tile_value ++ [0] ++ List.replicate 12 invalid_tile_value)
      square5 ⟨.DF_LINEAR, 1⟩ =
      .ok [4, 3, 2, 3, 4, 3, 2, 1, 2, 3, 2, 1, 0, 1, 2, 3, 2, 1, 2, 3, 4, 3, 2, 3, 4] := by
    decide!
  rw [soloWorld, approach_one_grid]
  rw [soloWorld] at hseed
  rw [approachSeeds_buffer _ map [], hseed, Res.ok_bind, process_dmap_pow_irrelevant pw samplePow _ _ _ _ (by decide)]
  exact process_dmap_fuel_le samplePow hfuel hrun

theorem approach_5x5_is_manhattan_witness :
    ∃ out, gen_player_approach_map samplePow 7 (soloWorld square5 2 2) [1, 2, 3]
        ⟨.DF_LINEAR, 1⟩ = .ok out ∧
      ∀ x : Nat, x < 5 → ∀ y : Nat, y < 5 →
        out[y * 5 + x]? =
          some (((Int.natAbs ((x : ℤ) - 2) + Int.natAbs ((y : ℤ) - 2) : Nat) : ℚ)) :=
  approach_5x5_is_manhattan samplePow 7 [1, 2, 3] (by decide)

/-! ## Relaxation on grids at least as wide as tall

The row test `y < dd.width` of `getMapAt` is harmless when `height ≤ width`.
On such grids the buffer returned by the relaxation loop holds, at every
`Floor` cell, the length of a shortest path to a seed (capped at the sentinel).
-/

theorem adjacent_neighbourRead {dd : DungeonData} {x y : Nat} {q : Nat × Nat}
    (hwf : dd.wellFormed) (hx : x < dd.width) (hy : y < dd.height)
    (hq : isFloorCell dd q) (hadj : adjacent4 (x, y) q) : neighbourRead x y q.1 q.2 := by
  obtain ⟨_, hW, hH⟩ := hwf
  obtain ⟨u, v⟩ := q
  obtain ⟨hu, hv, _⟩ := hq
  simp only at hu hv
  simp only [adjacent4] at hadj
  rcases hadj with ⟨e, h | h⟩ | ⟨e, h | h⟩
  · refine Or.inr (Or.inl ⟨?_, e.symm⟩)
    simp only; rw [sizeAdd_one (by omega)]; exact h.symm
  · refine Or.inl ⟨?_, e.symm⟩
    simp only; unfold sizeSub; omega
  · refine Or.inr (Or.inr (Or.inr ⟨e.symm, ?_⟩))
    simp only; rw [sizeAdd_one (by omega)]; exact h.symm
  · refine Or.inr (Or.inr (Or.inl ⟨e.symm, ?_⟩))
    simp only; unfold sizeSub; omega

theorem getMapAt_floor {m : List ℚ} {dd : DungeonData} {u v : Nat} (d : ℚ)
    (hu : u < dd.width) (hv : v < dd.width)
    (ht : dd.tiles[cellIndex dd u v]? = some dungeon.floor) :
    getMapAt m dd u v d = vget m (cellIndex dd u v) := by
  rw [getMapAt, if_pos ⟨hu, hv⟩, vget_eq_ok.mpr ht, Res.ok_bind, if_pos rfl]

/-- The result of `getMinNei` is the cell's own entry or the entry read at one
of the four neighbour coordinates, and it is below all of them. -/
theorem getMinNei_spec {m : List ℚ} {dd : DungeonData} {x y : Nat} {minVal : ℚ}
    (h : getMinNei m dd x y = .ok minVal) :
    (∃ v0, m[cellIndex dd x y]? = some v0 ∧ minVal ≤ v0) ∧
    (m[cellIndex dd x y]? = some minVal ∨
      ∃ u v, neighbourRead x y u v ∧ u < dd.width ∧ v < dd.width ∧
        dd.tiles[cellIndex dd u v]? = some dungeon.floor ∧
        m[cellIndex dd u v]? = some minVal) ∧
    (∀ u v, neighbourRead x y u v → u < dd.width → v < dd.width →
      dd.tiles[cellIndex dd u v]? = some dungeon.floor →
      ∃ n, m[cellIndex dd u v]? = some n ∧ minVal ≤ n) := by
  rw [getMinNei, Res.bind_eq_ok] at h
  obtain ⟨v0, h0, h⟩ := h
  rw [Res.bind_eq_ok] at h
  obtain ⟨n1, h1, h⟩ := h
  rw [Res.bind_eq_ok] at h
  obtain ⟨n2, h2, h⟩ := h
  rw [Res.bind_eq_ok] at h
  obtain ⟨n3, h3, h⟩ := h
  rw [Res.bind_eq_ok] at h
  obtain ⟨n4, h4, h⟩ := h
  simp only [Res.ok.injEq] at h
  rw [vget_eq_ok] at h0
  have hatt : ∀ (a n : ℚ) (u v : Nat),
      (m[cellIndex dd x y]? = some a ∨
        ∃ u v, neighbourRead x y u v ∧ u < dd.width ∧ v < dd.width ∧
          dd.tiles[cellIndex dd u v]? = some dungeon.floor ∧ m[cellIndex dd u v]? = some a) →
      neighbourRead x y u v → getMapAt m dd u v a = .ok n →
      (m[cellIndex dd x y]? = some (min a n) ∨
        ∃ u v, neighbourRead x y u v ∧ u < dd.width ∧ v < dd.width ∧
          dd.tiles[cellIndex dd u v]? = some dungeon.floor ∧
          m[cellIndex dd u v]? = some (min a n)) := by
    intro a n u v ha hr hg
    rcases getMapAt_cases hg with e | ⟨hu, hv, ht, hval⟩
    · rw [e, min_self]; exact ha
    · rcases min_choice a n with e | e
      · rw [e]; exact ha
      · rw [e]; exact Or.inr ⟨u, v, hr, hu, hv, ht, hval⟩
  have a1 := hatt v0 n1 _ _ (Or.inl h0) (Or.inl ⟨rfl, rfl⟩) h1
  have a2 := hatt _ n2 _ _ a1 (Or.inr (Or.inl ⟨rfl, rfl⟩)) h2
  have a3 := hatt _ n3 _ _ a2 (Or.inr (Or.inr (Or.inl ⟨rfl, rfl⟩))) h3
  have a4 := hatt _ n4 _ _ a3 (Or.inr (Or.inr (Or.inr ⟨rfl, rfl⟩))) h4
  rw [h] at a4
  have l1 : minVal ≤ min v0 n1 := by
    rw [← h]; exact le_trans (min_le_left _ _) (le_trans (min_le_left _ _) (min_le_left _ _))
  have l2 : minVal ≤ min (min v0 n1) n2 := by
    rw [← h]; exact le_trans (min_le_left _ _) (min_le_left _ _)
  have l3 : minVal ≤ min (min (min v0 n1) n2) n3 := by
    rw [← h]; exact min_le_left _ _
  refine ⟨⟨v0, h0, le_trans l1 (min_le_left _ _)⟩, a4, ?_⟩
  intro u v hr hu hv ht
  rcases hr with ⟨e1, e2⟩ | ⟨e1, e2⟩ | ⟨e1, e2⟩ | ⟨e1, e2⟩
  · rw [← e1, ← e2, getMapAt_floor _ hu hv ht, vget_eq_ok] at h1
    exact ⟨n1, h1, le_trans l1 (min_le_right _ _)⟩
  · rw [← e1, ← e2, getMapAt_floor _ hu hv ht, vget_eq_ok] at h2
    exact ⟨n2, h2, le_trans l2 (min_le_right _ _)⟩
  · rw [← e1, ← e2, getMapAt_floor _ hu hv ht, vget_eq_ok] at h3
    exact ⟨n3, h3, le_trans l3 (min_le_right _ _)⟩
  · rw [← e1, ← e2, getMapAt_floor _ hu hv ht, vget_eq_ok] at h4
    exact ⟨n4, h4, by rw [← h]; exact min_le_right _ _⟩

theorem relaxInv_init {dd : DungeonData} {map0 : List ℚ}
    (hlen : map0.length = dd.width * dd.height)
    (hin : ∀ v ∈ map0, v = 0 ∨ v = invalid_tile_value) : RelaxInv dd map0 map0 := by
  have hval : ∀ (i : Nat) (v : ℚ), map0[i]? = some v → v = 0 ∨ v = invalid_tile_value :=
    fun i v h => hin v (List.getElem?_mem h)
  refine ⟨?_, ?_, ?_⟩
  · intro i v h
    rcases hval i v h with e | e <;> rw [e] <;> norm_num [invalid_tile_value]
  · intro p hp hs
    have hlt : p.2 * dd.width + p.1 < map0.length := by
      rw [hlen]
      obtain ⟨h1, h2, _⟩ := hp
      have : (p.2 + 1) * dd.width ≤ dd.height * dd.width := Nat.mul_le_mul_right _ h2
      have e : dd.height * dd.width = dd.width * dd.height := Nat.mul_comm _ _
      have e2 : (p.2 + 1) * dd.width = p.2 * dd.width + dd.width := Nat.succ_mul _ _
      omega
    rw [List.getElem?_eq_getElem hlt]
    rcases hval _ _ (List.getElem?_eq_getElem hlt) with e | e
    · rw [e]
    · exact absurd (by rw [List.getElem?_eq_getElem hlt, e]) hs
  · intro p hp v hv hlt
    refine ⟨0, ?_, FloorPathLen.here p hp ?_⟩
    · rcases hval _ _ hv with e | e
      · rw [e]; simp
      · rw [e] at hlt; exact absurd hlt (lt_irrefl _)
    · intro hs
      rw [hs] at hv
      simp only [Option.some.injEq] at hv
      rw [← hv] at hlt
      exact absurd hlt (lt_irrefl _)

/-- On a grid at least as wide as tall, `getMapAt` at a `Floor` cell of the grid
reads the entry of that cell. -/
theorem getMapAt_own {dd : DungeonData} {m : List ℚ} {x y : Nat} {d myVal : ℚ}
    (hwf : dd.wellFormed) (hHW : dd.height ≤ dd.width) (hfl : isFloorCell dd (x, y))
    (h : getMapAt m dd x y d = .ok myVal) : m[y * dd.width + x]? = some myVal := by
  obtain ⟨hx, hy, ht⟩ := hfl
  simp only at hx hy ht
  have hidx : cellIndex dd x y = y * dd.width + x :=
    cellIndex_eq hwf.2.1 hx (by have := hwf.2.2; omega)
  rw [getMapAt_floor d hx (by omega) (by rw [hidx]; exact ht), vget_eq_ok, hidx] at h
  exact h

theorem relaxCell_keeps_inv {dd : DungeonData} {map0 : List ℚ} {s t : Scan} {x y : Nat}
    (hwf : dd.wellFormed) (hHW : dd.height ≤ dd.width) (hx : x < dd.width) (hy : y < dd.height)
    (hI : RelaxInv dd map0 s.map) (h : relaxCell dd s x y = .ok t) : RelaxInv dd map0 t.map := by
  have hidx : cellIndex dd x y = y * dd.width + x :=
    cellIndex_eq hwf.2.1 hx (by have := hwf.2.2; omega)
  rcases relaxCell_cases h with rfl | ⟨hfloor, myVal, minVal, hmy, hmin, hlt, hbound, rfl⟩
  · exact hI
  · obtain ⟨hA, hB, hC⟩ := hI
    rw [hidx] at hfloor
    have hfl : isFloorCell dd (x, y) := ⟨hx, hy, hfloor⟩
    have hown := getMapAt_own hwf hHW hfl hmy
    obtain ⟨⟨v0, hv0, hle0⟩, hatt, _⟩ := getMinNei_spec hmin
    rw [hidx] at hv0
    rw [hown] at hv0
    simp only [Option.some.injEq] at hv0
    subst hv0
    have hmy_le : myVal ≤ invalid_tile_value := (hA _ _ hown).2
    -- the minimum is an entry of the buffer, read at a neighbouring Floor cell
    have hnei : ∃ u v, neighbourRead x y u v ∧ u < dd.width ∧ v < dd.width ∧
        dd.tiles[cellIndex dd u v]? = some dungeon.floor ∧
        s.map[cellIndex dd u v]? = some minVal := by
      rcases hatt with e | e
      · rw [hidx, hown] at e
        simp only [Option.some.injEq] at e
        rw [e] at hlt
        linarith
      · exact e
    obtain ⟨u, v, hr, hu, hv, ht, hval⟩ := hnei
    obtain ⟨hadj, hflq, hidxq⟩ := neighbourRead_adjacent hwf hx hy hr hu hv ht
    rw [hidxq] at hval
    have hmin0 : 0 ≤ minVal := (hA _ _ hval).1
    simp only
    refine ⟨?_, ?_, ?_⟩
    · intro i w hw
      by_cases hi : cellIndex dd x y = i
      · rw [hi, List.getElem?_set_self (hi ▸ hbound)] at hw
        simp only [Option.some.injEq] at hw
        rw [← hw]
        constructor <;> linarith
      · rw [List.getElem?_set_ne hi] at hw
        exact hA i w hw
    · intro p hp hs
      have hne : cellIndex dd x y ≠ p.2 * dd.width + p.1 := by
        rw [hidx]
        intro e
        obtain ⟨e1, e2⟩ := index_inj hx hp.1 e
        have hp0 := hB p hp hs
        rw [← e, hown] at hp0
        simp only [Option.some.injEq] at hp0
        rw [hp0] at hlt
        linarith
      rw [List.getElem?_set_ne hne]
      exact hB p hp hs
    · intro p hp w hw hwlt
      by_cases hi : cellIndex dd x y = p.2 * dd.width + p.1
      · rw [← hi, List.getElem?_set_self hbound] at hw
        simp only [Option.some.injEq] at hw
        have hpe : p = (x, y) := by
          rw [hidx] at hi
          obtain ⟨e1, e2⟩ := index_inj hx hp.1 hi
          exact Prod.ext e1.symm e2.symm
        obtain ⟨n, hn, hpath⟩ := hC (u, v) hflq minVal hval (by linarith)
        refine ⟨n + 1, ?_, ?_⟩
        · rw [← hw]; push_cast; linarith
        · rw [hpe]; exact FloorPathLen.step (x, y) (u, v) n hfl hadj hpath
      · rw [List.getElem?_set_ne hi] at hw
        exact hC p hp w hw hwlt

theorem relaxLoop_keeps_inv {dd : DungeonData} {map0 : List ℚ} (hwf : dd.wellFormed)
    (hHW : dd.height ≤ dd.width) {fuel : Nat} {m : List ℚ} {mv : ℚ} {r : List ℚ × ℚ}
    (hm : RelaxInv dd map0 m) (h : relaxLoop dd fuel m mv = .ok r) : RelaxInv dd map0 r.1 := by
  refine relaxLoop_inv dd (RelaxInv dd map0) ?_ fuel m mv r hm h
  intro m mv s hm hs
  exact forEachCell_inv (relaxCell dd) (fun s => RelaxInv dd map0 s.map) (cells dd)
    (fun c hc s t hs ht =>
      relaxCell_keeps_inv hwf hHW (mem_cells.mp hc).1 (mem_cells.mp hc).2 hs ht) _ s hm hs

/-- A sweep that reports no change has changed nothing, and every step of it
returned its state as it was. -/
theorem forEachCell_done (dd : DungeonData) :
    ∀ (cs : List (Nat × Nat)) (s t : Scan), forEachCell (relaxCell dd) cs s = .ok t →
      t.done = true → t = s ∧ ∀ c ∈ cs, relaxCell dd s c.1 c.2 = .ok s := by
  intro cs
  induction cs with
  | nil =>
    intro s t h _
    simp only [forEachCell, Res.ok.injEq] at h
    exact ⟨h.symm, fun c hc => absurd hc (by simp)⟩
  | cons c cs ih =>
    intro s t h hd
    rw [forEachCell, Res.bind_eq_ok] at h
    obtain ⟨s1, h1, h2⟩ := h
    obtain ⟨e, hall⟩ := ih s1 t h2 hd
    have hs1 : s1 = s := by
      rcases relaxCell_cases h1 with e1 | ⟨_, _, _, _, _, _, _, e1⟩
      · exact e1
      · rw [e, e1] at hd
        simp at hd
    rw [hs1] at h1 hall e
    refine ⟨e, ?_⟩
    intro c' hc'
    rcases List.mem_cons.mp hc' with e' | e'
    · rw [e']; exact h1
    · exact hall c' e'

theorem relaxLoop_stable (dd : DungeonData) :
    ∀ (fuel : Nat) (m : List ℚ) (mv : ℚ) (r : List ℚ × ℚ), relaxLoop dd fuel m mv = .ok r →
      ∀ c ∈ cells dd, relaxCell dd ⟨r.1, true, r.2⟩ c.1 c.2 = .ok ⟨r.1, true, r.2⟩ := by
  intro fuel
  induction fuel with
  | zero => intro m mv r h; simp [relaxLoop] at h
  | succ n ih =>
    intro m mv r h
    rw [relaxLoop, Res.bind_eq_ok] at h
    obtain ⟨s, hs, h2⟩ := h
    by_cases hd : s.done = true
    · rw [if_pos hd] at h2
      simp only [Res.ok.injEq] at h2
      obtain ⟨e, hall⟩ := forEachCell_done dd (cells dd) _ s hs hd
      rw [← h2, e]
      exact hall
    · rw [if_neg hd] at h2
      exact ih _ _ _ h2

/-- A relaxation step that keeps `done = true` at a `Floor` cell found the
minimum over the neighbourhood not below the cell's value minus one. -/
theorem relaxCell_stable_floor {dd : DungeonData} {s : Scan} {x y : Nat}
    (hd : s.done = true) (ht : dd.tiles[cellIndex dd x y]? = some dungeon.floor)
    (h : relaxCell dd s x y = .ok s) :
    ∃ myVal minVal, getMapAt s.map dd x y invalid_tile_value = .ok myVal ∧
      getMinNei s.map dd x y = .ok minVal ∧ ¬ minVal < myVal - 1 := by
  rw [relaxCell, vget_eq_ok.mpr ht, Res.ok_bind, if_neg (by simp), Res.bind_eq_ok] at h
  obtain ⟨myVal, hmy, h⟩ := h
  rw [Res.bind_eq_ok] at h
  obtain ⟨minVal, hmin, h⟩ := h
  refine ⟨myVal, minVal, hmy, hmin, ?_⟩
  intro hlt
  rw [if_pos hlt, Res.bind_eq_ok] at h
  obtain ⟨m2, _, h⟩ := h
  simp only [Res.ok.injEq] at h
  rw [← h] at hd
  simp at hd

/-- At the fixed point the entry of a `Floor` cell is at most the number of
steps of any path from it to a seed. -/
theorem stable_le_pathLen {dd : DungeonData} {map0 m : List ℚ} {mv : ℚ}
    (hwf : dd.wellFormed) (hHW : dd.height ≤ dd.width) (hI : RelaxInv dd map0 m)
    (hst : ∀ c ∈ cells dd, relaxCell dd ⟨m, true, mv⟩ c.1 c.2 = .ok ⟨m, true, mv⟩)
    {p : Nat × Nat} {n : Nat} (hp : FloorPathLen dd map0 p n) :
    ∃ v, m[p.2 * dd.width + p.1]? = some v ∧ v ≤ (n : ℚ) := by
  induction hp with
  | here p hfl hs =>
    exact ⟨0, hI.2.1 p hfl hs, by simp⟩
  | step p q n hfl hadj _ ih =>
    obtain ⟨vq, hvq, hle⟩ := ih
    obtain ⟨x, y⟩ := p
    have hflq : isFloorCell dd q := by
      rename_i hq
      cases hq with
      | here _ h _ => exact h
      | step _ _ _ h _ _ => exact h
    obtain ⟨hx, hy, ht⟩ := hfl
    simp only at hx hy ht
    have hidx : cellIndex dd x y = y * dd.width + x :=
      cellIndex_eq hwf.2.1 hx (by have := hwf.2.2; omega)
    obtain ⟨myVal, minVal, hmy, hmin, hnlt⟩ :=
      relaxCell_stable_floor rfl (by rw [hidx]; exact ht)
        (hst (x, y) (mem_cells.mpr ⟨hx, hy⟩))
    have hown := getMapAt_own hwf hHW ⟨hx, hy, ht⟩ hmy
    obtain ⟨_, _, hall⟩ := getMinNei_spec hmin
    have hr := adjacent_neighbourRead hwf hx hy hflq hadj
    have hqidx : cellIndex dd q.1 q.2 = q.2 * dd.width + q.1 :=
      cellIndex_eq hwf.2.1 hflq.1 (by have := hflq.2.1; have := hwf.2.2; omega)
    obtain ⟨nq, hnq, hleq⟩ := hall q.1 q.2 hr hflq.1 (by have := hflq.2.1; omega)
      (by rw [hqidx]; exact hflq.2.2)
    rw [hqidx, hvq] at hnq
    simp only [Option.some.injEq] at hnq
    subst hnq
    refine ⟨myVal, hown, ?_⟩
    push_cast
    linarith [not_lt.mp hnlt]

/-- On a well-formed grid at least as wide as tall, started from a buffer of
`W * H` entries that are 0 or the sentinel, whenever the relaxation loop
returns, every `Floor` cell with a shortest path of `d ≤ 100000` steps to a
seeded cell holds `d`. -/
theorem relaxation_computes_distance (fuel : Nat) (map : List ℚ) (dd : DungeonData)
    (relaxed : List ℚ) (maxVal : ℚ) (p : Nat × Nat) (d : Nat)
    (hwf : dd.wellFormed) (hHW : dd.height ≤ dd.width)
    (hlen : map.length = dd.width * dd.height)
    (hin : ∀ v ∈ map, v = 0 ∨ v = invalid_tile_value)
    (hrel : relaxLoop dd fuel map 0 = .ok (relaxed, maxVal))
    (hpath : FloorPathLen dd map p d) (hshort : ∀ n, FloorPathLen dd map p n → d ≤ n)
    (hd : d ≤ 100000) :
    relaxed[p.2 * dd.width + p.1]? = some (d : ℚ) := by
  have hI : RelaxInv dd map relaxed := relaxLoop_keeps_inv hwf hHW (relaxInv_init hlen hin) hrel
  have hst := relaxLoop_stable dd fuel map 0 _ hrel
  obtain ⟨v, hv, hle⟩ := stable_le_pathLen hwf hHW hI hst hpath
  have hfl : isFloorCell dd p := by
    cases hpath with
    | here _ h _ => exact h
    | step _ _ _ h _ _ => exact h
  rw [hv]
  congr 1
  by_cases hlt : v < invalid_tile_value
  · obtain ⟨n, hn, hpn⟩ := hI.2.2 p hfl v hv hlt
    have h1 : (d : ℚ) ≤ (n : ℚ) := by exact_mod_cast hshort n hpn
    linarith
  · have h1 : invalid_tile_value ≤ v := not_lt.mp hlt
    have h2 : (d : ℚ) ≤ 100000 := by exact_mod_cast hd
    rw [invalid_tile_value] at h1
    linarith

/-! ## Termination of the relaxation loop on square grids -/

theorem sum_set_eq : ∀ (l : List ℚ) (k : Nat) (a b : ℚ), l[k]? = some b →
    (l.set k a).sum = l.sum - b + a := by
  intro l
  induction l with
  | nil => intro k a b h; simp at h
  | cons x xs ih =>
    intro k a b h
    cases k with
    | zero =>
      simp only [List.getElem?_cons_zero, Option.some.injEq] at h
      simp only [List.set_cons_zero, List.sum_cons, h]
      ring
    | succ k =>
      simp only [List.getElem?_cons_succ] at h
      simp only [List.set_cons_succ, List.sum_cons, ih k a b h]
      ring

theorem bufNat_set {m : List ℚ} (h : BufNat m) (k n : Nat) : BufNat (m.set k (n : ℚ)) := by
  intro v hv
  rcases List.mem_or_eq_of_mem_set hv with h1 | h1
  · exact h v h1
  · exact ⟨n, h1⟩

theorem getMapAt_total {dd : DungeonData} {m : List ℚ} (hwf : dd.wellFormed)
    (hsq : dd.height = dd.width) (hlen : m.length = dd.width * dd.height) (u v : Nat) (d : ℚ) :
    ∃ n, getMapAt m dd u v d = .ok n := by
  by_cases hb : u < dd.width ∧ v < dd.width
  · obtain ⟨hu, hv⟩ := hb
    have hidx : cellIndex dd u v = v * dd.width + u :=
      cellIndex_eq hwf.2.1 hu (by have := hwf.2.1; omega)
    have hlt : v * dd.width + u < dd.width * dd.height := by
      have h1 : (v + 1) * dd.width ≤ dd.height * dd.width :=
        Nat.mul_le_mul_right _ (by omega)
      have e : dd.height * dd.width = dd.width * dd.height := Nat.mul_comm _ _
      have e2 : (v + 1) * dd.width = v * dd.width + dd.width := Nat.succ_mul _ _
      omega
    have ht : v * dd.width + u < dd.tiles.length := by rw [hwf.1]; exact hlt
    rw [getMapAt, if_pos ⟨hu, hv⟩, hidx, vget, List.getElem?_eq_getElem ht]
    simp only [Res.ok_bind]
    by_cases hf : dd.tiles[v * dd.width + u] = dungeon.floor
    · rw [if_pos hf, vget, List.getElem?_eq_getElem (hlen ▸ hlt)]
      exact ⟨_, rfl⟩
    · rw [if_neg hf]; exact ⟨_, rfl⟩
  · exact ⟨d, getMapAt_outside _ _ _ _ _ hb⟩

theorem getMinNei_total {dd : DungeonData} {m : List ℚ} (hwf : dd.wellFormed)
    (hsq : dd.height = dd.width) (hlen : m.length = dd.width * dd.height) {x y : Nat}
    (hx : x < dd.width) (hy : y < dd.height) : ∃ n, getMinNei m dd x y = .ok n := by
  have hidx : cellIndex dd x y = y * dd.width + x :=
    cellIndex_eq hwf.2.1 hx (by have := hwf.2.2; omega)
  have hlt : y * dd.width + x < m.length := by
    rw [hlen]
    have h1 : (y + 1) * dd.width ≤ dd.height * dd.width := Nat.mul_le_mul_right _ hy
    have e : dd.height * dd.width = dd.width * dd.height := Nat.mul_comm _ _
    have e2 : (y + 1) * dd.width = y * dd.width + dd.width := Nat.succ_mul _ _
    omega
  rw [getMinNei, hidx, vget, List.getElem?_eq_getElem hlt]
  simp only [Res.ok_bind]
  obtain ⟨n1, h1⟩ := getMapAt_total hwf hsq hlen (sizeSub x 1) y m[y * dd.width + x]
  rw [h1, Res.ok_bind]
  obtain ⟨n2, h2⟩ := getMapAt_total hwf hsq hlen (sizeAdd x 1) y (min m[y * dd.width + x] n1)
  rw [h2, Res.ok_bind]
  obtain ⟨n3, h3⟩ := getMapAt_total hwf hsq hlen x (sizeSub y 1)
    (min (min m[y * dd.width + x] n1) n2)
  rw [h3, Res.ok_bind]
  obtain ⟨n4, h4⟩ := getMapAt_total hwf hsq hlen x (sizeAdd y 1)
    (min (min (min m[y * dd.width + x] n1) n2) n3)
  rw [h4, Res.ok_bind]
  exact ⟨_, rfl⟩

/-- On a square grid a relaxation step succeeds; it returns its state as it was,
or clears `done` and lowers the sum of the buffer by at least one. -/
theorem relaxCell_progress {dd : DungeonData} {s : Scan} {x y : Nat} (hwf : dd.wellFormed)
    (hsq : dd.height = dd.width) (hlen : s.map.length = dd.width * dd.height)
    (hnat : BufNat s.map) (hx : x < dd.width) (hy : y < dd.height) :
    ∃ t, relaxCell dd s x y = .ok t ∧ t.map.length = dd.width * dd.height ∧ BufNat t.map ∧
      (t = s ∨ (t.done = false ∧ t.map.sum + 1 ≤ s.map.sum)) := by
  have hidx : cellIndex dd x y = y * dd.width + x :=
    cellIndex_eq hwf.2.1 hx (by have := hwf.2.2; omega)
  have hlt : y * dd.width + x < dd.width * dd.height := by
    have h1 : (y + 1) * dd.width ≤ dd.height * dd.width := Nat.mul_le_mul_right _ hy
    have e : dd.height * dd.width = dd.width * dd.height := Nat.mul_comm _ _
    have e2 : (y + 1) * dd.width = y * dd.width + dd.width := Nat.succ_mul _ _
    omega
  have ht : y * dd.width + x < dd.tiles.length := by rw [hwf.1]; exact hlt
  obtain ⟨myVal, hmy⟩ := getMapAt_total hwf hsq hlen x y invalid_tile_value
  obtain ⟨minVal, hmin⟩ := getMinNei_total hwf hsq hlen hx hy
  by_cases hf : dd.tiles[y * dd.width + x] = dungeon.floor
  · have htile : dd.tiles[y * dd.width + x]? = some dungeon.floor := by
      rw [List.getElem?_eq_getElem ht, hf]
    by_cases hlt2 : minVal < myVal - 1
    · have hown := getMapAt_own hwf (by omega) ⟨hx, hy, htile⟩ hmy
      obtain ⟨_, hatt, _⟩ := getMinNei_spec hmin
      have hminNat : ∃ a : Nat, minVal = (a : ℚ) := by
        rcases hatt with e | ⟨u, v, _, _, _, _, e⟩
        · exact hnat _ (List.getElem?_mem e)
        · exact hnat _ (List.getElem?_mem e)
      obtain ⟨a, ha⟩ := hminNat
      obtain ⟨b, hb⟩ := hnat _ (List.getElem?_mem hown)
      refine ⟨⟨s.map.set (cellIndex dd x y) (minVal + 1), false,
        if minVal + 1 > s.maxVal then minVal + 1 else s.maxVal⟩, ?_, ?_, ?_, Or.inr ⟨rfl, ?_⟩⟩
      · rw [relaxCell, hidx, vget, List.getElem?_eq_getElem ht]
        simp only [Res.ok_bind]
        rw [if_neg (by simp [hf]), hmy, Res.ok_bind, hmin, Res.ok_bind, if_pos hlt2, vset,
          if_pos (hlen ▸ hlt), Res.ok_bind]
      · simp only [List.length_set]; exact hlen
      · simp only
        rw [ha]
        have : ((a : ℚ) + 1) = ((a + 1 : Nat) : ℚ) := by push_cast; ring
        rw [this]
        exact bufNat_set hnat _ _
      · simp only
        rw [hidx, sum_set_eq _ _ _ _ hown]
        rw [ha, hb] at hlt2
        have h3 : a + 1 < b := by
          have : (a : ℚ) + 1 < (b : ℚ) := by linarith
          exact_mod_cast this
        have h4 : (a : ℚ) + 2 ≤ (b : ℚ) := by exact_mod_cast h3
        rw [ha, hb]
        linarith
    · refine ⟨s, ?_, hlen, hnat, Or.inl rfl⟩
      rw [relaxCell, hidx, vget, List.getElem?_eq_getElem ht]
      simp only [Res.ok_bind]
      rw [if_neg (by simp [hf]), hmy, Res.ok_bind, hmin, Res.ok_bind, if_neg hlt2]
  · refine ⟨s, ?_, hlen, hnat, Or.inl rfl⟩
    rw [relaxCell, hidx, vget, List.getElem?_eq_getElem ht]
    simp only [Res.ok_bind]
    rw [if_pos hf]

theorem forEachCell_progress {dd : DungeonData} (hwf : dd.wellFormed)
    (hsq : dd.height = dd.width) :
    ∀ (cs : List (Nat × Nat)), (∀ c ∈ cs, c.1 < dd.width ∧ c.2 < dd.height) →
      ∀ (s : Scan), s.map.length = dd.width * dd.height → BufNat s.map →
      ∃ t, forEachCell (relaxCell dd) cs s = .ok t ∧
        t.map.length = dd.width * dd.height ∧ BufNat t.map ∧ t.map.sum ≤ s.map.sum ∧
        (s.done = true → t.done = false → t.map.sum + 1 ≤ s.map.sum) := by
  intro cs
  induction cs with
  | nil =>
    intro _ s hlen hnat
    refine ⟨s, rfl, hlen, hnat, le_refl _, ?_⟩
    intro h1 h2; rw [h1] at h2; simp at h2
  | cons c cs ih =>
    intro hcs s hlen hnat
    obtain ⟨hx, hy⟩ := hcs c (List.mem_cons_self _ _)
    obtain ⟨s1, h1, hlen1, hnat1, hcase⟩ := relaxCell_progress hwf hsq hlen hnat hx hy
    obtain ⟨t, h2, hlen2, hnat2, hsum, hdone⟩ :=
      ih (fun c' hc' => hcs c' (List.mem_cons_of_mem _ hc')) s1 hlen1 hnat1
    refine ⟨t, ?_, hlen2, hnat2, ?_, ?_⟩
    · rw [forEachCell, h1, Res.ok_bind]; exact h2
    · rcases hcase with e | ⟨_, e⟩
      · rw [← e]; exact hsum
      · linarith
    · intro hs ht
      rcases hcase with e | ⟨_, e⟩
      · rw [e] at hdone hsum
        exact hdone hs ht
      · linarith

theorem bufNat_sum_nonneg {m : List ℚ} (h : BufNat m) : 0 ≤ m.sum := by
  apply List.sum_nonneg
  intro v hv
  obtain ⟨n, hn⟩ := h v hv
  rw [hn]; exact Nat.cast_nonneg n

theorem relaxLoop_total {dd : DungeonData} (hwf : dd.wellFormed) (hsq : dd.height = dd.width) :
    ∀ (k : Nat) (m : List ℚ) (mv : ℚ), m.length = dd.width * dd.height → BufNat m →
      m.sum ≤ (k : ℚ) → ∃ r, relaxLoop dd (k + 1) m mv = .ok r := by
  intro k
  induction k with
  | zero =>
    intro m mv hlen hnat hsum
    obtain ⟨t, h1, _, hnat2, _, hdone⟩ :=
      forEachCell_progress hwf hsq (cells dd) (fun c hc => mem_cells.mp hc)
        ⟨m, true, mv⟩ hlen hnat
    rw [relaxLoop, sweep, h1, Res.ok_bind]
    by_cases hd : t.done = true
    · rw [if_pos hd]; exact ⟨_, rfl⟩
    · have h0 := bufNat_sum_nonneg hnat2
      have := hdone rfl (by simpa using hd)
      simp only [Nat.cast_zero] at hsum
      linarith
  | succ k ih =>
    intro m mv hlen hnat hsum
    obtain ⟨t, h1, hlen2, hnat2, _, hdone⟩ :=
      forEachCell_progress hwf hsq (cells dd) (fun c hc => mem_cells.mp hc)
        ⟨m, true, mv⟩ hlen hnat
    rw [relaxLoop, sweep, h1, Res.ok_bind]
    by_cases hd : t.done = true
    · rw [if_pos hd]; exact ⟨_, rfl⟩
    · rw [if_neg hd]
      have := hdone rfl (by simpa using hd)
      simp only at this
      push_cast at hsum
      exact ih t.map t.maxVal hlen2 hnat2 (by linarith)

/-- On a well-formed square grid, started from a buffer of `W * H` entries that
are 0 or the sentinel, the relaxation loop stops: some budget of sweeps is
enough for it to return. -/
theorem relaxation_terminates_on_square_grid (map : List ℚ) (dd : DungeonData)
    (hwf : dd.wellFormed) (hsq : dd.height = dd.width)
    (hlen : map.length = dd.width * dd.height)
    (hin : ∀ v ∈ map, v = 0 ∨ v = invalid_tile_value) :
    ∃ fuel r, relaxLoop dd fuel map 0 = .ok r := by
  have hnat : BufNat map := by
    intro v hv
    rcases hin v hv with e | e
    · exact ⟨0, by rw [e]; simp⟩
    · exact ⟨100000, by rw [e, invalid_tile_value]; simp⟩
  obtain ⟨k, hk⟩ := exists_nat_ge map.sum
  obtain ⟨r, hr⟩ := relaxLoop_total hwf hsq k map 0 hlen hnat hk
  exact ⟨k + 1, r, hr⟩

theorem square2_path_lower_bound {p : Nat × Nat} {n : Nat}
    (h : FloorPathLen square2 [0, invalid_tile_value, invalid_tile_value, invalid_tile_value] p n) :
    p.1 + p.2 ≤ n := by
  induction h with
  | here p hfl hs =>
    obtain ⟨a, b⟩ := p
    obtain ⟨h1, h2, _⟩ := hfl
    simp only [square2] at h1 h2
    simp only [seededCell, square2] at hs
    have hab : (a = 0 ∨ a = 1) ∧ (b = 0 ∨ b = 1) := by omega
    rcases hab with ⟨rfl | rfl, rfl | rfl⟩
    · simp
    · exact absurd (by decide!) hs
    · exact absurd (by decide!) hs
    · exact absurd (by decide!) hs
  | step p q n _ hadj _ ih =>
    simp only [adjacent4] at hadj
    omega

theorem relaxation_computes_distance_witness :
    ([0, 1, 1, 2] : List ℚ)[(1, 1).2 * square2.width + (1, 1).1]? = some ((2 : Nat) : ℚ) :=
  relaxation_computes_distance 3 [0, invalid_tile_value, invalid_tile_value, invalid_tile_value]
    square2 [0, 1, 1, 2] 2 (1, 1) 2 (by decide) (by decide) (by decide)
    (by decide!)
    (by decide!)
    (FloorPathLen.step (1, 1) (0, 1) 1 (by decide) (by decide)
      (FloorPathLen.step (0, 1) (0, 0) 0 (by decide) (by decide)
        (FloorPathLen.here (0, 0) (by decide) (by decide!))))
    (fun n h => square2_path_lower_bound h) (by decide)

theorem relaxation_terminates_on_square_grid_witness :
    ∃ fuel r, relaxLoop square2 fuel
      [0, invalid_tile_value, invalid_tile_value, invalid_tile_value] 0 = .ok r :=
  relaxation_terminates_on_square_grid
    [0, invalid_tile_value, invalid_tile_value, invalid_tile_value] square2
    (by decide) (by decide) (by decide)
    (by decide!)

/-! ## The tracked maximum and the falloff lookup -/

theorem forEachCell_inv_scan (dd : DungeonData) (P : Scan → Prop)
    (hstep : ∀ s t x y, P s → relaxCell dd s x y = .ok t → P t) :
    ∀ (cs : List (Nat × Nat)) (s t : Scan), P s → forEachCell (relaxCell dd) cs s = .ok t → P t :=
  fun cs => forEachCell_inv (relaxCell dd) P cs (fun c _ s t hs ht => hstep s t c.1 c.2 hs ht)

theorem relaxLoop_inv_pair (dd : DungeonData) (P : List ℚ → ℚ → Prop)
    (hstep : ∀ m mv s, P m mv → sweep dd m mv = .ok s → P s.map s.maxVal) :
    ∀ fuel m mv r, P m mv → relaxLoop dd fuel m mv = .ok r → P r.1 r.2 := by
  intro fuel
  induction fuel with
  | zero => intro m mv r _ h; simp [relaxLoop] at h
  | succ n ih =>
    intro m mv r hm h
    rw [relaxLoop, Res.bind_eq_ok] at h
    obtain ⟨s, hs, h2⟩ := h
    have hP := hstep m mv s hm hs
    by_cases hd : s.done = true
    · rw [if_pos hd] at h2
      simp only [Res.ok.injEq] at h2
      rw [← h2]; exact hP
    · rw [if_neg hd] at h2
      exact ih s.map s.maxVal r hP h2

theorem relaxCell_keeps_tracked {dd : DungeonData} {s t : Scan} {x y : Nat} {len : Nat}
    (hP : s.map.length = len ∧ Tracked s.map s.maxVal) (h : relaxCell dd s x y = .ok t) :
    t.map.length = len ∧ Tracked t.map t.maxVal := by
  rcases relaxCell_cases h with rfl | ⟨_, myVal, minVal, _, hmin, _, _, rfl⟩
  · exact hP
  · obtain ⟨hlen, hnat, hmax⟩ := hP
    obtain ⟨_, hatt, _⟩ := getMinNei_spec hmin
    have hminNat : ∃ a : Nat, minVal = (a : ℚ) := by
      rcases hatt with e | ⟨u, v, _, _, _, _, e⟩
      · exact hnat _ (List.getElem?_mem e)
      · exact hnat _ (List.getElem?_mem e)
    obtain ⟨a, ha⟩ := hminNat
    have hnew : minVal + 1 = ((a + 1 : Nat) : ℚ) := by rw [ha]; push_cast; ring
    refine ⟨by simp only [List.length_set]; exact hlen, ?_, ?_⟩
    · simp only
      rw [hnew]
      exact bufNat_set hnat _ _
    · intro v hv hlt
      simp only at hv ⊢
      rcases List.mem_or_eq_of_mem_set hv with h1 | h1
      · have := hmax v h1 hlt
        split
        · linarith
        · exact this
      · rw [h1]
        split
        · exact le_refl _
        · rename_i hgt
          exact not_lt.mp hgt

theorem relaxLoop_keeps_tracked {dd : DungeonData} {fuel : Nat} {m : List ℚ} {mv : ℚ}
    {r : List ℚ × ℚ} {len : Nat} (hm : m.length = len ∧ Tracked m mv)
    (h : relaxLoop dd fuel m mv = .ok r) : r.1.length = len ∧ Tracked r.1 r.2 := by
  refine relaxLoop_inv_pair dd (fun m mv => m.length = len ∧ Tracked m mv) ?_ fuel m mv r hm h
  intro m mv s hm hs
  exact forEachCell_inv_scan dd (fun s => s.map.length = len ∧ Tracked s.map s.maxVal)
    (fun s t x y hs ht => relaxCell_keeps_tracked hs ht) (cells dd) _ s hm hs

theorem cacheFrom_length (pw : ℚ → ℚ → ℚ) (funcArgs : DmapFunc) :
    ∀ (n i : Nat) (prev : ℚ), (cacheFrom pw funcArgs n i prev).length = n := by
  intro n
  induction n with
  | zero => intro i prev; rfl
  | succ n ih => intro i prev; rw [cacheFrom, List.length_cons, ih]

theorem buildCache_length (pw : ℚ → ℚ → ℚ) (funcArgs : DmapFunc) (maxVal : ℚ) :
    (buildCache pw funcArgs maxVal).length = maxVal.floor.toNat + 1 := by
  rw [buildCache, List.length_cons, cacheFrom_length]

/-- A natural entry that the running maximum covers is an index into the table
built for that maximum plus one. -/
theorem tracked_index_lt {n : Nat} {maxVal : ℚ} (h : (n : ℚ) ≤ maxVal) :
    n < (maxVal + 1).floor.toNat + 1 := by
  have h1 : ((n + 1 : Nat) : ℤ) ≤ (maxVal + 1).floor := by
    rw [Rat.le_floor]
    push_cast
    linarith
  omega

theorem falloff_loop_total (dd : DungeonData) (cacheV : List ℚ) :
    ∀ (cs : List (Nat × Nat)), (cs.map fun c => cellIndex dd c.1 c.2).Nodup →
      ∀ (m : List ℚ),
        (∀ c ∈ cs, ∃ v, m[cellIndex dd c.1 c.2]? = some v ∧
          (v < invalid_tile_value → ∃ n : Nat, v = (n : ℚ) ∧ n < cacheV.length)) →
        ∃ out, forEachCell (falloffCell dd cacheV) cs m = .ok out := by
  intro cs
  induction cs with
  | nil => intro _ m _; exact ⟨m, rfl⟩
  | cons c cs ih =>
    intro hnd m hall
    rw [List.map_cons, List.nodup_cons] at hnd
    obtain ⟨v, hv, hidx⟩ := hall c (List.mem_cons_self _ _)
    have hlen : cellIndex dd c.1 c.2 < m.length := (List.getElem?_eq_some_iff.mp hv).1
    by_cases hlt : v < invalid_tile_value
    · obtain ⟨n, hn, hnlt⟩ := hidx hlt
      have hn5 : n < 100000 := by
        rw [hn, invalid_tile_value] at hlt
        exact_mod_cast hlt
      have hstep : falloffCell dd cacheV m c.1 c.2 =
          .ok (m.set (cellIndex dd c.1 c.2) cacheV[n]) := by
        rw [falloffCell, vget_eq_ok.mpr hv, Res.ok_bind, if_pos hlt, hn,
          toSize_floatToInt_natCast (by omega), vget, List.getElem?_eq_getElem hnlt]
        simp only [Res.ok_bind]
        rw [vset, if_pos hlen]
      obtain ⟨out, hout⟩ := ih hnd.2 (m.set (cellIndex dd c.1 c.2) cacheV[n]) (by
        intro c' hc'
        have hne : cellIndex dd c.1 c.2 ≠ cellIndex dd c'.1 c'.2 := by
          intro e
          apply hnd.1
          rw [e]
          exact List.mem_map.mpr ⟨c', hc', rfl⟩
        rw [List.getElem?_set_ne hne]
        exact hall c' (List.mem_cons_of_mem _ hc'))
      exact ⟨out, by rw [forEachCell, hstep, Res.ok_bind]; exact hout⟩
    · have hstep : falloffCell dd cacheV m c.1 c.2 = .ok m := by
        rw [falloffCell, vget_eq_ok.mpr hv, Res.ok_bind, if_neg hlt]
      obtain ⟨out, hout⟩ := ih hnd.2 m (fun c' hc' => hall c' (List.mem_cons_of_mem _ hc'))
      exact ⟨out, by rw [forEachCell, hstep, Res.ok_bind]; exact hout⟩

/-- On a well-formed square grid, started from a buffer of `W * H` entries that
are 0 or the sentinel, `process_dmap` returns a field for some budget of
sweeps, whatever the falloff spec. -/
theorem process_dmap_returns_on_square_grid (pw : ℚ → ℚ → ℚ) (map : List ℚ) (dd : DungeonData)
    (funcArgs : DmapFunc) (hwf : dd.wellFormed) (hsq : dd.height = dd.width)
    (hlen : map.length = dd.width * dd.height)
    (hin : ∀ v ∈ map, v = 0 ∨ v = invalid_tile_value) :
    ∃ fuel out, process_dmap pw fuel map dd funcArgs = .ok out := by
  obtain ⟨fuel, r, hr⟩ := relaxation_terminates_on_square_grid map dd hwf hsq hlen hin
  have htr0 : map.length = dd.width * dd.height ∧ Tracked map 0 := by
    refine ⟨hlen, ?_, ?_⟩
    · intro v hv
      rcases hin v hv with e | e
      · exact ⟨0, by rw [e]; simp⟩
      · exact ⟨100000, by rw [e, invalid_tile_value]; simp⟩
    · intro v hv hlt
      rcases hin v hv with e | e
      · rw [e]
      · rw [e] at hlt; exact absurd hlt (lt_irrefl _)
  obtain ⟨hlen2, hnat, hmax⟩ := relaxLoop_keeps_tracked htr0 hr
  obtain ⟨out, hout⟩ := falloff_loop_total dd (buildCache pw funcArgs (r.2 + 1)) (cells dd)
    (cellIndex_cells_nodup hwf.2.1 hwf.2.2) r.1 (by
      intro c hc
      obtain ⟨hx, hy⟩ := mem_cells.mp hc
      have hidx : cellIndex dd c.1 c.2 = c.2 * dd.width + c.1 :=
        cellIndex_eq hwf.2.1 hx (by have := hwf.2.2; omega)
      have hlt : c.2 * dd.width + c.1 < r.1.length := by
        rw [hlen2]
        have h1 : (c.2 + 1) * dd.width ≤ dd.height * dd.width := Nat.mul_le_mul_right _ hy
        have e : dd.height * dd.width = dd.width * dd.height := Nat.mul_comm _ _
        have e2 : (c.2 + 1) * dd.width = c.2 * dd.width + dd.width := Nat.succ_mul _ _
        omega
      refine ⟨r.1[c.2 * dd.width + c.1], by rw [hidx, List.getElem?_eq_getElem hlt], ?_⟩
      intro hv
      have hmem : r.1[c.2 * dd.width + c.1] ∈ r.1 := List.getElem_mem hlt
      obtain ⟨n, hn⟩ := hnat _ hmem
      refine ⟨n, hn, ?_⟩
      rw [buildCache_length]
      exact tracked_index_lt (hn ▸ hmax _ hmem hv))
  exact ⟨fuel, out, process_dmap_eq_ok.mpr ⟨r.1, r.2, hr, hout⟩⟩

theorem process_dmap_returns_on_square_grid_witness :
    ∃ fuel out, process_dmap samplePow fuel
      [0, invalid_tile_value, invalid_tile_value, invalid_tile_value] diagonal2
      ⟨.DF_POW, 2⟩ = .ok out :=
  process_dmap_returns_on_square_grid samplePow
    [0, invalid_tile_value, invalid_tile_value, invalid_tile_value] diagonal2 ⟨.DF_POW, 2⟩
    (by decide) (by decide) (by decide)
    (by decide!)

/-! ## The length of the buffer and the incoming buffer -/

theorem foldl_res_oob {α β : Type} (step : β → α → Res β) (as : List α) :
    as.foldl (fun (r : Res β) (a : α) => r.bind fun m => step m a) (.oob : Res β) = .oob := by
  induction as with
  | nil => rfl
  | cons a as ih => simp only [List.foldl_cons, Res.oob_bind]; exact ih

theorem foldl_res_fuelOut {α β : Type} (step : β → α → Res β) (as : List α) :
    as.foldl (fun (r : Res β) (a : α) => r.bind fun m => step m a) (.fuelOut : Res β) =
      .fuelOut := by
  induction as with
  | nil => rfl
  | cons a as ih => simp only [List.foldl_cons, Res.fuelOut_bind]; exact ih

/-- A property kept by every successful step is kept by a fold of fallible steps. -/
theorem foldl_res_inv {α β : Type} (step : β → α → Res β) (P : β → Prop)
    (hstep : ∀ m a m2, P m → step m a = .ok m2 → P m2) :
    ∀ (as : List α) (m out : β), P m →
      as.foldl (fun (r : Res β) (a : α) => r.bind fun m => step m a) (Res.ok m) = Res.ok out →
      P out := by
  intro as
  induction as with
  | nil =>
    intro m out hm h
    simp only [List.foldl_nil, Res.ok.injEq] at h
    exact h ▸ hm
  | cons a as ih =>
    intro m out hm h
    simp only [List.foldl_cons, Res.ok_bind] at h
    cases hs : step m a with
    | ok m2 => rw [hs] at h; exact ih m2 out (hstep m a m2 hm hs) h
    | oob => rw [hs, foldl_res_oob] at h; exact absurd h (by simp)
    | fuelOut => rw [hs, foldl_res_fuelOut] at h; exact absurd h (by simp)

theorem vset_length {v w : List ℚ} {i : Nat} {a : ℚ} (h : vset v i a = .ok w) :
    w.length = v.length := by
  rw [vset_eq_ok] at h
  rw [h.2, List.length_set]

theorem relaxLoop_length {dd : DungeonData} {fuel : Nat} {m : List ℚ} {mv : ℚ}
    {r : List ℚ × ℚ} (h : relaxLoop dd fuel m mv = .ok r) : r.1.length = m.length := by
  refine relaxLoop_inv dd (fun m2 => m2.length = m.length) ?_ fuel m mv r rfl h
  intro m1 mv1 s hm hs
  refine forEachCell_inv (relaxCell dd) (fun s => s.map.length = m.length) (cells dd) ?_ _ s hm hs
  intro c _ s t hs ht
  rcases relaxCell_cases ht with rfl | ⟨_, _, _, _, _, _, _, rfl⟩
  · exact hs
  · simp only [List.length_set]; exact hs

theorem falloff_length {pw : ℚ → ℚ → ℚ} {dd : DungeonData} {funcArgs : DmapFunc}
    {m out : List ℚ} {mv : ℚ} (h : falloff pw dd funcArgs m mv = .ok out) :
    out.length = m.length := by
  refine forEachCell_inv _ (fun m2 => m2.length = m.length) (cells dd) ?_ m out rfl h
  intro c _ s t hs ht
  rcases falloffCell_cases ht with ⟨rfl, _⟩ | ⟨_, _, _, _, _, rfl⟩
  · exact hs
  · simp only [List.length_set]; exact hs

theorem process_dmap_length {pw : ℚ → ℚ → ℚ} {fuel : Nat} {map : List ℚ} {dd : DungeonData}
    {funcArgs : DmapFunc} {out : List ℚ} (h : process_dmap pw fuel map dd funcArgs = .ok out) :
    out.length = map.length := by
  obtain ⟨relaxed, maxVal, h1, h2⟩ := process_dmap_eq_ok.mp h
  rw [falloff_length h2]
  exact relaxLoop_length h1

theorem init_tiles_length (map : List ℚ) (dd : DungeonData) :
    (init_tiles map dd).length = sizeMul dd.width dd.height := by
  rw [init_tiles_eq, List.length_replicate]

theorem approachSeeds_length {w : World} {map m : List ℚ} {dd : DungeonData}
    (h : approachSeeds w map dd = .ok m) : m.length = sizeMul dd.width dd.height := by
  rw [← init_tiles_length map dd]
  refine foldl_res_inv (fun (m : List ℚ) (pt : Position × Team) =>
      if pt.2.team = 0 then vset m (posIndex dd pt.1) 0 else .ok m)
    (fun m => m.length = (init_tiles map dd).length) ?_ w.characters _ m rfl h
  intro m1 pt m2 hm hs
  simp only at hs
  by_cases ht : pt.2.team = 0
  · rw [if_pos ht] at hs; rw [vset_length hs]; exact hm
  · rw [if_neg ht] at hs; simp only [Res.ok.injEq] at hs; rw [← hs]; exact hm

theorem hiveSeeds_length {w : World} {map m : List ℚ} {dd : DungeonData}
    (h : hiveSeeds w map dd = .ok m) : m.length = sizeMul dd.width dd.height := by
  rw [← init_tiles_length map dd]
  refine foldl_res_inv (fun (m : List ℚ) (pos : Position) => vset m (posIndex dd pos) 0)
    (fun m => m.length = (init_tiles map dd).length) ?_ w.hives _ m rfl h
  intro m1 pos m2 hm hs
  simp only at hs
  rw [vset_length hs]; exact hm

theorem archerCandidate_length {dd : DungeonData} {pos : Position} {m m2 : List ℚ} {x y : Int}
    (h : archerCandidate dd pos m x y = .ok m2) : m2.length = m.length := by
  unfold archerCandidate at h
  split at h
  · rw [Res.bind_eq_ok] at h
    obtain ⟨t, _, h⟩ := h
    split at h
    · rw [Res.bind_eq_ok] at h
      obtain ⟨clear, _, h⟩ := h
      split at h
      · exact vset_length h
      · simp only [Res.ok.injEq] at h; rw [h]
    · simp only [Res.ok.injEq] at h; rw [h]
  · simp only [Res.ok.injEq] at h; rw [h]

theorem archerAgent_length {dd : DungeonData} {pos : Position} {m m2 : List ℚ}
    (h : archerAgent dd pos m = .ok m2) : m2.length = m.length := by
  refine foldl_res_inv (fun (m : List ℚ) (o : Int × Int × Int) =>
      archerCandidate dd pos m (pos.x + archerOffX o.1 o.2.1 o.2.2)
        (pos.y + archerOffY o.1 o.2.1 o.2.2))
    (fun m1 => m1.length = m.length) ?_ archerLoop m m2 rfl h
  intro m1 o m3 hm hs
  simp only at hs
  rw [archerCandidate_length hs]; exact hm

theorem archerSeeds_length {w : World} {map m : List ℚ} {dd : DungeonData}
    (h : archerSeeds w map dd = .ok m) : m.length = sizeMul dd.width dd.height := by
  rw [← init_tiles_length map dd]
  refine foldl_res_inv (fun (m : List ℚ) (pt : Position × Team) =>
      if pt.2.team = 0 then archerAgent dd pt.1 m else .ok m)
    (fun m => m.length = (init_tiles map dd).length) ?_ w.characters _ m rfl h
  intro m1 pt m2 hm hs
  simp only at hs
  by_cases ht : pt.2.team = 0
  · rw [if_pos ht] at hs; rw [archerAgent_length hs]; exact hm
  · rw [if_neg ht] at hs; simp only [Res.ok.injEq] at hs; rw [← hs]; exact hm

theorem approach_on_one_grid (pw : ℚ → ℚ → ℚ) (fuel : Nat) (w : World) (map : List ℚ)
    (funcArgs : DmapFunc) (dd : DungeonData) (hone : w.dungeons = [dd]) :
    gen_player_approach_map pw fuel w map funcArgs =
      (approachSeeds w map dd).bind fun m => process_dmap pw fuel m dd funcArgs := by
  simp only [gen_player_approach_map, query_dungeon_data, hone, List.foldl_cons, List.foldl_nil,
    Res.ok_bind]

theorem archer_on_one_grid (pw : ℚ → ℚ → ℚ) (fuel : Nat) (w : World) (map : List ℚ)
    (funcArgs : DmapFunc) (dd : DungeonData) (hone : w.dungeons = [dd]) :
    gen_player_archer_map pw fuel w map funcArgs =
      (archerSeeds w map dd).bind fun m => process_dmap pw fuel m dd funcArgs := by
  simp only [gen_player_archer_map, query_dungeon_data, hone, List.foldl_cons, List.foldl_nil,
    Res.ok_bind]

theorem hive_on_one_grid (pw : ℚ → ℚ → ℚ) (fuel : Nat) (w : World) (map : List ℚ)
    (funcArgs : DmapFunc) (dd : DungeonData) (hone : w.dungeons = [dd]) :
    gen_hive_pack_map pw fuel w map funcArgs =
      (hiveSeeds w map dd).bind fun m => process_dmap pw fuel m dd funcArgs := by
  simp only [gen_hive_pack_map, query_dungeon_data, hone, List.foldl_cons, List.foldl_nil,
    Res.ok_bind]

/-- C11: in a world with exactly one grid, of dimensions W x H (with W * H
representable in `size_t`), whenever one of the four generators (approach,
flee, archer, hive) returns a field, that field has exactly W * H entries. -/
theorem generators_return_one_entry_per_cell (pw : ℚ → ℚ → ℚ) (fuel : Nat) (w : World)
    (map : List ℚ) (funcArgs : DmapFunc) (dd : DungeonData) (hone : w.dungeons = [dd])
    (hsize : dd.width * dd.height < 2 ^ 64) :
    (∀ out, gen_player_approach_map pw fuel w map funcArgs = .ok out →
        out.length = dd.width * dd.height) ∧
      (∀ out, gen_player_flee_map pw fuel w map funcArgs = .ok out →
        out.length = dd.width * dd.height) ∧
      (∀ out, gen_player_archer_map pw fuel w map funcArgs = .ok out →
        out.length = dd.width * dd.height) ∧
      (∀ out, gen_hive_pack_map pw fuel w map funcArgs = .ok out →
        out.length = dd.width * dd.height) := by
  have hmul : sizeMul dd.width dd.height = dd.width * dd.height := by
    rw [sizeMul, Nat.mod_eq_of_lt hsize]
  have happ : ∀ out, gen_player_approach_map pw fuel w map funcArgs = .ok out →
      out.length = dd.width * dd.height := by
    intro out h
    rw [approach_on_one_grid pw fuel w map funcArgs dd hone, Res.bind_eq_ok] at h
    obtain ⟨m, h1, h2⟩ := h
    rw [process_dmap_length h2, approachSeeds_length h1, hmul]
  refine ⟨happ, ?_, ?_, ?_⟩
  · intro out h
    rw [gen_player_flee_map, Res.bind_eq_ok] at h
    obtain ⟨m, h1, h2⟩ := h
    simp only [Res.ok.injEq] at h2
    rw [← h2, fleeScale, List.length_map]
    exact happ m h1
  · intro out h
    rw [archer_on_one_grid pw fuel w map funcArgs dd hone, Res.bind_eq_ok] at h
    obtain ⟨m, h1, h2⟩ := h
    rw [process_dmap_length h2, archerSeeds_length h1, hmul]
  · intro out h
    rw [hive_on_one_grid pw fuel w map funcArgs dd hone, Res.bind_eq_ok] at h
    obtain ⟨m, h1, h2⟩ := h
    rw [process_dmap_length h2, hiveSeeds_length h1, hmul]

/-- C12: in a world with exactly one grid, each of the four generators gives the
same result for any two incoming buffers, whatever their contents and
lengths: `init_tiles` resizes the buffer and overwrites every entry. -/
theorem generators_ignore_incoming_buffer (pw : ℚ → ℚ → ℚ) (fuel : Nat) (w : World)
    (map map2 : List ℚ) (funcArgs : DmapFunc) (dd : DungeonData) (hone : w.dungeons = [dd]) :
    gen_player_approach_map pw fuel w map funcArgs =
        gen_player_approach_map pw fuel w map2 funcArgs ∧
      gen_player_flee_map pw fuel w map funcArgs =
        gen_player_flee_map pw fuel w map2 funcArgs ∧
      gen_player_archer_map pw fuel w map funcArgs =
        gen_player_archer_map pw fuel w map2 funcArgs ∧
      gen_hive_pack_map pw fuel w map funcArgs =
        gen_hive_pack_map pw fuel w map2 funcArgs := by
  have happ : gen_player_approach_map pw fuel w map funcArgs =
      gen_player_approach_map pw fuel w map2 funcArgs := by
    rw [approach_on_one_grid pw fuel w map funcArgs dd hone,
      approach_on_one_grid pw fuel w map2 funcArgs dd hone, approachSeeds_buffer w map map2]
  refine ⟨happ, ?_, ?_, ?_⟩
  · rw [gen_player_flee_map, gen_player_flee_map, happ]
  · rw [archer_on_one_grid pw fuel w map funcArgs dd hone,
      archer_on_one_grid pw fuel w map2 funcArgs dd hone, archerSeeds_buffer w map map2]
  · rw [hive_on_one_grid pw fuel w map funcArgs dd hone,
      hive_on_one_grid pw fuel w map2 funcArgs dd hone, hiveSeeds_buffer w map map2]

theorem generators_return_one_entry_per_cell_witness :
    ([0, 1, 1, 2] : List ℚ).length = square2.width * square2.height ∧
      ([0, -(6 / 5), -(6 / 5), -(12 / 5)] : List ℚ).length = square2.width * square2.height ∧
      (List.replicate 4 invalid_tile_value).length = square2.width * square2.height ∧
      ([2, 1, 1, 0] : List ℚ).length = square2.width * square2.height :=
  ⟨(generators_return_one_entry_per_cell samplePow 3 mixedWorld [7] ⟨.DF_LINEAR, 1⟩ square2 rfl
      (by decide)).1 _ (by decide!),
    (generators_return_one_entry_per_cell samplePow 3 mixedWorld [7] ⟨.DF_LINEAR, 1⟩ square2 rfl
      (by decide)).2.1 _ (by decide!),
    (generators_return_one_entry_per_cell samplePow 3 mixedWorld [7] ⟨.DF_LINEAR, 1⟩ square2 rfl
      (by decide)).2.2.1 _ (by decide!),
    (generators_return_one_entry_per_cell samplePow 3 mixedWorld [7] ⟨.DF_LINEAR, 1⟩ square2 rfl
      (by decide)).2.2.2 _ (by decide!)⟩

theorem generators_ignore_incoming_buffer_witness :
    gen_player_approach_map samplePow 3 mixedWorld [7] ⟨.DF_LINEAR, 1⟩ =
        gen_player_approach_map samplePow 3 mixedWorld [7, 8, 9, 1, 1, 1, 1] ⟨.DF_LINEAR, 1⟩ ∧
      gen_player_flee_map samplePow 3 mixedWorld [7] ⟨.DF_LINEAR, 1⟩ =
        gen_player_flee_map samplePow 3 mixedWorld [7, 8, 9, 1, 1, 1, 1] ⟨.DF_LINEAR, 1⟩ ∧
      gen_player_archer_map samplePow 3 mixedWorld [7] ⟨.DF_LINEAR, 1⟩ =
        gen_player_archer_map samplePow 3 mixedWorld [7, 8, 9, 1, 1, 1, 1] ⟨.DF_LINEAR, 1⟩ ∧
      gen_hive_pack_map samplePow 3 mixedWorld [7] ⟨.DF_LINEAR, 1⟩ =
        gen_hive_pack_map samplePow 3 mixedWorld [7, 8, 9, 1, 1, 1, 1] ⟨.DF_LINEAR, 1⟩ :=
  generators_ignore_incoming_buffer samplePow 3 mixedWorld [7] [7, 8, 9, 1, 1, 1, 1]
    ⟨.DF_LINEAR, 1⟩ square2 rfl

/-! ## The fixed point, single sweeps and the size of the table -/

theorem forEachCell_fixed {σ : Type} (f : σ → Nat → Nat → Res σ) (s : σ) :
    ∀ (cs : List (Nat × Nat)), (∀ c ∈ cs, f s c.1 c.2 = .ok s) → forEachCell f cs s = .ok s := by
  intro cs
  induction cs with
  | nil => intro _; rfl
  | cons c cs ih =>
    intro h
    rw [forEachCell, h c (List.mem_cons_self _ _), Res.ok_bind]
    exact ih (fun c2 hc2 => h c2 (List.mem_cons_of_mem _ hc2))

/-- C13: for every grid and every buffer, when the relaxation loop of
`process_dmap` has stopped, one more full row-major sweep over the buffer it
left reports no change and leaves every cell (and `maxVal`) as it was. -/
theorem extra_sweep_changes_nothing (dd : DungeonData) (fuel : Nat) (map relaxed : List ℚ)
    (maxVal : ℚ) (hrel : relaxLoop dd fuel map 0 = .ok (relaxed, maxVal)) :
    sweep dd relaxed maxVal = .ok ⟨relaxed, true, maxVal⟩ :=
  forEachCell_fixed (relaxCell dd) ⟨relaxed, true, maxVal⟩ (cells dd)
    (relaxLoop_stable dd fuel map 0 (relaxed, maxVal) hrel)

theorem extra_sweep_changes_nothing_witness :
    sweep square3 [1, 0, 1, 2, 1, 1, 2, 1, 0] 3 = .ok ⟨[1, 0, 1, 2, 1, 1, 2, 1, 0], true, 3⟩ :=
  extra_sweep_changes_nothing square3 4 twoSeeds3 [1, 0, 1, 2, 1, 1, 2, 1, 0] 3 (by decide!)

/-- C15, evaluated on the 1 × 3 all-Floor grid with the single seed at (0, 2): the
first sweep of the relaxation loop raises the seeded cell from 0 to 1. -/
theorem sweep_raises_seed_on_tall_grid :
    sweep tallGrid3 [invalid_tile_value, invalid_tile_value, 0] 0 =
        .ok ⟨[invalid_tile_value, invalid_tile_value, 1], false, 1⟩ ∧
      ([invalid_tile_value, invalid_tile_value, 0] : List ℚ)[2]? = some 0 ∧
      ([invalid_tile_value, invalid_tile_value, 1] : List ℚ)[2]? = some 1 ∧ (0 : ℚ) < 1 := by
  refine ⟨by decide!, by decide!, by decide!, by decide!⟩

/-- On a well-formed grid at least as wide as tall a relaxation step does not
raise any entry, and keeps the entries non-negative when they all are. -/
theorem relaxCell_only_lowers {dd : DungeonData} {s t : Scan} {x y : Nat}
    (hwf : dd.wellFormed) (hHW : dd.height ≤ dd.width) (hx : x < dd.width) (hy : y < dd.height)
    (h : relaxCell dd s x y = .ok t) :
    (∀ (j : Nat) (v : ℚ), s.map[j]? = some v → ∃ v2, t.map[j]? = some v2 ∧ v2 ≤ v) ∧
      ((∀ v ∈ s.map, 0 ≤ v) → ∀ v ∈ t.map, 0 ≤ v) := by
  have hidx : cellIndex dd x y = y * dd.width + x :=
    cellIndex_eq hwf.2.1 hx (by have := hwf.2.2; omega)
  rcases relaxCell_cases h with rfl | ⟨hfloor, myVal, minVal, hmy, hmin, hlt, hbound, rfl⟩
  · exact ⟨fun j v hv => ⟨v, hv, le_refl v⟩, fun h0 => h0⟩
  · rw [hidx] at hfloor
    have hown := getMapAt_own hwf hHW ⟨hx, hy, hfloor⟩ hmy
    obtain ⟨_, hatt, _⟩ := getMinNei_spec hmin
    constructor
    · intro j v hv
      by_cases hj : cellIndex dd x y = j
      · refine ⟨minVal + 1, ?_, ?_⟩
        · simp only; rw [hj, List.getElem?_set_self (hj ▸ hbound)]
        · rw [← hj, hidx, hown] at hv
          simp only [Option.some.injEq] at hv
          rw [← hv]; linarith
      · exact ⟨v, by simp only; rw [List.getElem?_set_ne hj]; exact hv, le_refl v⟩
    · intro h0 v hv
      simp only at hv
      rcases List.mem_or_eq_of_mem_set hv with h1 | h1
      · exact h0 v h1
      · have hmin0 : 0 ≤ minVal := by
          rcases hatt with e | ⟨_, _, _, _, _, _, e⟩
          · exact h0 _ (List.getElem?_mem e)
          · exact h0 _ (List.getElem?_mem e)
        rw [h1]; linarith

/-- On a well-formed grid at least as wide as tall, one full sweep of the
relaxation loop leaves every entry at or below its value before the sweep, and
leaves all entries non-negative when they all were. -/
theorem sweep_only_lowers_on_wide_grid (dd : DungeonData) (m : List ℚ) (mv : ℚ) (s : Scan)
    (hwf : dd.wellFormed) (hHW : dd.height ≤ dd.width) (h : sweep dd m mv = .ok s) :
    (∀ (j : Nat) (v : ℚ), m[j]? = some v → ∃ v2, s.map[j]? = some v2 ∧ v2 ≤ v) ∧
      ((∀ v ∈ m, 0 ≤ v) → ∀ v ∈ s.map, 0 ≤ v) := by
  refine forEachCell_inv (relaxCell dd)
    (fun s => (∀ (j : Nat) (v : ℚ), m[j]? = some v → ∃ v2, s.map[j]? = some v2 ∧ v2 ≤ v) ∧
      ((∀ v ∈ m, 0 ≤ v) → ∀ v ∈ s.map, 0 ≤ v)) (cells dd) ?_ ⟨m, true, mv⟩ s
    ⟨fun j v hv => ⟨v, hv, le_refl v⟩, fun h0 => h0⟩ h
  intro c hc s1 t ⟨hle, hpos⟩ ht
  obtain ⟨hx, hy⟩ := mem_cells.mp hc
  obtain ⟨hle2, hpos2⟩ := relaxCell_only_lowers hwf hHW hx hy ht
  constructor
  · intro j v hv
    obtain ⟨v1, hv1, h1⟩ := hle j v hv
    obtain ⟨v2, hv2, h2⟩ := hle2 j v1 hv1
    exact ⟨v2, hv2, le_trans h2 h1⟩
  · intro h0
    exact hpos2 (hpos h0)

theorem sweep_only_lowers_on_wide_grid_witness :
    (∀ (j : Nat) (v : ℚ), twoSeeds3[j]? = some v →
        ∃ v2, (Scan.mk [1, 0, 1, 2, 1, 1, 3, 1, 0] false 3).map[j]? = some v2 ∧ v2 ≤ v) ∧
      ((∀ v ∈ twoSeeds3, 0 ≤ v) →
        ∀ v ∈ (Scan.mk [1, 0, 1, 2, 1, 1, 3, 1, 0] false 3).map, 0 ≤ v) :=
  sweep_only_lowers_on_wide_grid square3 twoSeeds3 0 ⟨[1, 0, 1, 2, 1, 1, 3, 1, 0], false, 3⟩
    (by decide) (by decide) (by decide!)

theorem archerOffsets_eq :
    archerOffsets = [(0, 4), (4, 0), (-4, 0), (0, -4), (-1, 3), (3, 1), (-3, -1), (1, -3),
      (-2, 2), (2, 2), (-2, -2), (2, -2), (-3, 1), (1, 3), (-1, -3), (3, -1)] := by
  decide

/-- C16: the candidate offsets that the loops of `gen_player_archer_map` generate
(i from 0 to 3, dx and dy in {-1, 1}, `shooting_range = 4`) are 16 pairwise
distinct offsets, and an integer offset (ox, oy) is among them exactly when
|ox| + |oy| = 4. -/
theorem archer_offsets_are_the_diamond_ring :
    archerOffsets.length = 16 ∧ archerOffsets.Nodup ∧
      ∀ ox oy : Int, (ox, oy) ∈ archerOffsets ↔ |ox| + |oy| = 4 := by
  refine ⟨by decide, by decide, ?_⟩
  intro ox oy
  constructor
  · intro h
    have hall : ∀ o ∈ archerOffsets, |o.1| + |o.2| = 4 := by decide
    exact hall (ox, oy) h
  · intro h
    have hx : |ox| ≤ 4 := by have := abs_nonneg oy; omega
    have hy : |oy| ≤ 4 := by have := abs_nonneg ox; omega
    rw [abs_le] at hx hy
    obtain ⟨hx1, hx2⟩ := hx
    obtain ⟨hy1, hy2⟩ := hy
    rw [archerOffsets_eq]
    interval_cases ox <;> interval_cases oy <;> first | decide | exact absurd h (by decide)

theorem tracked_init {map : List ℚ} (hin : ∀ v ∈ map, v = 0 ∨ v = invalid_tile_value) :
    Tracked map 0 := by
  refine ⟨?_, ?_⟩
  · intro v hv
    rcases hin v hv with e | e
    · exact ⟨0, by rw [e]; simp⟩
    · exact ⟨100000, by rw [e, invalid_tile_value]; simp⟩
  · intro v hv hlt
    rcases hin v hv with e | e
    · rw [e]
    · rw [e] at hlt; exact absurd hlt (lt_irrefl _)

/-- C17: for every grid and every input buffer whose entries are each 0 or the
sentinel, when the relaxation loop has stopped, every entry below the sentinel
is a natural number v, the index `(int)v` computed by the falloff rewrite is v,
and v is below the length of the table `cacheV`. -/
theorem falloff_lookup_in_range (pw : ℚ → ℚ → ℚ) (fuel : Nat) (map : List ℚ) (dd : DungeonData)
    (funcArgs : DmapFunc) (relaxed : List ℚ) (maxVal : ℚ)
    (hin : ∀ v ∈ map, v = 0 ∨ v = invalid_tile_value)
    (hrel : relaxLoop dd fuel map 0 = .ok (relaxed, maxVal)) :
    ∀ v ∈ relaxed, v < invalid_tile_value →
      ∃ n : Nat, v = (n : ℚ) ∧ toSize (floatToInt v) = n ∧
        n < (buildCache pw funcArgs (maxVal + 1)).length := by
  obtain ⟨_, hnat, hmax⟩ :=
    relaxLoop_keeps_tracked
      (show map.length = map.length ∧ Tracked map 0 from ⟨rfl, tracked_init hin⟩) hrel
  intro v hv hlt
  obtain ⟨n, hn⟩ := hnat v hv
  have hn5 : n < 100000 := by
    rw [hn, invalid_tile_value] at hlt
    exact_mod_cast hlt
  refine ⟨n, hn, ?_, ?_⟩
  · rw [hn]; exact toSize_floatToInt_natCast (by omega)
  · rw [buildCache_length]
    exact tracked_index_lt (hn ▸ hmax v hv hlt)

theorem falloff_lookup_in_range_witness :
    ∃ n : Nat, (2 : ℚ) = (n : ℚ) ∧ toSize (floatToInt 2) = n ∧
      n < (buildCache samplePow ⟨.DF_POW, 2⟩ (3 + 1)).length :=
  falloff_lookup_in_range samplePow 4 twoSeeds3 square3 ⟨.DF_POW, 2⟩ [1, 0, 1, 2, 1, 1, 2, 1, 0] 3
    (by decide!)
    (by decide!) 2 (by decide!) (by decide!)

/-- C19, as stated, fails: on the 3 × 3 all-Floor grid with seeds at (1, 0) and
(2, 2) the relaxation loop stops with the field 1 0 1 / 2 1 1 / 2 1 0, whose
maximum ring value is 2, and with `maxVal = 3` (cell (0, 2) was written 3 in
the first sweep and lowered to 2 in the second); the table has 5 entries, not
2 + 2. -/
theorem falloff_table_longer_than_max_ring_plus_two :
    relaxLoop square3 4 twoSeeds3 0 = .ok ([1, 0, 1, 2, 1, 1, 2, 1, 0], 3) ∧
      (∀ v ∈ ([1, 0, 1, 2, 1, 1, 2, 1, 0] : List ℚ), v ≤ 2) ∧
      (2 : ℚ) ∈ ([1, 0, 1, 2, 1, 1, 2, 1, 0] : List ℚ) ∧
      (buildCache samplePow ⟨.DF_LINEAR, 1⟩ (3 + 1)).length = 5 ∧ 5 ≠ 2 + 2 := by
  refine ⟨by decide!, by decide!, by decide!, by decide!, by decide⟩

theorem relaxCell_keeps_maxVal_nat {dd : DungeonData} {s t : Scan} {x y : Nat}
    (hP : BufNat s.map ∧ ∃ M : Nat, s.maxVal = (M : ℚ)) (h : relaxCell dd s x y = .ok t) :
    BufNat t.map ∧ ∃ M : Nat, t.maxVal = (M : ℚ) := by
  rcases relaxCell_cases h with rfl | ⟨_, myVal, minVal, _, hmin, _, _, rfl⟩
  · exact hP
  · obtain ⟨hnat, M, hM⟩ := hP
    obtain ⟨_, hatt, _⟩ := getMinNei_spec hmin
    have hminNat : ∃ a : Nat, minVal = (a : ℚ) := by
      rcases hatt with e | ⟨u, v, _, _, _, _, e⟩
      · exact hnat _ (List.getElem?_mem e)
      · exact hnat _ (List.getElem?_mem e)
    obtain ⟨a, ha⟩ := hminNat
    have hnew : minVal + 1 = ((a + 1 : Nat) : ℚ) := by rw [ha]; push_cast; ring
    constructor
    · simp only
      rw [hnew]
      exact bufNat_set hnat _ _
    · simp only
      split
      · exact ⟨a + 1, hnew⟩
      · exact ⟨M, hM⟩

/-- C19, amended: for every grid and every input buffer whose entries are each 0
or the sentinel, when the relaxation loop has stopped the tracked maximum
`maxVal` is a natural number M, the table built by `process_dmap` has exactly
M + 2 entries, and every ring value below the sentinel in the converged field
is at most M. -/
theorem falloff_table_has_tracked_max_plus_two (pw : ℚ → ℚ → ℚ) (fuel : Nat) (map : List ℚ)
    (dd : DungeonData) (funcArgs : DmapFunc) (relaxed : List ℚ) (maxVal : ℚ)
    (hin : ∀ v ∈ map, v = 0 ∨ v = invalid_tile_value)
    (hrel : relaxLoop dd fuel map 0 = .ok (relaxed, maxVal)) :
    ∃ M : Nat, maxVal = (M : ℚ) ∧ (buildCache pw funcArgs (maxVal + 1)).length = M + 2 ∧
      ∀ v ∈ relaxed, v < invalid_tile_value → v ≤ (M : ℚ) := by
  have htr := tracked_init hin
  obtain ⟨_, _, hmax⟩ := relaxLoop_keeps_tracked
    (show map.length = map.length ∧ Tracked map 0 from ⟨rfl, htr⟩) hrel
  have hnat : BufNat relaxed ∧ ∃ M : Nat, maxVal = (M : ℚ) := by
    refine relaxLoop_inv_pair dd (fun m mv => BufNat m ∧ ∃ M : Nat, mv = (M : ℚ)) ?_ fuel map 0
      (relaxed, maxVal) ⟨htr.1, 0, by simp⟩ hrel
    intro m mv s hm hs
    exact forEachCell_inv_scan dd (fun s => BufNat s.map ∧ ∃ M : Nat, s.maxVal = (M : ℚ))
      (fun s t x y hs ht => relaxCell_keeps_maxVal_nat hs ht) (cells dd) _ s hm hs
  obtain ⟨_, M, hM⟩ := hnat
  refine ⟨M, hM, ?_, ?_⟩
  · rw [buildCache_length, hM]
    have h1 : ((M : ℚ) + 1).floor = ((M + 1 : Nat) : ℤ) := by
      have : ((M : ℚ) + 1) = ((M + 1 : Nat) : ℚ) := by push_cast; ring
      rw [this]
      show ⌊((M + 1 : Nat) : ℚ)⌋ = ((M + 1 : Nat) : ℤ)
      exact Int.floor_natCast _
    rw [h1]
    omega
  · intro v hv hlt
    rw [← hM]
    exact hmax v hv hlt

theorem falloff_table_has_tracked_max_plus_two_witness :
    ∃ M : Nat, (3 : ℚ) = (M : ℚ) ∧ (buildCache samplePow ⟨.DF_EXP, 1 / 2⟩ (3 + 1)).length = M + 2 ∧
      ∀ v ∈ ([1, 0, 1, 2, 1, 1, 2, 1, 0] : List ℚ), v < invalid_tile_value → v ≤ (M : ℚ) :=
  falloff_table_has_tracked_max_plus_two samplePow 4 twoSeeds3 square3 ⟨.DF_EXP, 1 / 2⟩
    [1, 0, 1, 2, 1, 1, 2, 1, 0] 3
    (by decide!)
    (by decide!)

/-! ## A Blocked cell is not a propagation source -/

theorem vget_agree {i k : Nat} {m m2 : List ℚ} (hag : AgreeOff i m m2) (hk : k ≠ i) :
    vget m k = vget m2 k := by
  rw [vget, vget, hag.2 k hk]

theorem getMapAt_agree {dd : DungeonData} {i : Nat} {m m2 : List ℚ}
    (hb : dd.tiles[i]? ≠ some dungeon.floor) (hag : AgreeOff i m m2) (u v : Nat) (d : ℚ) :
    getMapAt m dd u v d = getMapAt m2 dd u v d := by
  unfold getMapAt
  by_cases hc : u < dd.width ∧ v < dd.width
  · rw [if_pos hc, if_pos hc]
    cases ht : vget dd.tiles (cellIndex dd u v) with
    | ok t =>
      simp only [Res.ok_bind]
      by_cases hf : t = dungeon.floor
      · rw [if_pos hf, if_pos hf]
        refine vget_agree hag ?_
        intro e
        rw [vget_eq_ok, e, hf] at ht
        exact hb ht
      · rw [if_neg hf, if_neg hf]
    | oob => rfl
    | fuelOut => rfl
  · rw [if_neg hc, if_neg hc]

theorem getMinNei_agree {dd : DungeonData} {i : Nat} {m m2 : List ℚ}
    (hb : dd.tiles[i]? ≠ some dungeon.floor) (hag : AgreeOff i m m2) {x y : Nat}
    (hne : cellIndex dd x y ≠ i) : getMinNei m dd x y = getMinNei m2 dd x y := by
  unfold getMinNei
  rw [vget_agree hag hne]
  simp only [getMapAt_agree hb hag]

theorem agreeOff_set {i k : Nat} {m m2 : List ℚ} (hag : AgreeOff i m m2) (a : ℚ) :
    AgreeOff i (m.set k a) (m2.set k a) := by
  refine ⟨by simp only [List.length_set]; exact hag.1, ?_⟩
  intro j hj
  by_cases hjk : k = j
  · subst hjk
    by_cases hlt : k < m.length
    · rw [List.getElem?_set_self hlt, List.getElem?_set_self (hag.1 ▸ hlt)]
    · have h1 : m.length ≤ k := Nat.le_of_not_lt hlt
      have h2 : m2.length ≤ k := hag.1 ▸ h1
      rw [List.getElem?_eq_none (by simp only [List.length_set]; exact h1),
        List.getElem?_eq_none (by simp only [List.length_set]; exact h2)]
  · rw [List.getElem?_set_ne hjk, List.getElem?_set_ne hjk]
    exact hag.2 j hj

/-- A relaxation step on two states that differ only in the entry of a Blocked
cell does the same thing on both. -/
theorem relaxCell_agree {dd : DungeonData} {i : Nat} {s s2 t : Scan} {x y : Nat}
    (hb : dd.tiles[i]? ≠ some dungeon.floor)
    (hag : AgreeOff i s.map s2.map ∧ s2.done = s.done ∧ s2.maxVal = s.maxVal)
    (h : relaxCell dd s x y = .ok t) :
    ∃ t2, relaxCell dd s2 x y = .ok t2 ∧
      (AgreeOff i t.map t2.map ∧ t2.done = t.done ∧ t2.maxVal = t.maxVal) := by
  obtain ⟨hmap, hdone, hmax⟩ := hag
  unfold relaxCell at h ⊢
  cases ht : vget dd.tiles (cellIndex dd x y) with
  | ok tile =>
    rw [ht, Res.ok_bind] at h
    rw [Res.ok_bind]
    by_cases hf : tile ≠ dungeon.floor
    · rw [if_pos hf] at h ⊢
      simp only [Res.ok.injEq] at h
      exact ⟨s2, rfl, h ▸ hmap, h ▸ hdone, h ▸ hmax⟩
    · rw [if_neg hf] at h ⊢
      have hne : cellIndex dd x y ≠ i := by
        intro e
        simp only [ne_eq, not_not] at hf
        rw [vget_eq_ok, e, hf] at ht
        exact hb ht
      rw [← getMapAt_agree hb hmap, ← getMinNei_agree hb hmap hne]
      rw [Res.bind_eq_ok] at h
      obtain ⟨myVal, hmy, h⟩ := h
      rw [Res.bind_eq_ok] at h
      obtain ⟨minVal, hmin, h⟩ := h
      rw [hmy, Res.ok_bind, hmin, Res.ok_bind]
      by_cases hlt : minVal < myVal - 1
      · rw [if_pos hlt] at h ⊢
        rw [Res.bind_eq_ok] at h
        obtain ⟨m3, hm3, h⟩ := h
        rw [vset_eq_ok] at hm3
        simp only [Res.ok.injEq] at h
        rw [vset, if_pos (hmap.1 ▸ hm3.1), Res.ok_bind, hmax]
        refine ⟨_, rfl, ?_, ?_, ?_⟩
        · rw [← h, hm3.2]; exact agreeOff_set hmap _
        · rw [← h]
        · rw [← h]
      · rw [if_neg hlt] at h ⊢
        simp only [Res.ok.injEq] at h
        exact ⟨s2, rfl, h ▸ hmap, h ▸ hdone, h ▸ hmax⟩
  | oob => rw [ht] at h; simp at h
  | fuelOut => rw [ht] at h; simp at h

theorem forEachCell_relax_agree {dd : DungeonData} {i : Nat}
    (hb : dd.tiles[i]? ≠ some dungeon.floor) :
    ∀ (cs : List (Nat × Nat)) (s s2 t : Scan),
      (AgreeOff i s.map s2.map ∧ s2.done = s.done ∧ s2.maxVal = s.maxVal) →
      forEachCell (relaxCell dd) cs s = .ok t →
      ∃ t2, forEachCell (relaxCell dd) cs s2 = .ok t2 ∧
        (AgreeOff i t.map t2.map ∧ t2.done = t.done ∧ t2.maxVal = t.maxVal) := by
  intro cs
  induction cs with
  | nil =>
    intro s s2 t hag h
    simp only [forEachCell, Res.ok.injEq] at h
    exact ⟨s2, rfl, h ▸ hag⟩
  | cons c cs ih =>
    intro s s2 t hag h
    rw [forEachCell, Res.bind_eq_ok] at h
    obtain ⟨s1, h1, h2⟩ := h
    obtain ⟨u1, hu1, hag1⟩ := relaxCell_agree hb hag h1
    obtain ⟨t2, ht2, hag2⟩ := ih s1 u1 t hag1 h2
    exact ⟨t2, by rw [forEachCell, hu1, Res.ok_bind]; exact ht2, hag2⟩

theorem relaxLoop_agree {dd : DungeonData} {i : Nat} (hb : dd.tiles[i]? ≠ some dungeon.floor) :
    ∀ (fuel : Nat) (m m2 : List ℚ) (mv : ℚ) (r : List ℚ × ℚ), AgreeOff i m m2 →
      relaxLoop dd fuel m mv = .ok r →
      ∃ r2, relaxLoop dd fuel m2 mv = .ok (r2, r.2) ∧ AgreeOff i r.1 r2 := by
  intro fuel
  induction fuel with
  | zero => intro m m2 mv r _ h; simp [relaxLoop] at h
  | succ n ih =>
    intro m m2 mv r hag h
    rw [relaxLoop, Res.bind_eq_ok] at h
    obtain ⟨s, hs, h⟩ := h
    obtain ⟨s2, hs2, hag2, hd2, hm2⟩ :=
      forEachCell_relax_agree hb (cells dd) ⟨m, true, mv⟩ ⟨m2, true, mv⟩ s ⟨hag, rfl, rfl⟩ hs
    rw [relaxLoop, sweep, hs2, Res.ok_bind, hd2, hm2]
    by_cases hd : s.done = true
    · rw [if_pos hd] at h ⊢
      simp only [Res.ok.injEq] at h
      exact ⟨s2.map, by rw [← h], by rw [← h]; exact hag2⟩
    · rw [if_neg hd] at h ⊢
      exact ih s.map s2.map s.maxVal r hag2 h

/-- The falloff rewrite on two buffers that differ only at index `i`, where the
second holds 0 while `i` is still to be visited: both succeed and the results
differ only at `i`. -/
theorem falloff_loop_agree (dd : DungeonData) (cacheV : List ℚ) (i : Nat) (t0 : ℚ)
    (h0 : cacheV[0]? = some t0) :
    ∀ (cs : List (Nat × Nat)), (cs.map fun c => cellIndex dd c.1 c.2).Nodup →
      ∀ (m m2 out : List ℚ), AgreeOff i m m2 →
        ((i ∈ cs.map fun c => cellIndex dd c.1 c.2) → i < m2.length → m2[i]? = some 0) →
        forEachCell (falloffCell dd cacheV) cs m = .ok out →
        ∃ out2, forEachCell (falloffCell dd cacheV) cs m2 = .ok out2 ∧ AgreeOff i out out2 := by
  intro cs
  induction cs with
  | nil =>
    intro _ m m2 out hag _ h
    simp only [forEachCell, Res.ok.injEq] at h
    exact ⟨m2, rfl, h ▸ hag⟩
  | cons c cs ih =>
    intro hnd m m2 out hag hzero h
    rw [List.map_cons, List.nodup_cons] at hnd
    rw [forEachCell, Res.bind_eq_ok] at h
    obtain ⟨m1, h1, h2⟩ := h
    by_cases hk : cellIndex dd c.1 c.2 = i
    · have hnot : i ∉ cs.map fun c => cellIndex dd c.1 c.2 := hk ▸ hnd.1
      have hlen : i < m.length := by
        rcases falloffCell_cases h1 with ⟨_, v, hv, _⟩ | ⟨v, _, hv, _⟩
        · rw [hk] at hv; exact (List.getElem?_eq_some_iff.mp hv).1
        · rw [hk] at hv; exact (List.getElem?_eq_some_iff.mp hv).1
      have hlen2 : i < m2.length := hag.1 ▸ hlen
      have hz := hzero (by simp [hk]) hlen2
      have hstep : falloffCell dd cacheV m2 c.1 c.2 = .ok (m2.set i t0) := by
        have hidx0 : toSize (floatToInt (0 : ℚ)) = 0 := by
          have := @toSize_floatToInt_natCast 0 (by decide)
          rw [Nat.cast_zero] at this
          exact this
        rw [falloffCell, hk, vget_eq_ok.mpr hz, Res.ok_bind,
          if_pos (by norm_num [invalid_tile_value]), hidx0, vget_eq_ok.mpr h0, Res.ok_bind,
          vset, if_pos hlen2]
      have hag1 : AgreeOff i m1 (m2.set i t0) := by
        rcases falloffCell_cases h1 with ⟨rfl, _⟩ | ⟨_, c1, _, _, _, rfl⟩
        · refine ⟨by simp only [List.length_set]; exact hag.1, ?_⟩
          intro j hj
          rw [List.getElem?_set_ne (Ne.symm hj)]
          exact hag.2 j hj
        · refine ⟨by simp only [List.length_set]; exact hag.1, ?_⟩
          intro j hj
          rw [hk, List.getElem?_set_ne (Ne.symm hj), List.getElem?_set_ne (Ne.symm hj)]
          exact hag.2 j hj
      obtain ⟨out2, hout2, hag2⟩ :=
        ih hnd.2 m1 (m2.set i t0) out hag1 (fun hmem => absurd hmem hnot) h2
      exact ⟨out2, by rw [forEachCell, hstep, Res.ok_bind]; exact hout2, hag2⟩
    · have hread : m2[cellIndex dd c.1 c.2]? = m[cellIndex dd c.1 c.2]? := (hag.2 _ hk).symm
      have hstep : ∃ m3, falloffCell dd cacheV m2 c.1 c.2 = .ok m3 ∧ AgreeOff i m1 m3 ∧
          m3[i]? = m2[i]? := by
        rcases falloffCell_cases h1 with ⟨rfl, v, hv, hge⟩ | ⟨v, c1, hv, hlt, hc1, rfl⟩
        · refine ⟨m2, ?_, hag, rfl⟩
          rw [falloffCell, vget_eq_ok.mpr (hread ▸ hv), Res.ok_bind, if_neg hge]
        · have hlen2 : cellIndex dd c.1 c.2 < m2.length :=
            hag.1 ▸ (List.getElem?_eq_some_iff.mp hv).1
          refine ⟨m2.set (cellIndex dd c.1 c.2) c1, ?_, agreeOff_set hag _, ?_⟩
          · rw [falloffCell, vget_eq_ok.mpr (hread ▸ hv), Res.ok_bind, if_pos hlt,
              vget_eq_ok.mpr hc1, Res.ok_bind, vset, if_pos hlen2]
          · rw [List.getElem?_set_ne hk]
      obtain ⟨m3, hm3, hag3, hi3⟩ := hstep
      have hlen3 : m3.length = m2.length := by
        rcases falloffCell_cases hm3 with ⟨rfl, _⟩ | ⟨_, _, _, _, _, rfl⟩
        · rfl
        · simp only [List.length_set]
      obtain ⟨out2, hout2, hag2⟩ := ih hnd.2 m1 m3 out hag3 (by
        intro hmem hlt
        rw [hi3]
        exact hzero (by simp only [List.map_cons, List.mem_cons]; exact Or.inr hmem)
          (hlen3 ▸ hlt)) h2
      exact ⟨out2, by rw [forEachCell, hm3, Res.ok_bind]; exact hout2, hag2⟩

/-- C14: on a grid with dimensions below 2^32, for every buffer and falloff
spec, whenever `process_dmap` returns a field, it also returns a field when the
entry of a Blocked cell is set to 0 beforehand, and the two fields hold the
same value at every other cell. -/
theorem blocked_entry_is_not_a_source (pw : ℚ → ℚ → ℚ) (fuel : Nat) (map : List ℚ)
    (dd : DungeonData) (funcArgs : DmapFunc) (out : List ℚ) (i : Nat)
    (hW : dd.width < 2 ^ 32) (hH : dd.height < 2 ^ 32)
    (hblocked : dd.tiles[i]? ≠ some dungeon.floor)
    (hret : process_dmap pw fuel map dd funcArgs = .ok out) :
    ∃ out2, process_dmap pw fuel (map.set i 0) dd funcArgs = .ok out2 ∧
      ∀ j : Nat, j ≠ i → out2[j]? = out[j]? := by
  obtain ⟨relaxed, maxVal, h1, h2⟩ := process_dmap_eq_ok.mp hret
  have hag0 : AgreeOff i map (map.set i 0) := by
    refine ⟨by simp only [List.length_set], ?_⟩
    intro j hj
    rw [List.getElem?_set_ne (Ne.symm hj)]
  obtain ⟨relaxed2, hr2, hag1⟩ := relaxLoop_agree hblocked fuel map (map.set i 0) 0 _ hag0 h1
  simp only at hr2 hag1
  have hzero : i < relaxed2.length → relaxed2[i]? = some 0 := by
    intro hlt
    have hlen : relaxed2.length = (map.set i 0).length := relaxLoop_length hr2
    have hi : i < map.length := by
      rw [hlen, List.length_set] at hlt; exact hlt
    exact relaxLoop_keeps_blocked hblocked (List.getElem?_set_self hi) hr2
  obtain ⟨out2, hout2, hag2⟩ :=
    falloff_loop_agree dd (buildCache pw funcArgs (maxVal + 1)) i (cacheInit funcArgs)
      (by rw [buildCache, List.getElem?_cons_zero])
      (cells dd) (cellIndex_cells_nodup hW hH) relaxed relaxed2 out hag1 (fun _ => hzero) h2
  exact ⟨out2, process_dmap_eq_ok.mpr ⟨relaxed2, maxVal, hr2, hout2⟩,
    fun j hj => (hag2.2 j hj).symm⟩

theorem blocked_entry_is_not_a_source_witness :
    ∃ out2, process_dmap samplePow 3
        ([0, invalid_tile_value, invalid_tile_value, invalid_tile_value].set 1 0) diagonal2
        ⟨.DF_EXP, 1 / 2⟩ = .ok out2 ∧
      ∀ j : Nat, j ≠ 1 →
        out2[j]? = ([1, invalid_tile_value, invalid_tile_value, invalid_tile_value] : List ℚ)[j]? :=
  blocked_entry_is_not_a_source samplePow 3
    [0, invalid_tile_value, invalid_tile_value, invalid_tile_value] diagonal2 ⟨.DF_EXP, 1 / 2⟩
    [1, invalid_tile_value, invalid_tile_value, invalid_tile_value] 1
    (by decide) (by decide) (by decide) (by decide!)

/-! ## Line-of-sight samples of the archer generator -/

/-- The C library `round` maps a value between two integers to an integer
between them. -/
theorem roundf_between {lo hi : Int} {v : ℚ} (h1 : (lo : ℚ) ≤ v) (h2 : v ≤ (hi : ℚ)) :
    lo ≤ roundf v ∧ roundf v ≤ hi := by
  unfold roundf
  by_cases h0 : 0 ≤ v
  · rw [if_pos h0]
    constructor
    · show lo ≤ ⌊v + 1 / 2⌋
      rw [Int.le_floor]; linarith
    · have : ⌊v + 1 / 2⌋ < hi + 1 := by
        rw [Int.floor_lt]; push_cast; linarith
      show ⌊v + 1 / 2⌋ ≤ hi
      omega
  · rw [if_neg h0]
    constructor
    · have : ⌊-v + 1 / 2⌋ < -lo + 1 := by
        rw [Int.floor_lt]; push_cast; linarith
      show lo ≤ -⌊-v + 1 / 2⌋
      omega
    · have : -hi ≤ ⌊-v + 1 / 2⌋ := by
        rw [Int.le_floor]; push_cast; linarith
      show -⌊-v + 1 / 2⌋ ≤ hi
      omega

/-- Below `2^24` every conversion of a coordinate to `float` is exact, and a
line-of-sight sample coordinate, computed in binary32, lies between the agent
coordinate and the candidate coordinate. -/
theorem losSample_between (p c j : Int) (hp0 : 0 ≤ p) (hp : p < 2 ^ 24) (hc0 : 0 ≤ c)
    (hc : c < 2 ^ 24) (hj0 : 0 ≤ j) (hj3 : j ≤ 3) :
    min p c ≤ losSample p c j ∧ losSample p c j ≤ max p c := by
  have ep : roundF32Q (p : ℚ) = p := roundF32Q_intCast p (by rw [abs_of_nonneg hp0]; exact hp)
  have ec : roundF32Q (c : ℚ) = c := roundF32Q_intCast c (by rw [abs_of_nonneg hc0]; exact hc)
  have ej : roundF32Q (j : ℚ) = j :=
    roundF32Q_intCast j (by rw [abs_of_nonneg hj0]; omega)
  have e4 : roundF32Q (shooting_range : ℚ) = 4 := by
    have := roundF32Q_intCast 4 (by decide)
    simpa [shooting_range] using this
  have ed : roundF32Q ((c : ℚ) - (p : ℚ)) = (c : ℚ) - (p : ℚ) := by
    have := roundF32Q_intCast (c - p) (by rw [abs_lt]; constructor <;> omega)
    simpa using this
  have hjq0 : (0 : ℚ) ≤ (j : ℚ) := by exact_mod_cast hj0
  have hjq3 : (j : ℚ) ≤ 3 := by exact_mod_cast hj3
  obtain ⟨ht0, ht1⟩ := roundF32Q_between isF32_zero isF32_one
    (show (0 : ℚ) ≤ (j : ℚ) / 4 by positivity)
    (show (j : ℚ) / 4 ≤ 1 by rw [div_le_one (by norm_num)]; linarith)
  have hd : IsF32 ((c : ℚ) - (p : ℚ)) := ed
  unfold losSample
  rw [ep, ec, ej, e4, ed]
  rcases le_total p c with hpc | hcp
  · have hdq : (0 : ℚ) ≤ (c : ℚ) - (p : ℚ) := by
      have : (p : ℚ) ≤ (c : ℚ) := by exact_mod_cast hpc
      linarith
    obtain ⟨hm0, hm1⟩ := roundF32Q_between isF32_zero hd
      (mul_nonneg ht0 hdq) (mul_le_of_le_one_left hdq ht1)
    obtain ⟨hs0, hs1⟩ := roundF32Q_between (show IsF32 (p : ℚ) from ep) (show IsF32 (c : ℚ) from ec)
      (show (p : ℚ) ≤ (p : ℚ) + roundF32Q (roundF32Q ((j : ℚ) / 4) * ((c : ℚ) - (p : ℚ))) by linarith)
      (by linarith)
    rw [min_eq_left hpc, max_eq_right hpc]
    exact roundf_between hs0 hs1
  · have hdq : (c : ℚ) - (p : ℚ) ≤ 0 := by
      have : (c : ℚ) ≤ (p : ℚ) := by exact_mod_cast hcp
      linarith
    obtain ⟨hm0, hm1⟩ := roundF32Q_between hd isF32_zero
      (show (c : ℚ) - (p : ℚ) ≤ roundF32Q ((j : ℚ) / 4) * ((c : ℚ) - (p : ℚ)) by nlinarith)
      (mul_nonpos_of_nonneg_of_nonpos ht0 hdq)
    obtain ⟨hs0, hs1⟩ := roundF32Q_between (show IsF32 (c : ℚ) from ec) (show IsF32 (p : ℚ) from ep)
      (show (c : ℚ) ≤ (p : ℚ) + roundF32Q (roundF32Q ((j : ℚ) / 4) * ((c : ℚ) - (p : ℚ))) by linarith)
      (by linarith)
    rw [min_eq_right hcp, max_eq_left hcp]
    exact roundf_between hs0 hs1

/-- The `int` index of an in-grid cell, on a grid whose cell count fits in an
`int`, is the flat index of the cell and lies below the cell count. -/
theorem intIndex_inGrid {dd : DungeonData} {a b : Int} (hsize : dd.width * dd.height < 2 ^ 31)
    (ha0 : 0 ≤ a) (ha : a < dd.width) (hb0 : 0 ≤ b) (hb : b < dd.height) :
    intIndex dd a b = b.toNat * dd.width + a.toNat ∧
      intIndex dd a b < dd.width * dd.height := by
  obtain ⟨an, rfl⟩ := Int.eq_ofNat_of_zero_le ha0
  obtain ⟨bn, rfl⟩ := Int.eq_ofNat_of_zero_le hb0
  have ha2 : an < dd.width := by exact_mod_cast ha
  have hb2 : bn < dd.height := by exact_mod_cast hb
  have hlt : bn * dd.width + an < dd.width * dd.height := by
    have h1 : (bn + 1) * dd.width ≤ dd.height * dd.width := Nat.mul_le_mul_right _ hb2
    have e : dd.height * dd.width = dd.width * dd.height := Nat.mul_comm _ _
    have e2 : (bn + 1) * dd.width = bn * dd.width + dd.width := Nat.succ_mul _ _
    omega
  have hts : ∀ n : Nat, n < 2 ^ 31 → toSize (n : Int) = n := by
    intro n hn
    unfold toSize
    omega
  have hidx : intIndex dd (an : Int) (bn : Int) = bn * dd.width + an := by
    have hW : dd.width < 2 ^ 31 := by
      rcases Nat.eq_zero_or_pos dd.height with h | h
      · omega
      · have : dd.width * 1 ≤ dd.width * dd.height := Nat.mul_le_mul_left _ h
        omega
    have hH : dd.height < 2 ^ 31 := by
      have : 1 * dd.height ≤ dd.width * dd.height := Nat.mul_le_mul_right _ (by omega)
      omega
    rw [intIndex, hts an (by omega), hts bn (by omega), sizeMul,
      Nat.mod_eq_of_lt (by omega : bn * dd.width < 2 ^ 64), sizeAdd,
      Nat.mod_eq_of_lt (by omega : bn * dd.width + an < 2 ^ 64)]
    have h32 : toInt32 (bn * dd.width + an) = ((bn * dd.width + an : Nat) : Int) := by
      unfold toInt32
      rw [Nat.mod_eq_of_lt (by omega : bn * dd.width + an < 2 ^ 32), if_pos (by omega)]
    rw [h32, hts _ (by omega)]
  simp only [Int.toNat_ofNat]
  exact ⟨hidx, hidx ▸ hlt⟩

theorem vget_eq_oob {α : Type} (v : List α) (i : Nat) (h : v.length ≤ i) : vget v i = .oob := by
  unfold vget
  rw [List.getElem?_eq_none h]

/-- The line-of-sight loop reads `dd.tiles` at its first sample before anything
else: if that read is out of range, so is the loop. -/
theorem losClear_first_oob (dd : DungeonData) (pos : Position) (x y j : Int) (js : List Int)
    (h : vget dd.tiles (intIndex dd (losSample pos.x x j) (losSample pos.y y j)) = .oob) :
    losClear dd pos x y (j :: js) = .oob := by
  rw [losClear, h]
  rfl

/-- C18, as stated, fails beyond the precision of `float`: the column 16777219
converts to the float 16777220.  On the 16777220 × 9 grid, with the agent at
(16777219, 4) and the candidate cell (16777215, 4) (loop indices i = 0, dx = 1,
dy = -1), both inside the grid, the sample for j = 0 has x = 16777220 = W: it is
outside the bounding box and outside the grid, and its tile index is that of
the cell (0, 5).  On the one-row grid of the same width the tile index of that
sample is W * H, so the read of `dd.tiles` is out of range. -/
theorem los_sample_leaves_grid_above_float_precision :
    inGrid longRows9 ⟨16777219, 4⟩ ∧ inGrid longRows9 ⟨16777215, 4⟩ ∧
      longRows9.width * longRows9.height < 2 ^ 31 ∧
      ((16777219 : Int) + archerOffX 0 1 (-1), (4 : Int) + archerOffY 0 1 (-1)) = (16777215, 4) ∧
      losSample 16777219 16777215 0 = 16777220 ∧ losSample 4 4 0 = 4 ∧
      ¬ losSample 16777219 16777215 0 ≤ max 16777219 16777215 ∧
      ¬ inGrid longRows9 ⟨losSample 16777219 16777215 0, losSample 4 4 0⟩ ∧
      intIndex longRows9 (losSample 16777219 16777215 0) (losSample 4 4 0) =
        5 * longRows9.width + 0 ∧
      inGrid longRow ⟨16777219, 0⟩ ∧ inGrid longRow ⟨16777215, 0⟩ ∧
      intIndex longRow (losSample 16777219 16777215 0) (losSample 0 0 0) =
        longRow.width * longRow.height ∧
      losClear longRow ⟨16777219, 0⟩ 16777215 0 [0, 1, 2, 3] = .oob := by
  have h1 : losSample 16777219 16777215 0 = 16777220 := by decide!
  have h2 : losSample 4 4 0 = 4 := by decide!
  have h3 : losSample 0 0 0 = 0 := by decide!
  have hi : intIndex longRow 16777220 0 = 16777220 := by decide
  have hl : longRow.tiles.length ≤ 16777220 := le_of_eq (List.length_replicate _ _)
  have hclear : losClear longRow ⟨16777219, 0⟩ 16777215 0 [0, 1, 2, 3] = .oob := by
    apply losClear_first_oob
    show vget longRow.tiles
      (intIndex longRow (losSample 16777219 16777215 0) (losSample 0 0 0)) = .oob
    rw [h1, h3, hi]
    exact vget_eq_oob _ _ hl
  rw [h1, h2, h3]
  exact ⟨by decide, by decide, by decide, by decide, rfl, rfl, by decide, by decide, by decide,
    by decide, by decide, by decide, hclear⟩

/-- C18, amended: on a grid with at most `2^24` columns and rows (every
coordinate converts to `float` exactly) whose cell count fits in an `int`, when
the agent position p and the candidate cell c lie inside the grid, every
line-of-sight sample (j = 0, 1, 2, 3), computed in binary32, lies inside the
bounding box of p and c, hence inside the grid, and the tile index
`check_y * W + check_x` computed from it is the flat index of the sample cell
and is below W * H. -/
theorem los_samples_stay_in_grid_below_float_precision (dd : DungeonData) (p c : Position) (j : Int)
    (hp : inGrid dd p) (hc : inGrid dd c) (hj0 : 0 ≤ j) (hj3 : j ≤ 3)
    (hW : dd.width ≤ 2 ^ 24) (hH : dd.height ≤ 2 ^ 24)
    (hsize : dd.width * dd.height < 2 ^ 31) :
    (min p.x c.x ≤ losSample p.x c.x j ∧ losSample p.x c.x j ≤ max p.x c.x) ∧
      (min p.y c.y ≤ losSample p.y c.y j ∧ losSample p.y c.y j ≤ max p.y c.y) ∧
      inGrid dd ⟨losSample p.x c.x j, losSample p.y c.y j⟩ ∧
      intIndex dd (losSample p.x c.x j) (losSample p.y c.y j) =
        (losSample p.y c.y j).toNat * dd.width + (losSample p.x c.x j).toNat ∧
      intIndex dd (losSample p.x c.x j) (losSample p.y c.y j) < dd.width * dd.height := by
  obtain ⟨hp1, hp2, hp3, hp4⟩ := hp
  obtain ⟨hc1, hc2, hc3, hc4⟩ := hc
  have hWi : (dd.width : Int) ≤ 2 ^ 24 := by exact_mod_cast hW
  have hHi : (dd.height : Int) ≤ 2 ^ 24 := by exact_mod_cast hH
  obtain ⟨hx1, hx2⟩ := losSample_between p.x c.x j hp1 (by omega) hc1 (by omega) hj0 hj3
  obtain ⟨hy1, hy2⟩ := losSample_between p.y c.y j hp3 (by omega) hc3 (by omega) hj0 hj3
  have gx0 : 0 ≤ losSample p.x c.x j := le_trans (le_min hp1 hc1) hx1
  have gx1 : losSample p.x c.x j < dd.width := lt_of_le_of_lt hx2 (max_lt hp2 hc2)
  have gy0 : 0 ≤ losSample p.y c.y j := le_trans (le_min hp3 hc3) hy1
  have gy1 : losSample p.y c.y j < dd.height := lt_of_le_of_lt hy2 (max_lt hp4 hc4)
  obtain ⟨hi1, hi2⟩ := intIndex_inGrid hsize gx0 gx1 gy0 gy1
  exact ⟨⟨hx1, hx2⟩, ⟨hy1, hy2⟩, ⟨gx0, gx1, gy0, gy1⟩, hi1, hi2⟩

theorem los_samples_stay_in_grid_below_float_precision_witness :
    (min (Position.mk 1 0).x (Position.mk 4 3).x ≤ losSample (Position.mk 1 0).x (Position.mk 4 3).x 2 ∧
        losSample (Position.mk 1 0).x (Position.mk 4 3).x 2 ≤
          max (Position.mk 1 0).x (Position.mk 4 3).x) ∧
      (min (Position.mk 1 0).y (Position.mk 4 3).y ≤ losSample (Position.mk 1 0).y (Position.mk 4 3).y 2 ∧
        losSample (Position.mk 1 0).y (Position.mk 4 3).y 2 ≤
          max (Position.mk 1 0).y (Position.mk 4 3).y) ∧
      inGrid square5 ⟨losSample (Position.mk 1 0).x (Position.mk 4 3).x 2,
        losSample (Position.mk 1 0).y (Position.mk 4 3).y 2⟩ ∧
      intIndex square5 (losSample (Position.mk 1 0).x (Position.mk 4 3).x 2)
          (losSample (Position.mk 1 0).y (Position.mk 4 3).y 2) =
        (losSample (Position.mk 1 0).y (Position.mk 4 3).y 2).toNat * square5.width +
          (losSample (Position.mk 1 0).x (Position.mk 4 3).x 2).toNat ∧
      intIndex square5 (losSample (Position.mk 1 0).x (Position.mk 4 3).x 2)
          (losSample (Position.mk 1 0).y (Position.mk 4 3).y 2) <
        square5.width * square5.height :=
  los_samples_stay_in_grid_below_float_precision square5 ⟨1, 0⟩ ⟨4, 3⟩ 2 (by decide) (by decide)
    (by decide) (by decide) (by decide) (by decide) (by decide)
/-! ## The approach generator returns on square grids -/

/-- A fold of fallible steps succeeds when every step succeeds on states that
satisfy a property the steps keep. -/
theorem foldl_res_total {α β : Type} (step : β → α → Res β) (P : β → Prop) :
    ∀ (as : List α), (∀ m, P m → ∀ a ∈ as, ∃ m2, step m a = .ok m2 ∧ P m2) →
      ∀ (m : β), P m →
      ∃ out, as.foldl (fun (r : Res β) (a : α) => r.bind fun m => step m a) (Res.ok m) =
        Res.ok out ∧ P out := by
  intro as
  induction as with
  | nil => intro _ m hm; exact ⟨m, rfl, hm⟩
  | cons a as ih =>
    intro hstep m hm
    obtain ⟨m2, h2, hP2⟩ := hstep m hm a (List.mem_cons_self _ _)
    obtain ⟨out, hout, hPout⟩ :=
      ih (fun m3 hm3 a3 ha3 => hstep m3 hm3 a3 (List.mem_cons_of_mem _ ha3)) m2 hP2
    refine ⟨out, ?_, hPout⟩
    simp only [List.foldl_cons, Res.ok_bind]
    rw [h2]
    exact hout

/-- In a world with one well-formed square grid whose team-0 agents all have a
flat index inside the buffer, the approach generator returns a field for some
budget of sweeps. -/
theorem approach_returns_on_square_grid (pw : ℚ → ℚ → ℚ) (w : World) (map : List ℚ)
    (funcArgs : DmapFunc) (dd : DungeonData) (hone : w.dungeons = [dd]) (hwf : dd.wellFormed)
    (hsq : dd.height = dd.width)
    (hpos : ∀ pt ∈ w.characters, pt.2.team = 0 → posIndex dd pt.1 < dd.width * dd.height) :
    ∃ fuel out, gen_player_approach_map pw fuel w map funcArgs = .ok out := by
  have hmul : sizeMul dd.width dd.height = dd.width * dd.height := by
    have h1 : dd.width * dd.height ≤ 2 ^ 32 * dd.height := Nat.mul_le_mul_right _ hwf.2.1.le
    have := hwf.2.2
    rw [sizeMul, Nat.mod_eq_of_lt (by omega)]
  obtain ⟨seeds, hseeds, hlen, hval⟩ :=
    foldl_res_total (fun (m : List ℚ) (pt : Position × Team) =>
        if pt.2.team = 0 then vset m (posIndex dd pt.1) 0 else .ok m)
      (fun m => m.length = dd.width * dd.height ∧ ∀ v ∈ m, v = 0 ∨ v = invalid_tile_value)
      w.characters (by
        intro m hm pt hpt
        by_cases ht : pt.2.team = 0
        · refine ⟨m.set (posIndex dd pt.1) 0, ?_, ?_, ?_⟩
          · simp only [if_pos ht]
            rw [vset, if_pos (hm.1 ▸ hpos pt hpt ht)]
          · simp only [List.length_set]; exact hm.1
          · intro v hv
            rcases List.mem_or_eq_of_mem_set hv with h1 | h1
            · exact hm.2 v h1
            · exact Or.inl h1
        · exact ⟨m, by simp only [if_neg ht], hm⟩)
      (init_tiles map dd) (by
        rw [init_tiles_eq, hmul]
        exact ⟨List.length_replicate _ _, fun v hv => Or.inr (List.eq_of_mem_replicate hv)⟩)
  obtain ⟨fuel, out, hout⟩ :=
    process_dmap_returns_on_square_grid pw seeds dd funcArgs hwf hsq hlen hval
  refine ⟨fuel, out, ?_⟩
  rw [approach_on_one_grid pw fuel w map funcArgs dd hone, approachSeeds,
    query_characters_positions, hseeds, Res.ok_bind]
  exact hout

theorem approach_returns_on_square_grid_witness :
    ∃ fuel out, gen_player_approach_map samplePow fuel mixedWorld [7] ⟨.DF_POW, 2⟩ = .ok out :=
  approach_returns_on_square_grid samplePow mixedWorld [7] ⟨.DF_POW, 2⟩ square2 rfl (by decide)
    (by decide) (by decide)

/-! ## The seeding stage of the approach and hive generators -/

end DijkstraMapGen
